import Mathlib

/-!
# Syllable-minimising number names (`silly.cpp`)

A shallow embedding of the search engine of `src/silly.cpp` and theorems about it.

Conventions of the embedding.

* `int` values that index the store are `Nat`; `get_output` works on `Int`
  (the source uses `long long` and tests the sign of the result).  For the
  inputs the caller admits (`N ≤ 2000000`) no machine overflow occurs in the
  source, so no wrap-around is modelled.
* `std::vector` is `List`; reading a slot is `List.getD` (the source never
  reads outside a vector on the paths modelled here).
* The worker threads are run one after another in chunk order, which is what
  `parallel_for_chunks` does when `threads ≤ 1`; a commit is atomic (it is
  made under the stripe lock in the source).
* `get_first_extremes` and `get_second_extremes` return pairs of `double`
  computed with `std::pow` and `std::log` from `<cmath>`.  The search only ever
  compares an integer with such a bound, so a bound pair is embedded as the two
  tests `below` (value `<` min) and `above` (value `>` max), and the two
  functions are a parameter (`Pruning`) of the search.  `exact_pruning` is the
  instance in which `pow` and `log` return the exact real value.
-/

namespace Silly

/-! ## Data model -/

/-- Number of precedence tiers (`pemdas_count`). -/
def pemdas_count : Nat := 6

/-- Row of the ones/teens table. -/
structure OneName where
  card : String
  cardSyl : Nat
  ord : String
  ordSyl : Nat
deriving Repr, DecidableEq, Inhabited

/-- Row of the tens table. -/
structure TenName where
  card : String
  cardSyl : Nat
  ord : String
  ordSyl : Nat
deriving Repr, DecidableEq, Inhabited

/-- Row of the scale-word table. -/
structure LargeName where
  word : String
  syl : Nat
  base : Nat
  zeroesAdd : Nat
deriving Repr, DecidableEq, Inhabited

/-- One record of the entry store (`struct Entry`). -/
structure Entry where
  value : Nat
  syllables : List Nat
  names : List String
  equations : List String
  original : Nat
  zeroes : Nat
  digits : Nat
  nonzero : Int
  auto_pass : Bool
deriving Repr, DecidableEq, Inhabited

/-- Result of the base form resolver (`struct BaseOut`). -/
structure BaseOut where
  n_syl : Nat
  n_name : String
  frac_syl : Nat
  frac_name : String
  zeroes : Nat
  digits : Nat
deriving Repr, DecidableEq, Inhabited

/-- Unary operator descriptor (`struct UnaryOp`). -/
structure UnaryOp where
  id : String
  syllables : Nat
  text : String
  value : Nat
  pemdas_input : Nat
  pemdas_result : Nat
deriving Repr, DecidableEq, Inhabited

/-- Binary operator descriptor (`struct BinaryOp`). -/
structure BinaryOp where
  id : String
  syllables : Nat
  text : String
  suffix : String
  pemdas_left : Nat
  pemdas_right : Nat
  pemdas_result : Nat
deriving Repr, DecidableEq, Inhabited

/-! ## Tables -/

/-- Ones and teens, 0 to 19. -/
def one_names : List OneName :=
  [ ⟨"zero", 2, "zeroeth", 2⟩,
    ⟨"one", 1, "first", 1⟩,
    ⟨"two", 1, "second", 2⟩,
    ⟨"three", 1, "third", 1⟩,
    ⟨"four", 1, "fourth", 1⟩,
    ⟨"five", 1, "fifth", 1⟩,
    ⟨"six", 1, "sixth", 1⟩,
    ⟨"seven", 2, "seventh", 2⟩,
    ⟨"eight", 1, "eighth", 1⟩,
    ⟨"nine", 1, "ninth", 1⟩,
    ⟨"ten", 1, "tenth", 1⟩,
    ⟨"eleven", 3, "eleventh", 3⟩,
    ⟨"twelve", 1, "twelfth", 1⟩,
    ⟨"thirteen", 2, "thirteenth", 2⟩,
    ⟨"fourteen", 2, "fourteenth", 2⟩,
    ⟨"fifteen", 2, "fifteenth", 2⟩,
    ⟨"sixteen", 2, "sixteenth", 2⟩,
    ⟨"seventeen", 3, "seventeenth", 3⟩,
    ⟨"eighteen", 2, "eighteenth", 2⟩,
    ⟨"nineteen", 2, "nineteenth", 2⟩ ]

/-- Tens, indexed by the tens digit. -/
def ten_names : List TenName :=
  [ ⟨"", 0, "", 0⟩,
    ⟨"", 0, "", 0⟩,
    ⟨"twenty", 2, "twentieth", 3⟩,
    ⟨"thirty", 2, "thirtieth", 3⟩,
    ⟨"forty", 2, "fortieth", 3⟩,
    ⟨"fifty", 2, "fiftieth", 3⟩,
    ⟨"sixty", 2, "sixtieth", 3⟩,
    ⟨"seventy", 3, "seventieth", 4⟩,
    ⟨"eighty", 2, "eightieth", 3⟩,
    ⟨"ninety", 2, "ninetieth", 3⟩ ]

/-- Scale words. -/
def large_names : List LargeName :=
  [ ⟨"hundred", 2, 100, 2⟩,
    ⟨"thousand", 2, 1000, 3⟩,
    ⟨"million", 2, 1000000, 6⟩,
    ⟨"billion", 2, 1000000000, 9⟩ ]

/-- Exponent glyphs, 0 to 23. -/
def superscripts : List String :=
  [ "⁰", "¹", "²", "³", "⁴", "⁵", "⁶", "⁷", "⁸", "⁹",
    "¹⁰", "¹¹", "¹²", "¹³", "¹⁴", "¹⁵", "¹⁶", "¹⁷", "¹⁸", "¹⁹",
    "²⁰", "²¹", "²²", "²³" ]

/-- The unary operator table of `number_names_generator`. -/
def unary : List UnaryOp :=
  [ ⟨"²", 1, " squared", 2, 2, 2⟩,
    ⟨"³", 1, " cubed", 3, 2, 2⟩ ]

/-- The binary operator table of `number_names_generator`. -/
def binary : List BinaryOp :=
  [ ⟨"+", 1, " plus ", "", 5, 5, 5⟩,
    ⟨"*", 1, " times ", "", 3, 4, 4⟩,
    ⟨"*", 1, " times ", "", 3, 3, 3⟩,
    ⟨"-", 2, " minus ", "", 5, 4, 5⟩,
    ⟨"/", 2, " over ", "", 3, 2, 4⟩,
    ⟨"fraction", 0, " ", "s", 2, 0, 2⟩,
    ⟨"^", 2, " to the ", "", 2, 0, 2⟩ ]

/-! ## Base form resolver -/

/-- The `while` loop of `base_syllables` that selects the scale word; it runs at
most `large_names.size() - 1` times, so `fuel = large_names.length` is enough. -/
def large_index_loop (n : Nat) : Nat → Nat → Nat
  | 0, i => i
  | fuel + 1, i =>
    if i + 1 < large_names.length ∧ (large_names.getD (i + 1) default).base ≤ n then
      large_index_loop n fuel (i + 1)
    else i

/-- Embedding of `base_syllables(n)`, reading the store `number_names` built so far. -/
def base_syllables (number_names : List Entry) (n : Nat) : BaseOut :=
  if n < 20 then
    let o := one_names.getD n default
    ⟨o.cardSyl, o.card, o.ordSyl, o.ord, 0, 1⟩
  else if n < 100 then
    let n_mod := n % 10
    let n_div := n / 10
    if n_mod = 0 then
      let t := ten_names.getD n_div default
      ⟨t.cardSyl, t.card, t.ordSyl, t.ord, 1, 2⟩
    else
      let mod := number_names.getD n_mod default
      let t := ten_names.getD n_div default
      ⟨t.cardSyl + mod.syllables.getD 1 0,
       t.card ++ "-" ++ mod.names.getD 1 "",
       t.cardSyl + mod.syllables.getD 0 0,
       t.card ++ "-" ++ mod.names.getD 0 "",
       0, 2⟩
  else
    let large_index := large_index_loop n large_names.length 0
    let L := large_names.getD large_index default
    let n_mod := n % L.base
    let n_div := n / L.base
    if n_mod = 0 then
      let div := number_names.getD n_div default
      ⟨div.syllables.getD 1 0 + L.syl,
       div.names.getD 1 "" ++ " " ++ L.word,
       div.syllables.getD 1 0 + L.syl,
       div.names.getD 1 "" ++ " " ++ L.word ++ "th",
       L.zeroesAdd + div.zeroes,
       L.zeroesAdd + div.digits⟩
    else
      let div := number_names.getD n_div default
      let mod := number_names.getD n_mod default
      ⟨div.syllables.getD 1 0 + L.syl + 0 + mod.syllables.getD 1 0,
       div.names.getD 1 "" ++ " " ++ L.word ++ " " ++ mod.names.getD 1 "",
       div.syllables.getD 1 0 + L.syl + 0 + mod.syllables.getD 0 0,
       div.names.getD 1 "" ++ " " ++ L.word ++ " " ++ mod.names.getD 0 "",
       mod.zeroes,
       L.zeroesAdd + div.digits⟩

/-! ## Operand bounds and operator evaluation -/

/-- A pair `(min, max)` of `double` bounds, through the only two things the
search does with it: `below v` is `v < min`, `above v` is `v > max`. -/
structure Extremes where
  below : Nat → Bool
  above : Nat → Bool

/-- The two bound functions the search is run with. -/
structure Pruning where
  first : String → Nat → Nat → Extremes
  second : String → Nat → Nat → Nat → Extremes

/-- Embedding of `get_first_extremes(id, min_missing, max_number)` with exact
roots: `v < x^(1/k)` is `v^k < x` and `v > x^(1/k)` is `v^k > x`. -/
def get_first_extremes (id : String) (min_missing max_number : Nat) : Extremes :=
  if id = "²" then
    ⟨fun v => decide (v ^ 2 < min_missing), fun v => decide (v ^ 2 > max_number)⟩
  else if id = "³" then
    ⟨fun v => decide (v ^ 3 < min_missing), fun v => decide (v ^ 3 > max_number)⟩
  else if id = "+" then
    ⟨fun v => decide (v < 6), fun v => decide ((v : Int) > (max_number : Int) - 1)⟩
  else if id = "*" then
    ⟨fun v => decide (v < 2), fun v => decide (v ^ 2 > max_number)⟩
  else if id = "-" then
    ⟨fun v => decide (v < min_missing + 1), fun v => decide (v > max_number)⟩
  else if id = "/" ∨ id = "fraction" then
    ⟨fun v => decide (v < min_missing * 2), fun v => decide (v > max_number)⟩
  else if id = "^" then
    ⟨fun v => decide (v < 2), fun v => decide (v ^ 5 > max_number)⟩
  else
    ⟨fun _ => false, fun v => decide (v > 0)⟩

/-- Embedding of `get_second_extremes(id, min_missing, max_number, left_value)`
with exact quotients and logarithms: `v > max_number / left` is
`v * left > max_number`, `ceil(min_missing / left)` is the integer ceiling, and
`v > log max_number / log left` is `left ^ v > max_number` (the search calls it
with `left ≥ 2` for `*` and `^`). -/
def get_second_extremes (id : String) (min_missing max_number left_value : Nat) : Extremes :=
  if id = "+" then
    ⟨fun v => decide (v < 1),
     fun v => decide ((v : Int) > min (left_value : Int) ((max_number : Int) - left_value))⟩
  else if id = "*" then
    ⟨fun v => decide (v < max left_value ((min_missing + left_value - 1) / left_value)),
     fun v => decide (v * left_value > max_number)⟩
  else if id = "-" then
    ⟨fun v => decide (v < 1),
     fun v => decide ((v : Int) > (left_value : Int) - (min_missing : Int))⟩
  else if id = "/" ∨ id = "fraction" then
    ⟨fun v => decide (v < 2), fun v => decide (2 * v > left_value)⟩
  else if id = "^" then
    ⟨fun v => decide (v < 5), fun v => decide (left_value ^ v > max_number)⟩
  else
    ⟨fun _ => false, fun v => decide (v > 0)⟩

/-- The bounds of the source, with exact real arithmetic. -/
def exact_pruning : Pruning := ⟨get_first_extremes, get_second_extremes⟩

/-- Embedding of `get_output(id, left_value, right_value)`: the result and the
`ok` flag.  Division and remainder truncate towards zero as in C++. -/
def get_output (id : String) (left_value : Int) (right_value : Int) : Int × Bool :=
  if id = "²" then (left_value * left_value, true)
  else if id = "³" then (left_value * left_value * left_value, true)
  else if id = "^" then (left_value ^ right_value.toNat, true)
  else if id = "+" then (left_value + right_value, true)
  else if id = "*" then (left_value * right_value, true)
  else if id = "-" then (left_value - right_value, true)
  else if id = "/" ∨ id = "fraction" then
    if right_value ≠ 0 ∧ left_value.tmod right_value = 0 then
      (left_value.tdiv right_value, true)
    else (0, false)
  else (0, false)

/-! ## Seeding -/

/-- Body of the base-fill loop: the entry created for `n` from the store so far. -/
def seed_entry (number_names : List Entry) (n : Nat) : Entry :=
  let b := base_syllables number_names n
  let adj_zeroes := if b.zeroes > 3 then (b.zeroes / 3) * 3 else b.zeroes
  { value := n
    syllables := (List.replicate pemdas_count b.n_syl).set 0 b.frac_syl
    names := (List.replicate pemdas_count b.n_name).set 0 b.frac_name
    equations := List.replicate pemdas_count (toString n)
    original := b.n_syl
    zeroes := adj_zeroes
    digits := b.digits
    nonzero := (b.digits : Int) - (b.zeroes : Int)
    auto_pass := (decide (n % 100 < 20) && decide (n % 100 > 0)) || decide (b.zeroes < 1)
      || decide (b.digits < 3) }

/-- The base-fill loop `for (n = 0; n <= max_number; ++n)`: the store with the
entries `0..max_number` and the running `max_syllables`. -/
def base_fill : Nat → List Entry × Nat
  | 0 => ([seed_entry [] 0], max 0 (base_syllables [] 0).n_syl)
  | n + 1 =>
    let p := base_fill n
    (p.1 ++ [seed_entry p.1 (n + 1)], max p.2 (base_syllables p.1 (n + 1)).n_syl)

/-- The special case after the base fill: the modifier form of 2 is "halve". -/
def halve (max_number : Nat) (number_names : List Entry) : List Entry :=
  if max_number ≥ 2 then
    let e := number_names.getD 2 default
    number_names.set 2 { e with syllables := e.syllables.set 0 1, names := e.names.set 0 "halve" }
  else number_names

/-- The store when the budget loop starts. -/
def seeded (max_number : Nat) : List Entry := halve max_number (base_fill max_number).1

/-- The value of `max_syllables` when the budget loop starts. -/
def max_syllables (max_number : Nat) : Nat := (base_fill max_number).2

/-! ## Relaxation -/

/-- What a candidate sweep mutates: the store and the list of new outputs per tier. -/
structure Sweep where
  number_names : List Entry
  newouts : List (List Nat)
deriving Repr, DecidableEq, Inhabited

/-- Body of the commit loop for one tier `u`. -/
def commit_tier (s out : Nat) (new_name new_equation : String) (w : Sweep) (u : Nat) : Sweep :=
  let e := w.number_names.getD out default
  if e.syllables.getD u 0 ≥ s then
    let e1 := { e with names := e.names.set u new_name, equations := e.equations.set u new_equation }
    if e.syllables.getD u 0 > s then
      ⟨w.number_names.set out { e1 with syllables := e1.syllables.set u s },
       w.newouts.set u (w.newouts.getD u [] ++ [out])⟩
    else ⟨w.number_names.set out e1, w.newouts⟩
  else w

/-- The commit made under the stripe lock:
`for (u = op.pemdas_result; u < pemdas_count; ++u)`. -/
def commit (pemdas_result s out : Nat) (new_name new_equation : String) (w : Sweep) : Sweep :=
  (List.range' pemdas_result (pemdas_count - pemdas_result)).foldl
    (commit_tier s out new_name new_equation) w

/-- The pruning rule of the fraction operator. -/
def fraction_skip (L R : Entry) (right_value : Nat) : Bool :=
  !L.auto_pass && decide (right_value ≠ 2) && decide (L.zeroes ≥ R.digits)
    && (decide (L.nonzero > 1) || decide (R.nonzero > 1))
    && decide (L.names.getD 1 "" = L.names.getD 2 "")

/-- Equation text of a binary candidate. -/
def binary_equation (op : BinaryOp) (L R : Entry) (right_value : Nat) : String :=
  let new_equation := L.equations.getD op.pemdas_left ""
  if op.id = "^" then
    if new_equation = L.equations.getD 1 "" then
      new_equation ++ " " ++ superscripts.getD right_value ""
    else "(" ++ new_equation ++ ") " ++ superscripts.getD right_value ""
  else
    (if op.id = "fraction" then new_equation ++ " / " else new_equation ++ (" " ++ op.id ++ " "))
      ++ R.equations.getD op.pemdas_right ""

/-- Body of the inner loop of a binary sweep for one pair that passed the bounds. -/
def binary_candidate (max_number s : Nat) (op : BinaryOp) (left_value right_value : Nat)
    (w : Sweep) : Sweep :=
  let L := w.number_names.getD left_value default
  let R := w.number_names.getD right_value default
  if op.id = "fraction" ∧ fraction_skip L R right_value = true then w
  else if op.id = "^" ∧ right_value ≥ superscripts.length then w
  else
    let r := get_output op.id left_value right_value
    if r.2 = false then w
    else if r.1 < 0 ∨ r.1 > max_number then w
    else
      commit op.pemdas_result s r.1.toNat
        (L.names.getD op.pemdas_left "" ++ op.text ++ R.names.getD op.pemdas_right "" ++ op.suffix)
        (binary_equation op L R right_value) w

/-- The loop over `right_list`: `continue` below the minimum, `break` above the maximum. -/
def right_loop (max_number s : Nat) (op : BinaryOp) (left_value : Nat) (ext : Extremes) :
    List Nat → Sweep → Sweep
  | [], w => w
  | right_value :: rest, w =>
    if ext.below right_value then right_loop max_number s op left_value ext rest w
    else if ext.above right_value then w
    else right_loop max_number s op left_value ext rest
      (binary_candidate max_number s op left_value right_value w)

/-- The loop over `left_list` of one worker. -/
def left_loop (X : Pruning) (min_missing max_number s : Nat) (op : BinaryOp) (ext : Extremes)
    (right_list : List Nat) : List Nat → Sweep → Sweep
  | [], w => w
  | left_value :: rest, w =>
    if ext.below left_value then left_loop X min_missing max_number s op ext right_list rest w
    else if ext.above left_value then w
    else left_loop X min_missing max_number s op ext right_list rest
      (right_loop max_number s op left_value (X.second op.id min_missing max_number left_value)
        right_list w)

/-- Equation text of a unary candidate. -/
def unary_equation (op : UnaryOp) (I : Entry) : String :=
  let new_equation := I.equations.getD op.pemdas_input ""
  if new_equation = I.equations.getD 1 "" then new_equation ++ " " ++ op.id
  else "(" ++ new_equation ++ ") " ++ op.id

/-- Body of the loop of a unary sweep for one input that passed the bounds. -/
def unary_candidate (max_number s : Nat) (op : UnaryOp) (input_value : Nat) (w : Sweep) : Sweep :=
  let I := w.number_names.getD input_value default
  let r := get_output op.id input_value 0
  if r.2 = false then w
  else if r.1 < 0 ∨ r.1 > max_number then w
  else
    commit op.pemdas_result s r.1.toNat (I.names.getD op.pemdas_input "" ++ op.text)
      (unary_equation op I) w

/-- The loop over `in_list` of one worker. -/
def unary_loop (max_number s : Nat) (op : UnaryOp) (ext : Extremes) : List Nat → Sweep → Sweep
  | [], w => w
  | input_value :: rest, w =>
    if ext.below input_value then unary_loop max_number s op ext rest w
    else if ext.above input_value then w
    else unary_loop max_number s op ext rest (unary_candidate max_number s op input_value w)

/-! ## Syllable index -/

/-- Result of `std::unique`: runs of equal neighbours collapse to one element. -/
def unique : List Nat → List Nat
  | [] => []
  | [x] => [x]
  | x :: y :: t => if x = y then unique (y :: t) else x :: unique (y :: t)

/-- Result of `std::sort` followed by `erase(unique(..))`. -/
def sort_unique (l : List Nat) : List Nat := unique (l.insertionSort (· ≤ ·))

/-- Result of `vector::resize(n)` with fill value `d`. -/
def resize {α : Type} (l : List α) (n : Nat) (d : α) : List α :=
  l.take n ++ List.replicate (n - l.length) d

/-- Append the lists `locals[u]` to `syllable_key[s][u]`, sort and deduplicate,
for `u = 0 .. pemdas_count - 1`. -/
def merge_key (s : Nat) (syllable_key : List (List (List Nat))) (locals : List (List Nat)) :
    List (List (List Nat)) :=
  (List.range pemdas_count).foldl
    (fun key u =>
      key.set s ((key.getD s []).set u (sort_unique ((key.getD s []).getD u [] ++ locals.getD u []))))
    syllable_key

/-- The inner tier loop of the index fill for one integer `n`, over the tiers `us`. -/
def fill_tiers (s n : Nat) (syllables : List Nat) : List Nat → List (List Nat) → List (List Nat)
  | [], loc => loc
  | u :: us, loc =>
    let cur := syllables.getD u 0
    if cur < s then loc
    else if cur = s then fill_tiers s n syllables us (loc.set u (loc.getD u [] ++ [n]))
    else if u > 0 then loc
    else fill_tiers s n syllables us loc

/-- The index-fill scan of `[min_missing, max_number]`. -/
def fill_scan (s min_missing max_number : Nat) (number_names : List Entry) : List (List Nat) :=
  (List.range' min_missing (max_number + 1 - min_missing)).foldl
    (fun loc n => fill_tiers s n (number_names.getD n default).syllables (List.range pemdas_count) loc)
    (List.replicate pemdas_count [])

/-! ## The layered search -/

/-- Search state between phases. -/
structure State where
  number_names : List Entry
  syllable_key : List (List (List Nat))
  min_missing : Nat
deriving Repr, DecidableEq, Inhabited

/-- Start of layer `s`: extend the index by the bucket row for `s` and fill it. -/
def fill_index (max_number s : Nat) (st : State) : State :=
  let key := (resize st.syllable_key (s + 1) []).set s (List.replicate pemdas_count [])
  { st with syllable_key :=
      merge_key s key (fill_scan s st.min_missing max_number st.number_names) }

/-- One split `left_syl` of one binary operator in layer `s`. -/
def binary_split (X : Pruning) (max_number s : Nat) (op : BinaryOp) (ext : Extremes)
    (st : State) (left_syl : Nat) : State :=
  let left_list := (st.syllable_key.getD left_syl []).getD op.pemdas_left []
  if left_list.isEmpty then st
  else
    let right_syl := s - op.syllables - left_syl
    let right_list := (st.syllable_key.getD right_syl []).getD op.pemdas_right []
    if right_list.isEmpty then st
    else
      let w := left_loop X st.min_missing max_number s op ext right_list left_list
        ⟨st.number_names, List.replicate pemdas_count []⟩
      { st with number_names := w.number_names,
                syllable_key := merge_key s st.syllable_key w.newouts }

/-- One binary operator in layer `s`:
`for (left_syl = 0; left_syl < s - op.syllables; ++left_syl)`. -/
def binary_op (X : Pruning) (max_number s : Nat) (st : State) (op : BinaryOp) : State :=
  (List.range (s - op.syllables)).foldl
    (binary_split X max_number s op (X.first op.id st.min_missing max_number)) st

/-- One unary operator in layer `s`. -/
def unary_op (X : Pruning) (max_number s : Nat) (st : State) (op : UnaryOp) : State :=
  if s ≤ op.syllables then st
  else
    let in_list := (st.syllable_key.getD (s - op.syllables) []).getD op.pemdas_input []
    if in_list.isEmpty then st
    else
      let w := unary_loop max_number s op (X.first op.id st.min_missing max_number) in_list
        ⟨st.number_names, List.replicate pemdas_count []⟩
      { st with number_names := w.number_names,
                syllable_key := merge_key s st.syllable_key w.newouts }

/-- The `while` loop that advances `min_missing`; it runs at most
`leave_point + 1` times. -/
def advance (leave_point s : Nat) (number_names : List Entry) : Nat → Nat → Nat
  | 0, min_missing => min_missing
  | fuel + 1, min_missing =>
    if min_missing ≤ leave_point ∧
        ((number_names.getD min_missing default).syllables.getLastD 0) ≤ s then
      advance leave_point s number_names fuel (min_missing + 1)
    else min_missing

/-- The work of layer `s` before the pointer is advanced. -/
def layer_ops (X : Pruning) (max_number s : Nat) (st : State) : State :=
  unary.foldl (unary_op X max_number s)
    (binary.foldl (binary_op X max_number s) (fill_index max_number s st))

/-- Body of the budget loop for budget `s`. -/
def layer (X : Pruning) (leave_point max_number s : Nat) (st : State) : State :=
  let st1 := layer_ops X max_number s st
  { st1 with min_missing :=
      advance leave_point s st1.number_names (leave_point + 1) st1.min_missing }

/-- The budget loop `for (s = 1; s <= max_syllables; ++s)` from budget `s` with
`fuel = max_syllables + 1 - s` iterations left; returns the final state and the
last budget whose layer was executed. -/
def budget_loop (X : Pruning) (leave_point max_number : Nat) : Nat → Nat → State → State × Nat
  | 0, s, st => (st, s - 1)
  | fuel + 1, s, st =>
    let st1 := layer X leave_point max_number s st
    if st1.min_missing > leave_point then (st1, s)
    else budget_loop X leave_point max_number fuel (s + 1) st1

/-- The state when the budget loop starts. -/
def initial_state (max_number : Nat) : State :=
  ⟨seeded max_number, [List.replicate pemdas_count []], 1⟩

/-- Embedding of `number_names_generator(leave_point, max_number, _)`; the
progress flag only prints.  Returns the final state and the number of layers
executed. -/
def number_names_generator (X : Pruning) (leave_point max_number : Nat) : State × Nat :=
  budget_loop X leave_point max_number (max_syllables max_number) 1 (initial_state max_number)

/-- The count of integer `n` at tier `u` in a store. -/
def count (number_names : List Entry) (n u : Nat) : Nat :=
  (number_names.getD n default).syllables.getD u 0

/-- What `main` reads as `best_syl` for target `N`. -/
def best_syl (N : Nat) : Nat :=
  ((number_names_generator exact_pruning N N).1.number_names.getD N default).syllables.getLastD 0


/-! ## Auxiliary definitions for the statements -/

/-- Name of integer `n` at tier `u` in a store. -/
def name_at (number_names : List Entry) (n u : Nat) : String :=
  (number_names.getD n default).names.getD u ""

/-- Equation of integer `n` at tier `u` in a store. -/
def equation_at (number_names : List Entry) (n u : Nat) : String :=
  (number_names.getD n default).equations.getD u ""

/-- What one iteration of the commit loop does to the entry it writes. -/
def relax_entry (s u : Nat) (new_name new_equation : String) (e : Entry) : Entry :=
  if e.syllables.getD u 0 ≥ s then
    { e with
      names := e.names.set u new_name
      equations := e.equations.set u new_equation
      syllables := if e.syllables.getD u 0 > s then e.syllables.set u s else e.syllables }
  else e

/-- The iterations of the commit loop over the tiers `us`, on the entry written. -/
def relax_tiers (s : Nat) (new_name new_equation : String) (us : List Nat) (e : Entry) : Entry :=
  us.foldl (fun e u => relax_entry s u new_name new_equation e) e

/-- The fields of an entry that are set once at seeding. -/
def static_fields (e : Entry) : Nat × Nat × Nat × Nat × Int × Bool :=
  (e.value, e.original, e.zeroes, e.digits, e.nonzero, e.auto_pass)

/-- The result tiers of the declared operators. -/
def result_tiers : List Nat :=
  binary.map (fun op => op.pemdas_result) ++ unary.map (fun op => op.pemdas_result)

/-- The store has the entries `0..N`, each with its own value and six slots of
each kind. -/
def Shape (N : Nat) (nn : List Entry) : Prop :=
  nn.length = N + 1 ∧
  ∀ i, i ≤ N → (nn.getD i default).value = i ∧ (nn.getD i default).syllables.length = pemdas_count ∧
    (nn.getD i default).names.length = pemdas_count ∧
    (nn.getD i default).equations.length = pemdas_count

/-- The prefix of the store built before entry `i` is created. -/
def store_before (i : Nat) : List Entry :=
  match i with
  | 0 => []
  | k + 1 => (base_fill k).1


/-- The state after the first `k` layers (budgets `1..k`) have been executed,
whether or not the budget loop stops before `k`. -/
def after_layers (X : Pruning) (leave_point max_number : Nat) : Nat → State
  | 0 => initial_state max_number
  | k + 1 => layer X leave_point max_number (k + 1) (after_layers X leave_point max_number k)

/-- Stores reachable in a run for target range `N`: the seeded store, then any
commit with a budget `s ≥ 1` of a declared operator to an output in range, in
any order (every schedule of the workers is a sequence of such commits). -/
inductive Reachable (N : Nat) : List Entry → Prop
  | seed : Reachable N (seeded N)
  | commit (w : Sweep) (r s out : Nat) (nm eq : String) :
      Reachable N w.number_names → 1 ≤ s → r ∈ result_tiers → out ≤ N →
      Reachable N (commit r s out nm eq w).number_names

/-- Two stores agree on everything a commit of a declared operator cannot write:
the static fields of every entry and its slots at tiers 0 and 1. -/
def FrameEq (a b : List Entry) : Prop :=
  a.length = b.length ∧ ∀ n, static_fields (a.getD n default) = static_fields (b.getD n default) ∧
    ∀ u, u < 2 → count a n u = count b n u ∧ name_at a n u = name_at b n u ∧
      equation_at a n u = equation_at b n u


/-! ## Reference semantics: expression trees

The claims on optimality compare the search with the cheapest expression
tree.  The following definitions follow the wording of the claims, not the
search code. -/

/-- An expression tree: a seeded base form (cardinal or modifier) of an integer,
or an operator applied to trees. -/
inductive Tree where
  | cardinal (n : Nat) : Tree
  | modifier (n : Nat) : Tree
  | unary (op : UnaryOp) (t : Tree) : Tree
  | binary (op : BinaryOp) (l r : Tree) : Tree
deriving Repr, DecidableEq

/-- The tiers at which the form a tree produces may be used: a cardinal at tiers
1 to 5, a modifier at tier 0, an operator result at its result tier and every
looser tier. -/
def Tree.usable : Tree → Nat → Bool
  | .cardinal _, u => decide (1 ≤ u) && decide (u < pemdas_count)
  | .modifier _, u => decide (u = 0)
  | .unary op _, u => decide (op.pemdas_result ≤ u) && decide (u < pemdas_count)
  | .binary op _ _, u => decide (op.pemdas_result ≤ u) && decide (u < pemdas_count)

/-- The value of a tree that is well formed for the range `[0, N]`: leaves are
integers of `[1, N]`, operators are declared ones applied to operands usable at
the tiers they require, divisions are exact, and every intermediate value lies in
`[0, N]`; `none` otherwise. -/
def Tree.eval (N : Nat) : Tree → Option Nat
  | .cardinal n => if 1 ≤ n ∧ n ≤ N then some n else none
  | .modifier n => if 1 ≤ n ∧ n ≤ N then some n else none
  | .unary op t =>
    match t.eval N with
    | some v =>
      if op ∈ Silly.unary ∧ t.usable op.pemdas_input = true ∧ (get_output op.id v 0).2 = true ∧
          0 ≤ (get_output op.id v 0).1 ∧ (get_output op.id v 0).1 ≤ N then
        some (get_output op.id v 0).1.toNat
      else none
    | none => none
  | .binary op l r =>
    match l.eval N, r.eval N with
    | some a, some b =>
      if op ∈ Silly.binary ∧ l.usable op.pemdas_left = true ∧ r.usable op.pemdas_right = true ∧
          (get_output op.id a b).2 = true ∧
          0 ≤ (get_output op.id a b).1 ∧ (get_output op.id a b).1 ≤ N then
        some (get_output op.id a b).1.toNat
      else none
    | _, _ => none

/-- The syllable cost of a tree: the seeded counts of its leaves (baseline count of
a cardinal, tier-0 count of a modifier) plus the costs of its operators. -/
def Tree.cost (N : Nat) : Tree → Nat
  | .cardinal n => ((seeded N).getD n default).original
  | .modifier n => count (seeded N) n 0
  | .unary op t => op.syllables + t.cost N
  | .binary op l r => op.syllables + l.cost N + r.cost N

/-- The count `c` is the least cost of a tree for `N` usable at the loosest tier. -/
def IsMinimum (N c : Nat) : Prop :=
  (∃ t : Tree, t.eval N = some N ∧ t.usable 5 = true ∧ t.cost N = c) ∧
  ∀ t : Tree, t.eval N = some N → t.usable 5 = true → c ≤ t.cost N

/-- Cheapest costs of the integers `0..50` at the tiers `0..5` when intermediate
values stay within `[0, 50]`. -/
def least50 : List (List Nat) :=
  [[2, 2, 2, 2, 2, 2], [1, 1, 1, 1, 1, 1], [1, 1, 1, 1, 1, 1], [1, 1, 1, 1, 1, 1],
   [1, 1, 1, 1, 1, 1], [1, 1, 1, 1, 1, 1], [1, 1, 1, 1, 1, 1], [2, 2, 2, 2, 2, 2],
   [1, 1, 1, 1, 1, 1], [1, 1, 1, 1, 1, 1], [1, 1, 1, 1, 1, 1], [3, 3, 3, 3, 3, 3],
   [1, 1, 1, 1, 1, 1], [2, 2, 2, 2, 2, 2], [2, 2, 2, 2, 2, 2], [2, 2, 2, 2, 2, 2],
   [2, 2, 2, 2, 2, 2], [3, 3, 3, 3, 3, 3], [2, 2, 2, 2, 2, 2], [2, 2, 2, 2, 2, 2],
   [3, 2, 2, 2, 2, 2], [3, 3, 3, 3, 3, 3], [4, 3, 3, 3, 3, 3], [3, 3, 3, 3, 3, 3],
   [3, 3, 3, 3, 3, 3], [3, 3, 2, 2, 2, 2], [3, 3, 3, 3, 3, 3], [4, 4, 2, 2, 2, 2],
   [3, 3, 3, 3, 3, 3], [3, 3, 3, 3, 3, 3], [3, 2, 2, 2, 2, 2], [3, 3, 3, 3, 3, 3],
   [4, 3, 3, 3, 3, 3], [3, 3, 3, 3, 3, 3], [3, 3, 3, 3, 3, 3], [3, 3, 3, 3, 3, 3],
   [3, 3, 2, 2, 2, 2], [4, 4, 4, 4, 4, 4], [3, 3, 3, 3, 3, 3], [3, 3, 3, 3, 3, 3],
   [3, 2, 2, 2, 2, 2], [3, 3, 3, 3, 3, 3], [4, 3, 3, 3, 3, 3], [3, 3, 3, 3, 3, 3],
   [3, 3, 3, 3, 3, 3], [3, 3, 3, 3, 3, 3], [3, 3, 3, 3, 3, 3], [4, 4, 4, 4, 4, 4],
   [3, 3, 3, 3, 3, 3], [3, 3, 3, 3, 3, 3], [3, 2, 2, 2, 2, 2]]

/-- Lookup in `least50`. -/
def least50_at (n u : Nat) : Nat := (least50.getD n []).getD u 0

/-- A cheapest tree for each target of `[1, 50]`: the base cardinal, except for
25, 27 and 36. -/
def best_tree (N : Nat) : Tree :=
  if N = 25 then .unary ⟨"²", 1, " squared", 2, 2, 2⟩ (.cardinal 5)
  else if N = 27 then .unary ⟨"³", 1, " cubed", 3, 2, 2⟩ (.cardinal 3)
  else if N = 36 then .unary ⟨"²", 1, " squared", 2, 2, 2⟩ (.cardinal 6)
  else .cardinal N


/-! ## The store as a global variable -/

/-- The indices of `number_names` that `base_syllables(n)` reads: the remainder for
a composite below 100, the multiplier and a non-zero remainder from 100 on. -/
def base_reads (n : Nat) : List Nat :=
  if n < 20 then []
  else if n < 100 then (if n % 10 = 0 then [] else [n % 10])
  else
    let L := large_names.getD (large_index_loop n large_names.length 0) default
    if n % L.base = 0 then [n / L.base] else [n / L.base, n % L.base]


/-! ## Auxiliary definitions for the index -/

/-- The bucket `syllable_key[s][u]`. -/
def bucket (syllable_key : List (List (List Nat))) (s u : Nat) : List Nat :=
  (syllable_key.getD s []).getD u []

/-- One iteration of the merge loop, for tier `u`. -/
def merge_step (s : Nat) (locals : List (List Nat)) (key : List (List (List Nat))) (u : Nat) :
    List (List (List Nat)) :=
  key.set s ((key.getD s []).set u (sort_unique ((key.getD s []).getD u [] ++ locals.getD u [])))

/-- The inner tier loop of the index fill gets as far as tier `u` for the counts
`syllables`: no earlier tier breaks out of the loop. -/
def scan_reaches (s : Nat) (syllables : List Nat) (k u : Nat) : Prop :=
  ∀ v, k ≤ v → v < u → s ≤ syllables.getD v 0 ∧ (syllables.getD v 0 = s ∨ v = 0)

/-- The scan appends `n` to the local list of tier `u`. -/
def scan_pushes (s : Nat) (syllables : List Nat) (u : Nat) : Prop :=
  u < pemdas_count ∧ syllables.getD u 0 = s ∧ scan_reaches s syllables 0 u

/-- Within every entry the counts do not increase from a tier to a looser one. -/
def TiersOrdered (nn : List Entry) : Prop :=
  ∀ n v u, v ≤ u → u < pemdas_count → count nn n u ≤ count nn n v

/-- Index soundness in layer `s`: the index has the rows `0..s` of six buckets
each, every bucket is strictly ascending (sorted and duplicate-free), and every
integer in the bucket of `(j, u)` has count exactly `j` at tier `u`. -/
def IndexSound (s : Nat) (st : State) : Prop :=
  st.syllable_key.length = s + 1 ∧
  (∀ j, j ≤ s → (st.syllable_key.getD j []).length = pemdas_count) ∧
  (∀ j u, (bucket st.syllable_key j u).Sorted (· < ·)) ∧
  (∀ j u n, n ∈ bucket st.syllable_key j u → count st.number_names n u = j ∧ j ≤ s)

/-- Index completeness in layer `s` over the range `[lo, N]`: every integer of the
range whose count at tier `u` is `s` is in the bucket of `(s, u)`. -/
def IndexComplete (s lo N : Nat) (st : State) : Prop :=
  ∀ n u, lo ≤ n → n ≤ N → u < pemdas_count → count st.number_names n u = s →
    n ∈ bucket st.syllable_key s u

/-- What a candidate sweep of layer `s` started on the store `nn0` maintains:
six lists of new outputs; counts only move from above `s` down to `s`; a
recorded output has count `s`; every count that moved is recorded. -/
def SweepInv (s : Nat) (nn0 : List Entry) (w : Sweep) : Prop :=
  w.newouts.length = pemdas_count ∧
  (∀ n u, count w.number_names n u = count nn0 n u ∨
    (s < count nn0 n u ∧ count w.number_names n u = s)) ∧
  (∀ u n, n ∈ w.newouts.getD u [] → count w.number_names n u = s) ∧
  (∀ n u, u < pemdas_count → count w.number_names n u ≠ count nn0 n u →
    n ∈ w.newouts.getD u [])

/-- The state after the new outputs of a sweep of layer `s` are merged into the index. -/
def merged (s : Nat) (st : State) (w : Sweep) : State :=
  { st with number_names := w.number_names,
            syllable_key := merge_key s st.syllable_key w.newouts }

/-! ## Commits of several workers

The commit block `{ std::lock_guard<std::mutex> g(lock_for(out)); for (u ...) ... }` run by
several workers at once, as a machine that a schedule drives one step at a time.  A step of a
worker is: taking the mutex (possible only while nobody holds it), one iteration of the loop
over the tiers, or leaving the block (which frees the mutex). -/

/-- Number of mutexes: `static constexpr int LOCK_STRIPES = 8192`. -/
def LOCK_STRIPES : Nat := 8192

/-- Index of the mutex that `lock_for(out)` returns: `(unsigned)out % LOCK_STRIPES`. -/
def lock_for (out : Nat) : Nat := out % LOCK_STRIPES

/-- A candidate at the point where its commit block starts. -/
structure Candidate where
  pemdas_result : Nat
  s : Nat
  out : Nat
  new_name : String
  new_equation : String
deriving Repr, DecidableEq, Inhabited

/-- A worker thread: the candidates it still has to commit (the first one is the current
one), the loop variable `u` while it is inside the block (`none` outside), and its own lists
of new outputs. -/
structure Worker where
  todo : List Candidate
  at_tier : Option Nat
  newouts : List (List Nat)
deriving Repr, DecidableEq, Inhabited

/-- The shared store, the holder of every mutex of `stripes`, and the workers. -/
structure Machine where
  number_names : List Entry
  stripes : List (Option Nat)
  workers : List Worker
deriving Repr, DecidableEq, Inhabited

/-- One step of worker `t`; the machine stays as it is when `t` has nothing left to do or
waits for a mutex that another worker holds. -/
def step (m : Machine) (t : Nat) : Machine :=
  let w := m.workers.getD t default
  match w.todo, w.at_tier with
  | [], _ => m
  | c :: _, none =>
    if m.stripes.getD (lock_for c.out) none = none then
      { m with stripes := m.stripes.set (lock_for c.out) (some t),
               workers := m.workers.set t { w with at_tier := some c.pemdas_result } }
    else m
  | c :: rest, some u =>
    if u < pemdas_count then
      let r := commit_tier c.s c.out c.new_name c.new_equation ⟨m.number_names, w.newouts⟩ u
      { m with number_names := r.number_names,
               workers := m.workers.set t { w with at_tier := some (u + 1), newouts := r.newouts } }
    else
      { m with stripes := m.stripes.set (lock_for c.out) none,
               workers := m.workers.set t { w with todo := rest, at_tier := none } }

/-- The machine after the steps of a schedule (a list of worker numbers). -/
def run (m : Machine) (schedule : List Nat) : Machine := schedule.foldl step m

/-- The machine at the start of a parallel phase: every mutex free, every worker outside the
block with empty lists of new outputs. -/
def start (number_names : List Entry) (jobs : List (List Candidate)) : Machine :=
  ⟨number_names, List.replicate LOCK_STRIPES none,
    jobs.map (fun todo => ⟨todo, none, List.replicate pemdas_count []⟩)⟩

/-- The candidate whose commit block a worker is inside of, if any. -/
def Worker.current (w : Worker) : Option Candidate :=
  match w.at_tier with
  | none => none
  | some _ => w.todo.head?

/-- The candidate whose commit block worker `t` is inside of, if any. -/
def writing (m : Machine) (t : Nat) : Option Candidate :=
  (m.workers.getD t default).current

/-- Every worker inside a block holds the mutex of its output value. -/
def LocksHeld (m : Machine) : Prop :=
  m.stripes.length = LOCK_STRIPES ∧
  ∀ t c, writing m t = some c → m.stripes.getD (lock_for c.out) none = some t

/-! ## Work partition

`parallel_for_chunks(start, end, threads, fn)` as the list of the ranges `[b, e)` that `fn` is
called on, in the order of the loop.  The arithmetic is that of `int`: every sum and product is
reduced to `[-2^31, 2^31)`, which is what the two's complement machine computes where the
mathematical value does not fit (the language leaves that case undefined). -/

/-- The number of decimal digits of `n`, as the claim on the stored digit count reads it:
the length of the decimal expansion, 1 for `n = 0`. -/
def decimal_digits (n : Nat) : Nat := if n = 0 then 1 else (Nat.digits 10 n).length

/-! ## Cost accounting

What the claim on cost accounting says of one commit, of the commits of a layer, and of the
counts and names they leave. -/

/-- The commit `commit r s out nm eq` made on the store of `w` is accounted for: it is the
candidate of a declared binary operator and two operands of `[0, N]` (or of a declared unary
operator and one input), the output is the operator's value of the operands, the budget `s` is
the operator's cost plus the current counts of the operands at the tiers the operator reads,
and the name is put together from the current names of the operands at these tiers. -/
def Accounted (N s : Nat) (w : Sweep) (r out : Nat) (nm : String) : Prop :=
  (∃ op ∈ binary, ∃ l rv : Nat, l ≤ N ∧ rv ≤ N ∧ r = op.pemdas_result ∧
    get_output op.id l rv = ((out : Int), true) ∧ out ≤ N ∧
    s = op.syllables + count w.number_names l op.pemdas_left +
      count w.number_names rv op.pemdas_right ∧
    nm = name_at w.number_names l op.pemdas_left ++ op.text ++
      name_at w.number_names rv op.pemdas_right ++ op.suffix) ∨
  (∃ op ∈ unary, ∃ v : Nat, v ≤ N ∧ r = op.pemdas_result ∧
    get_output op.id v 0 = ((out : Int), true) ∧ out ≤ N ∧
    s = op.syllables + count w.number_names v op.pemdas_input ∧
    nm = name_at w.number_names v op.pemdas_input ++ op.text)

/-- The store `nn` arises from the store `nn0` by a sequence of commits of budget `s`, each of
them accounted for. -/
inductive AccountedRun (N s : Nat) (nn0 : List Entry) : List Entry → Prop
  | start : AccountedRun N s nn0 nn0
  | commit (w : Sweep) (r out : Nat) (nm eq : String) :
      AccountedRun N s nn0 w.number_names → Accounted N s w r out nm →
      AccountedRun N s nn0 (commit r s out nm eq w).number_names

/-- The name `nm` names the integer `n` at tier `u` with `c` syllables: it is the seeded form
of `n` at that tier with its seeded count, or the name of an operand followed by the text of a
unary operator, or the names of two operands joined by the text and suffix of a binary operator,
with the operator's cost added to the syllables of the operands; operands are taken at the tiers
the operator reads, the result is usable from the operator's result tier on, and every value
lies in `[0, N]`. -/
inductive Derivation (N : Nat) : Nat → Nat → Nat → String → Prop
  | base (n u : Nat) : n ≤ N → u < pemdas_count →
      Derivation N n u (count (seeded N) n u) (name_at (seeded N) n u)
  | unary (op : UnaryOp) (v out u c : Nat) (nm : String) : op ∈ Silly.unary →
      Derivation N v op.pemdas_input c nm → get_output op.id v 0 = ((out : Int), true) →
      out ≤ N → op.pemdas_result ≤ u → u < pemdas_count →
      Derivation N out u (op.syllables + c) (nm ++ op.text)
  | binary (op : BinaryOp) (l r out u cl cr : Nat) (nl nr : String) : op ∈ Silly.binary →
      Derivation N l op.pemdas_left cl nl → Derivation N r op.pemdas_right cr nr →
      get_output op.id l r = ((out : Int), true) → out ≤ N →
      op.pemdas_result ≤ u → u < pemdas_count →
      Derivation N out u (op.syllables + cl + cr) (nl ++ op.text ++ nr ++ op.suffix)

/-- Every slot of the store holds a name and the number of its syllables. -/
def Derived (N : Nat) (nn : List Entry) : Prop :=
  Shape N nn ∧
  ∀ n u, n ≤ N → u < pemdas_count → Derivation N n u (count nn n u) (name_at nn n u)

/-- What a sweep of layer `s` keeps, started on the store of a state of the layer. -/
def SweepAccounted (N s : Nat) (nn0 : List Entry) (st : State) (w : Sweep) : Prop :=
  SweepInv s st.number_names w ∧ w.number_names.length = N + 1 ∧
    AccountedRun N s nn0 w.number_names

/-- What the phases of layer `s` keep. -/
def LayerAccounted (N s : Nat) (nn0 : List Entry) (st : State) : Prop :=
  IndexSound s st ∧ (∀ u, bucket st.syllable_key 0 u = []) ∧
    st.number_names.length = N + 1 ∧ AccountedRun N s nn0 st.number_names

/-! ## Reading an equation text

The reader that the claim on equation faithfulness refers to: parentheses as written, a
trailing superscript as a power binding tightest, then `*` and `/` left-associative, then `+`
and `-` left-associative.  Values are fractions `(p, q)` standing for `p / q`. -/

theorem getD_set_eq {α : Type} (l : List α) (i j : Nat) (a d : α) :
    (l.set i a).getD j d = if i = j ∧ i < l.length then a else l.getD j d := by
  simp only [List.getD_eq_getElem?_getD, List.getElem?_set]
  by_cases h : i = j
  · subst h
    by_cases h2 : i < l.length
    · simp [h2]
    · simp [h2, List.getElem?_eq_none (not_lt.mp h2)]
  · simp [h]

theorem getD_set_self {α : Type} (l : List α) (i : Nat) (a d : α) (h : i < l.length) :
    (l.set i a).getD i d = a := by
  rw [getD_set_eq]; simp [h]

theorem getD_set_ne {α : Type} (l : List α) (i j : Nat) (a d : α) (h : i ≠ j) :
    (l.set i a).getD j d = l.getD j d := by
  rw [getD_set_eq]; simp [h]

theorem set_getD_self {α : Type} (l : List α) (i : Nat) (d : α) :
    l.set i (l.getD i d) = l := by
  induction l generalizing i with
  | nil => simp
  | cons a t ih =>
    cases i with
    | zero => simp
    | succ k => simpa [List.getD_eq_getElem?_getD] using ih k

theorem set_set_same {α : Type} (l : List α) (i : Nat) (a b : α) :
    (l.set i a).set i b = l.set i b := by
  induction l generalizing i with
  | nil => simp
  | cons x t ih =>
    cases i with
    | zero => simp
    | succ k => simp [ih]

theorem getD_of_length_le {α : Type} (l : List α) (i : Nat) (d : α) (h : l.length ≤ i) :
    l.getD i d = d := by
  simp [List.getD_eq_getElem?_getD, List.getElem?_eq_none h]

/-! ## The commit, entry by entry -/

theorem commit_tier_store (s out : Nat) (nm eq : String) (w : Sweep) (u : Nat) :
    (commit_tier s out nm eq w u).number_names =
      w.number_names.set out (relax_entry s u nm eq (w.number_names.getD out default)) := by
  unfold commit_tier relax_entry
  simp only []
  split_ifs
  · rfl
  · rfl
  · exact (set_getD_self _ _ _).symm

theorem commit_tiers_store (s out : Nat) (nm eq : String) (us : List Nat) (w : Sweep) :
    (us.foldl (commit_tier s out nm eq) w).number_names =
      w.number_names.set out (relax_tiers s nm eq us (w.number_names.getD out default)) := by
  induction us generalizing w with
  | nil => exact (set_getD_self _ _ _).symm
  | cons u t ih =>
    simp only [List.foldl_cons]
    rw [ih, commit_tier_store, set_set_same]
    by_cases h : out < w.number_names.length
    · rw [getD_set_self _ _ _ _ h]
      simp [relax_tiers]
    · have h2 : w.number_names.length ≤ out := not_lt.mp h
      rw [List.set_eq_of_length_le (by simpa using h2), List.set_eq_of_length_le h2]

theorem commit_store (r s out : Nat) (nm eq : String) (w : Sweep) :
    (commit r s out nm eq w).number_names =
      w.number_names.set out
        (relax_tiers s nm eq (List.range' r (pemdas_count - r)) (w.number_names.getD out default)) := by
  unfold commit
  exact commit_tiers_store s out nm eq _ w

theorem relax_entry_syllables (s u : Nat) (nm eq : String) (e : Entry) (v : Nat) :
    (relax_entry s u nm eq e).syllables.getD v 0 =
      if v = u ∧ s < e.syllables.getD u 0 then s else e.syllables.getD v 0 := by
  unfold relax_entry
  by_cases h1 : e.syllables.getD u 0 ≥ s
  · by_cases h2 : e.syllables.getD u 0 > s
    · have hu : u < e.syllables.length := by
        by_contra hc
        rw [getD_of_length_le _ _ _ (not_lt.mp hc)] at h2
        omega
      simp only [h1, h2, if_true, getD_set_eq]
      by_cases hv : v = u
      · subst hv; simp [-List.getD_eq_getElem?_getD, hu]
      · have hv2 : ¬ u = v := fun h => hv h.symm
        simp [-List.getD_eq_getElem?_getD, hv, hv2]
    · have h3 : ¬ s < e.syllables.getD u 0 := h2
      simp [-List.getD_eq_getElem?_getD, h1, h3]
  · have h3 : ¬ s < e.syllables.getD u 0 := by omega
    simp [-List.getD_eq_getElem?_getD, h1, h3]

theorem relax_entry_names (s u : Nat) (nm eq : String) (e : Entry) (v : Nat) :
    (relax_entry s u nm eq e).names.getD v "" =
      if v = u ∧ s ≤ e.syllables.getD u 0 ∧ u < e.names.length then nm else e.names.getD v "" := by
  unfold relax_entry
  by_cases h1 : e.syllables.getD u 0 ≥ s
  · simp only [h1, if_true, getD_set_eq]
    by_cases hv : v = u
    · subst hv
      by_cases hl : v < e.names.length
      · simp [-List.getD_eq_getElem?_getD, hl, h1]
      · simp [-List.getD_eq_getElem?_getD, hl]
    · have hv2 : ¬ u = v := fun h => hv h.symm
      simp [-List.getD_eq_getElem?_getD, hv, hv2]
  · have h3 : ¬ s ≤ e.syllables.getD u 0 := h1
    simp [-List.getD_eq_getElem?_getD, h1, h3]

theorem relax_entry_equations (s u : Nat) (nm eq : String) (e : Entry) (v : Nat) :
    (relax_entry s u nm eq e).equations.getD v "" =
      if v = u ∧ s ≤ e.syllables.getD u 0 ∧ u < e.equations.length then eq
      else e.equations.getD v "" := by
  unfold relax_entry
  by_cases h1 : e.syllables.getD u 0 ≥ s
  · simp only [h1, if_true, getD_set_eq]
    by_cases hv : v = u
    · subst hv
      by_cases hl : v < e.equations.length
      · simp [-List.getD_eq_getElem?_getD, hl, h1]
      · simp [-List.getD_eq_getElem?_getD, hl]
    · have hv2 : ¬ u = v := fun h => hv h.symm
      simp [-List.getD_eq_getElem?_getD, hv, hv2]
  · have h3 : ¬ s ≤ e.syllables.getD u 0 := h1
    simp [-List.getD_eq_getElem?_getD, h1, h3]

theorem relax_entry_static (s u : Nat) (nm eq : String) (e : Entry) :
    static_fields (relax_entry s u nm eq e) = static_fields e ∧
    (relax_entry s u nm eq e).syllables.length = e.syllables.length ∧
    (relax_entry s u nm eq e).names.length = e.names.length ∧
    (relax_entry s u nm eq e).equations.length = e.equations.length := by
  unfold relax_entry static_fields
  split_ifs <;> simp

theorem relax_tiers_static (s : Nat) (nm eq : String) (us : List Nat) (e : Entry) :
    static_fields (relax_tiers s nm eq us e) = static_fields e ∧
    (relax_tiers s nm eq us e).syllables.length = e.syllables.length ∧
    (relax_tiers s nm eq us e).names.length = e.names.length ∧
    (relax_tiers s nm eq us e).equations.length = e.equations.length := by
  induction us generalizing e with
  | nil => simp [-List.getD_eq_getElem?_getD, relax_tiers]
  | cons u t ih =>
    have h1 := relax_entry_static s u nm eq e
    have h2 := ih (relax_entry s u nm eq e)
    simp only [relax_tiers, List.foldl_cons] at h2 ⊢
    exact ⟨h2.1.trans h1.1, h2.2.1.trans h1.2.1, h2.2.2.1.trans h1.2.2.1,
      h2.2.2.2.trans h1.2.2.2⟩

theorem relax_tiers_syllables (s : Nat) (nm eq : String) (us : List Nat) (e : Entry) (v : Nat) :
    (relax_tiers s nm eq us e).syllables.getD v 0 =
      if v ∈ us ∧ s < e.syllables.getD v 0 then s else e.syllables.getD v 0 := by
  induction us generalizing e with
  | nil => simp [-List.getD_eq_getElem?_getD, relax_tiers]
  | cons u t ih =>
    have h2 := ih (relax_entry s u nm eq e)
    simp only [relax_tiers, List.foldl_cons] at h2 ⊢
    rw [h2, relax_entry_syllables]
    by_cases hv : v = u
    · subst hv
      by_cases hs : s < e.syllables.getD v 0
      · simp [-List.getD_eq_getElem?_getD, hs]
      · simp [-List.getD_eq_getElem?_getD, hs]
    · simp [-List.getD_eq_getElem?_getD, hv]

theorem relax_tiers_names (s : Nat) (nm eq : String) (us : List Nat) (e : Entry) (v : Nat) :
    (relax_tiers s nm eq us e).names.getD v "" =
      if v ∈ us ∧ s ≤ e.syllables.getD v 0 ∧ v < e.names.length then nm
      else e.names.getD v "" := by
  induction us generalizing e with
  | nil => simp [-List.getD_eq_getElem?_getD, relax_tiers]
  | cons u t ih =>
    have h2 := ih (relax_entry s u nm eq e)
    have hlen := (relax_entry_static s u nm eq e).2.2.1
    simp only [relax_tiers, List.foldl_cons] at h2 ⊢
    rw [h2, relax_entry_names, relax_entry_syllables, hlen]
    by_cases hv : v = u
    · subst hv
      by_cases hs : s < e.syllables.getD v 0
      · have hs2 : s ≤ e.syllables.getD v 0 := le_of_lt hs
        by_cases hl : v < e.names.length
        · simp [-List.getD_eq_getElem?_getD, hs, hs2, hl]
        · simp [-List.getD_eq_getElem?_getD, hs, hs2, hl]
      · by_cases hs2 : s ≤ e.syllables.getD v 0
        · by_cases hl : v < e.names.length
          · simp [-List.getD_eq_getElem?_getD, hs, hs2, hl]
          · simp [-List.getD_eq_getElem?_getD, hs, hs2, hl]
        · simp [-List.getD_eq_getElem?_getD, hs, hs2]
    · simp [-List.getD_eq_getElem?_getD, hv]

theorem relax_tiers_equations (s : Nat) (nm eq : String) (us : List Nat) (e : Entry) (v : Nat) :
    (relax_tiers s nm eq us e).equations.getD v "" =
      if v ∈ us ∧ s ≤ e.syllables.getD v 0 ∧ v < e.equations.length then eq
      else e.equations.getD v "" := by
  induction us generalizing e with
  | nil => simp [-List.getD_eq_getElem?_getD, relax_tiers]
  | cons u t ih =>
    have h2 := ih (relax_entry s u nm eq e)
    have hlen := (relax_entry_static s u nm eq e).2.2.2
    simp only [relax_tiers, List.foldl_cons] at h2 ⊢
    rw [h2, relax_entry_equations, relax_entry_syllables, hlen]
    by_cases hv : v = u
    · subst hv
      by_cases hs : s < e.syllables.getD v 0
      · have hs2 : s ≤ e.syllables.getD v 0 := le_of_lt hs
        by_cases hl : v < e.equations.length
        · simp [-List.getD_eq_getElem?_getD, hs, hs2, hl]
        · simp [-List.getD_eq_getElem?_getD, hs, hs2, hl]
      · by_cases hs2 : s ≤ e.syllables.getD v 0
        · by_cases hl : v < e.equations.length
          · simp [-List.getD_eq_getElem?_getD, hs, hs2, hl]
          · simp [-List.getD_eq_getElem?_getD, hs, hs2, hl]
        · simp [-List.getD_eq_getElem?_getD, hs, hs2]
    · simp [-List.getD_eq_getElem?_getD, hv]

/-! ## The commit, on the store -/

theorem mem_tiers (r v : Nat) :
    v ∈ List.range' r (pemdas_count - r) ↔ r ≤ v ∧ v < pemdas_count := by
  rw [List.mem_range'_1]
  unfold pemdas_count
  omega

theorem count_default (v : Nat) : (default : Entry).syllables.getD v 0 = 0 := by
  show ([] : List Nat).getD v 0 = 0
  simp

theorem count_pos_lt_length (nn : List Entry) (n v : Nat) (h : 0 < count nn n v) :
    n < nn.length := by
  by_contra hc
  unfold count at h
  rw [getD_of_length_le _ _ _ (not_lt.mp hc), count_default] at h
  exact absurd h (lt_irrefl 0)

theorem commit_length (r s out : Nat) (nm eq : String) (w : Sweep) :
    (commit r s out nm eq w).number_names.length = w.number_names.length := by
  rw [commit_store]; simp

theorem commit_entry (r s out : Nat) (nm eq : String) (w : Sweep) (n : Nat) :
    (commit r s out nm eq w).number_names.getD n default =
      if n = out ∧ out < w.number_names.length then
        relax_tiers s nm eq (List.range' r (pemdas_count - r)) (w.number_names.getD out default)
      else w.number_names.getD n default := by
  rw [commit_store, getD_set_eq]
  by_cases h : n = out
  · subst h; simp [-List.getD_eq_getElem?_getD]
  · have h2 : ¬ out = n := fun e => h e.symm
    simp [-List.getD_eq_getElem?_getD, h, h2]

theorem commit_count (r s out : Nat) (nm eq : String) (w : Sweep) (n v : Nat) :
    count (commit r s out nm eq w).number_names n v =
      if n = out ∧ r ≤ v ∧ v < pemdas_count ∧ s < count w.number_names n v then s
      else count w.number_names n v := by
  unfold count
  rw [commit_entry]
  by_cases h : n = out
  · subst h
    by_cases hl : n < w.number_names.length
    · simp only [hl, and_self, if_true, true_and]
      rw [relax_tiers_syllables]
      simp only [mem_tiers, and_assoc]
    · have h0 : (w.number_names.getD n default).syllables.getD v 0 = 0 := by
        rw [getD_of_length_le _ _ _ (not_lt.mp hl), count_default]
      rw [if_neg (fun hh => hl hh.2), h0, if_neg (fun hh => Nat.not_lt_zero _ hh.2.2.2)]
  · simp [-List.getD_eq_getElem?_getD, h]

theorem commit_static (r s out : Nat) (nm eq : String) (w : Sweep) (n : Nat) :
    static_fields ((commit r s out nm eq w).number_names.getD n default) =
      static_fields (w.number_names.getD n default) ∧
    ((commit r s out nm eq w).number_names.getD n default).syllables.length =
      (w.number_names.getD n default).syllables.length ∧
    ((commit r s out nm eq w).number_names.getD n default).names.length =
      (w.number_names.getD n default).names.length ∧
    ((commit r s out nm eq w).number_names.getD n default).equations.length =
      (w.number_names.getD n default).equations.length := by
  rw [commit_entry]
  by_cases h : n = out ∧ out < w.number_names.length
  · rw [if_pos h, h.1]
    exact relax_tiers_static _ _ _ _ _
  · rw [if_neg h]
    exact ⟨rfl, rfl, rfl, rfl⟩

theorem commit_name (r s out : Nat) (nm eq : String) (w : Sweep) (n v : Nat) :
    name_at (commit r s out nm eq w).number_names n v =
      if n = out ∧ out < w.number_names.length ∧ r ≤ v ∧ v < pemdas_count ∧
          s ≤ count w.number_names n v ∧ v < (w.number_names.getD n default).names.length
      then nm else name_at w.number_names n v := by
  unfold name_at count
  rw [commit_entry]
  by_cases h : n = out
  · subst h
    by_cases hl : n < w.number_names.length
    · simp only [hl, and_self, if_true, true_and]
      rw [relax_tiers_names]
      simp only [mem_tiers, and_assoc]
    · simp [-List.getD_eq_getElem?_getD, hl]
  · simp [-List.getD_eq_getElem?_getD, h]

theorem commit_equation (r s out : Nat) (nm eq : String) (w : Sweep) (n v : Nat) :
    equation_at (commit r s out nm eq w).number_names n v =
      if n = out ∧ out < w.number_names.length ∧ r ≤ v ∧ v < pemdas_count ∧
          s ≤ count w.number_names n v ∧ v < (w.number_names.getD n default).equations.length
      then eq else equation_at w.number_names n v := by
  unfold equation_at count
  rw [commit_entry]
  by_cases h : n = out
  · subst h
    by_cases hl : n < w.number_names.length
    · simp only [hl, and_self, if_true, true_and]
      rw [relax_tiers_equations]
      simp only [mem_tiers, and_assoc]
    · simp [-List.getD_eq_getElem?_getD, hl]
  · simp [-List.getD_eq_getElem?_getD, h]

/-! ## Induction over the loops of a layer -/

theorem foldl_invariant {α β : Type} (P : β → Prop) (f : β → α → β) (l : List α)
    (h : ∀ b a, a ∈ l → P b → P (f b a)) (b : β) (hb : P b) : P (l.foldl f b) := by
  induction l generalizing b with
  | nil => exact hb
  | cons a t ih =>
    simp only [List.foldl_cons]
    apply ih
    · intro b2 a2 ha2 hb2
      exact h b2 a2 (List.mem_cons_of_mem _ ha2) hb2
    · exact h b a (List.mem_cons_self _ _) hb

theorem binary_candidate_cases (max_number s : Nat) (op : BinaryOp) (l r : Nat) (w : Sweep) :
    binary_candidate max_number s op l r w = w ∨
      ∃ out nm eq, out ≤ max_number ∧
        binary_candidate max_number s op l r w = commit op.pemdas_result s out nm eq w := by
  unfold binary_candidate
  simp only []
  split_ifs with h1 h2 h3 h4
  · exact Or.inl rfl
  · exact Or.inl rfl
  · exact Or.inl rfl
  · exact Or.inl rfl
  · right
    refine ⟨_, _, _, ?_, rfl⟩
    have h5 : ¬ ((get_output op.id l r).1 > max_number) := fun h => h4 (Or.inr h)
    have h6 : ¬ ((get_output op.id l r).1 < 0) := fun h => h4 (Or.inl h)
    omega

theorem unary_candidate_cases (max_number s : Nat) (op : UnaryOp) (v : Nat) (w : Sweep) :
    unary_candidate max_number s op v w = w ∨
      ∃ out nm eq, out ≤ max_number ∧
        unary_candidate max_number s op v w = commit op.pemdas_result s out nm eq w := by
  unfold unary_candidate
  simp only []
  split_ifs with h3 h4
  · exact Or.inl rfl
  · exact Or.inl rfl
  · right
    refine ⟨_, _, _, ?_, rfl⟩
    have h5 : ¬ ((get_output op.id v 0).1 > max_number) := fun h => h4 (Or.inr h)
    have h6 : ¬ ((get_output op.id v 0).1 < 0) := fun h => h4 (Or.inl h)
    omega

theorem right_loop_invariant (P : Sweep → Prop) (max_number s : Nat) (op : BinaryOp)
    (hP : ∀ w out nm eq, P w → out ≤ max_number → P (commit op.pemdas_result s out nm eq w))
    (l : Nat) (ext : Extremes) (rl : List Nat) (w : Sweep) (hw : P w) :
    P (right_loop max_number s op l ext rl w) := by
  induction rl generalizing w with
  | nil => exact hw
  | cons r t ih =>
    unfold right_loop
    split_ifs
    · exact ih w hw
    · exact hw
    · apply ih
      rcases binary_candidate_cases max_number s op l r w with h | ⟨out, nm, eq, ho, h⟩
      · rw [h]; exact hw
      · rw [h]; exact hP w out nm eq hw ho

theorem left_loop_invariant (P : Sweep → Prop) (X : Pruning) (mm max_number s : Nat)
    (op : BinaryOp)
    (hP : ∀ w out nm eq, P w → out ≤ max_number → P (commit op.pemdas_result s out nm eq w))
    (ext : Extremes) (rl ll : List Nat) (w : Sweep) (hw : P w) :
    P (left_loop X mm max_number s op ext rl ll w) := by
  induction ll generalizing w with
  | nil => exact hw
  | cons l t ih =>
    unfold left_loop
    split_ifs
    · exact ih w hw
    · exact hw
    · apply ih
      exact right_loop_invariant P max_number s op hP l _ rl w hw

theorem unary_loop_invariant (P : Sweep → Prop) (max_number s : Nat) (op : UnaryOp)
    (hP : ∀ w out nm eq, P w → out ≤ max_number → P (commit op.pemdas_result s out nm eq w))
    (ext : Extremes) (il : List Nat) (w : Sweep) (hw : P w) :
    P (unary_loop max_number s op ext il w) := by
  induction il generalizing w with
  | nil => exact hw
  | cons v t ih =>
    unfold unary_loop
    split_ifs
    · exact ih w hw
    · exact hw
    · apply ih
      rcases unary_candidate_cases max_number s op v w with h | ⟨out, nm, eq, ho, h⟩
      · rw [h]; exact hw
      · rw [h]; exact hP w out nm eq hw ho

/-- A property of the store that every commit of layer `s` keeps is kept by the
whole layer. -/
theorem layer_ops_store (Q : List Entry → Prop) (X : Pruning) (max_number s : Nat)
    (hQ : ∀ (w : Sweep) r out nm eq, Q w.number_names → r ∈ result_tiers → out ≤ max_number →
      Q (commit r s out nm eq w).number_names)
    (st : State) (h : Q st.number_names) :
    Q (layer_ops X max_number s st).number_names := by
  unfold layer_ops
  refine foldl_invariant (fun (st : State) => Q st.number_names) _ _ ?_ _ ?_
  · intro st1 op hop h1
    unfold unary_op
    simp only []
    split_ifs
    · exact h1
    · exact h1
    · exact unary_loop_invariant (fun (w : Sweep) => Q w.number_names) max_number s op
        (fun w out nm eq hw ho => hQ w _ out nm eq hw
          (by unfold result_tiers
              exact List.mem_append_right _ (List.mem_map_of_mem _ hop)) ho) _ _ _ h1
  · refine foldl_invariant (fun (st : State) => Q st.number_names) _ _ ?_ _ ?_
    · intro st1 op hop h1
      unfold binary_op
      refine foldl_invariant (fun (st : State) => Q st.number_names) _ _ ?_ _ ?_
      · intro st2 left_syl _ h2
        unfold binary_split
        simp only []
        split_ifs
        · exact h2
        · exact h2
        · exact left_loop_invariant (fun (w : Sweep) => Q w.number_names) X _ max_number s op
            (fun w out nm eq hw ho => hQ w _ out nm eq hw
              (by unfold result_tiers
                  exact List.mem_append_left _ (List.mem_map_of_mem _ hop)) ho) _ _ _ _ h2
      · exact h1
    · exact h

theorem layer_store (Q : List Entry → Prop) (X : Pruning) (leave_point max_number s : Nat)
    (hQ : ∀ (w : Sweep) r out nm eq, Q w.number_names → r ∈ result_tiers → out ≤ max_number →
      Q (commit r s out nm eq w).number_names)
    (st : State) (h : Q st.number_names) :
    Q (layer X leave_point max_number s st).number_names :=
  layer_ops_store Q X max_number s hQ st h

/-! ## The seeded store -/

theorem base_fill_length (N : Nat) : (base_fill N).1.length = N + 1 := by
  induction N with
  | zero => rfl
  | succ k ih =>
    show ((base_fill k).1 ++ [seed_entry (base_fill k).1 (k + 1)]).length = k + 1 + 1
    rw [List.length_append, ih]
    rfl

theorem getD_append_left {α : Type} (l r : List α) (i : Nat) (d : α) (h : i < l.length) :
    (l ++ r).getD i d = l.getD i d := by
  simp only [List.getD_eq_getElem?_getD]
  rw [List.getElem?_append_left h]

theorem getD_append_singleton {α : Type} (l : List α) (a d : α) :
    (l ++ [a]).getD l.length d = a := by
  simp only [List.getD_eq_getElem?_getD]
  rw [List.getElem?_append_right (le_refl _)]
  simp

theorem base_fill_step (k : Nat) :
    (base_fill (k + 1)).1 = (base_fill k).1 ++ [seed_entry (base_fill k).1 (k + 1)] := rfl

theorem base_fill_entry (N i : Nat) (h : i ≤ N) :
    (base_fill N).1.getD i default = seed_entry (store_before i) i := by
  induction N with
  | zero =>
    have : i = 0 := by omega
    subst this
    rfl
  | succ k ih =>
    rw [base_fill_step]
    by_cases hi : i ≤ k
    · rw [getD_append_left _ _ _ _ (by rw [base_fill_length]; omega)]
      exact ih hi
    · have hik : i = k + 1 := by omega
      subst hik
      have hl : (base_fill k).1.length = k + 1 := base_fill_length k
      have := getD_append_singleton (base_fill k).1 (seed_entry (base_fill k).1 (k + 1)) default
      rw [hl] at this
      rw [this]
      rfl

theorem seed_entry_value (nn : List Entry) (n : Nat) : (seed_entry nn n).value = n := rfl

theorem seed_entry_original (nn : List Entry) (n : Nat) :
    (seed_entry nn n).original = (base_syllables nn n).n_syl := rfl

theorem seed_entry_syllables (nn : List Entry) (n u : Nat) :
    (seed_entry nn n).syllables.getD u 0 =
      if u = 0 then (base_syllables nn n).frac_syl
      else if u < pemdas_count then (base_syllables nn n).n_syl else 0 := by
  show ((List.replicate pemdas_count (base_syllables nn n).n_syl).set 0
    (base_syllables nn n).frac_syl).getD u 0 = _
  rw [getD_set_eq]
  by_cases hu : u = 0
  · subst hu; simp [pemdas_count]
  · have h2 : ¬ (0 = u) := fun h => hu h.symm
    simp only [h2, false_and, if_false, hu]
    by_cases h6 : u < pemdas_count
    · simp [h6, List.getD_eq_getElem?_getD, List.getElem?_replicate]
    · simp [h6, List.getD_eq_getElem?_getD, List.getElem?_replicate]

theorem seed_entry_lengths (nn : List Entry) (n : Nat) :
    (seed_entry nn n).syllables.length = pemdas_count ∧
    (seed_entry nn n).names.length = pemdas_count ∧
    (seed_entry nn n).equations.length = pemdas_count := by
  refine ⟨?_, ?_, ?_⟩
  · show ((List.replicate pemdas_count _).set 0 _).length = _
    simp
  · show ((List.replicate pemdas_count _).set 0 _).length = _
    simp
  · show (List.replicate pemdas_count _).length = _
    simp

theorem halve_length (N : Nat) (nn : List Entry) : (halve N nn).length = nn.length := by
  unfold halve
  split_ifs <;> simp

theorem halve_entry (N : Nat) (nn : List Entry) (i : Nat) :
    (halve N nn).getD i default =
      if 2 ≤ N ∧ i = 2 ∧ 2 < nn.length then
        { nn.getD 2 default with
          syllables := (nn.getD 2 default).syllables.set 0 1
          names := (nn.getD 2 default).names.set 0 "halve" }
      else nn.getD i default := by
  unfold halve
  by_cases hN : N ≥ 2
  · simp only [hN, if_true, getD_set_eq]
    by_cases hi : i = 2
    · subst hi
      by_cases hl : 2 < nn.length
      · simp [-List.getD_eq_getElem?_getD, hl, hN]
      · simp [-List.getD_eq_getElem?_getD, hl]
    · have : ¬ (2 = i) := fun h => hi h.symm
      simp [-List.getD_eq_getElem?_getD, hi, this]
  · have : ¬ (2 ≤ N) := hN
    simp [-List.getD_eq_getElem?_getD, hN, this]

theorem seeded_length (N : Nat) : (seeded N).length = N + 1 := by
  unfold seeded
  rw [halve_length, base_fill_length]

theorem seeded_entry (N i : Nat) (h : i ≤ N) :
    (seeded N).getD i default =
      if i = 2 then
        { seed_entry (store_before 2) 2 with
          syllables := (seed_entry (store_before 2) 2).syllables.set 0 1
          names := (seed_entry (store_before 2) 2).names.set 0 "halve" }
      else seed_entry (store_before i) i := by
  unfold seeded
  rw [halve_entry, base_fill_length]
  by_cases hi : i = 2
  · subst hi
    have h3 : 2 ≤ N ∧ 2 = 2 ∧ 2 < N + 1 := ⟨h, rfl, by omega⟩
    rw [if_pos h3, if_pos rfl, base_fill_entry N 2 h]
  · have h3 : ¬ (2 ≤ N ∧ i = 2 ∧ 2 < N + 1) := fun hh => hi hh.2.1
    rw [if_neg h3, if_neg hi, base_fill_entry N i h]

theorem seeded_static (N i : Nat) (h : i ≤ N) :
    static_fields ((seeded N).getD i default) = static_fields (seed_entry (store_before i) i) ∧
    ((seeded N).getD i default).syllables.length = pemdas_count ∧
    ((seeded N).getD i default).names.length = pemdas_count ∧
    ((seeded N).getD i default).equations.length = pemdas_count := by
  rw [seeded_entry N i h]
  by_cases hi : i = 2
  · subst hi
    rw [if_pos rfl]
    have hl := seed_entry_lengths (store_before 2) 2
    refine ⟨rfl, ?_, ?_, hl.2.2⟩
    · show ((seed_entry (store_before 2) 2).syllables.set 0 1).length = _
      rw [List.length_set]; exact hl.1
    · show ((seed_entry (store_before 2) 2).names.set 0 "halve").length = _
      rw [List.length_set]; exact hl.2.1
  · rw [if_neg hi]
    exact ⟨rfl, seed_entry_lengths _ _⟩

theorem seeded_shape (N : Nat) : Shape N (seeded N) := by
  refine ⟨seeded_length N, ?_⟩
  intro i hi
  have h := seeded_static N i hi
  refine ⟨?_, h.2⟩
  have h1 := congrArg (fun p => p.1) h.1
  exact h1

theorem seeded_count (N i u : Nat) (h : i ≤ N) :
    count (seeded N) i u =
      if i = 2 ∧ u = 0 then 1
      else if u = 0 then (base_syllables (store_before i) i).frac_syl
      else if u < pemdas_count then (base_syllables (store_before i) i).n_syl else 0 := by
  unfold count
  rw [seeded_entry N i h]
  by_cases hi : i = 2
  · subst hi
    rw [if_pos rfl]
    show ((seed_entry (store_before 2) 2).syllables.set 0 1).getD u 0 = _
    rw [getD_set_eq, (seed_entry_lengths _ _).1]
    by_cases hu : u = 0
    · subst hu
      simp [pemdas_count]
    · have h2 : ¬ (0 = u) := fun h => hu h.symm
      rw [if_neg (fun hh => h2 hh.1), if_neg (fun hh => hu hh.2), seed_entry_syllables]
  · rw [if_neg hi, if_neg (fun hh => hi hh.1), seed_entry_syllables]

theorem seeded_original (N i : Nat) (h : i ≤ N) :
    ((seeded N).getD i default).original = (base_syllables (store_before i) i).n_syl := by
  have h1 := congrArg (fun p => p.2.1) (seeded_static N i h).1
  exact h1

/-! ## Invariants of a layer -/

theorem result_tiers_ge (r : Nat) (h : r ∈ result_tiers) : 2 ≤ r := by
  revert r
  decide

theorem layer_count_cases (X : Pruning) (leave_point max_number s : Nat) (st : State) (n u : Nat) :
    count (layer X leave_point max_number s st).number_names n u = count st.number_names n u ∨
      (s < count st.number_names n u ∧
        count (layer X leave_point max_number s st).number_names n u = s) := by
  refine layer_store
    (fun nn => count nn n u = count st.number_names n u ∨
      (s < count st.number_names n u ∧ count nn n u = s)) X leave_point max_number s ?_ st
    (Or.inl rfl)
  intro w r out nm eq hw _ _
  rw [commit_count]
  split_ifs with h
  · rcases hw with h1 | h1
    · right; exact ⟨by rw [← h1]; exact h.2.2.2, rfl⟩
    · right; exact ⟨h1.1, rfl⟩
  · exact hw

theorem layer_shape (X : Pruning) (leave_point max_number s N : Nat) (st : State)
    (h : Shape N st.number_names) :
    Shape N (layer X leave_point max_number s st).number_names := by
  refine layer_store (fun nn => Shape N nn) X leave_point max_number s ?_ st h
  intro w r out nm eq hw _ _
  refine ⟨by rw [commit_length]; exact hw.1, ?_⟩
  intro i hi
  have h1 := commit_static r s out nm eq w i
  have h2 := hw.2 i hi
  have h3 := congrArg (fun p => p.1) h1.1
  exact ⟨h3.trans h2.1, h1.2.1.trans h2.2.1, h1.2.2.1.trans h2.2.2.1, h1.2.2.2.trans h2.2.2.2⟩

theorem commit_frame (r s out : Nat) (nm eq : String) (w : Sweep) (h : 2 ≤ r) :
    FrameEq (commit r s out nm eq w).number_names w.number_names := by
  refine ⟨commit_length r s out nm eq w, ?_⟩
  intro n
  refine ⟨(commit_static r s out nm eq w n).1, ?_⟩
  intro u hu
  refine ⟨?_, ?_, ?_⟩
  · rw [commit_count, if_neg]
    intro hh; omega
  · rw [commit_name, if_neg]
    intro hh; omega
  · rw [commit_equation, if_neg]
    intro hh; omega

theorem FrameEq.refl (a : List Entry) : FrameEq a a :=
  ⟨rfl, fun _ => ⟨rfl, fun _ _ => ⟨rfl, rfl, rfl⟩⟩⟩

theorem FrameEq.trans {a b c : List Entry} (h1 : FrameEq a b) (h2 : FrameEq b c) : FrameEq a c := by
  refine ⟨h1.1.trans h2.1, ?_⟩
  intro n
  refine ⟨(h1.2 n).1.trans (h2.2 n).1, ?_⟩
  intro u hu
  have a1 := (h1.2 n).2 u hu
  have a2 := (h2.2 n).2 u hu
  exact ⟨a1.1.trans a2.1, a1.2.1.trans a2.2.1, a1.2.2.trans a2.2.2⟩

theorem layer_frame (X : Pruning) (leave_point max_number s : Nat) (st : State) :
    FrameEq (layer X leave_point max_number s st).number_names st.number_names := by
  refine layer_store (fun nn => FrameEq nn st.number_names) X leave_point max_number s ?_ st
    (FrameEq.refl _)
  intro w r out nm eq hw hr _
  exact FrameEq.trans (commit_frame r s out nm eq w (result_tiers_ge r hr)) hw

theorem layer_reachable (X : Pruning) (leave_point N s : Nat) (hs : 1 ≤ s) (st : State)
    (h : Reachable N st.number_names) :
    Reachable N (layer X leave_point N s st).number_names := by
  refine layer_store (fun nn => Reachable N nn) X leave_point N s ?_ st h
  intro w r out nm eq hw hr ho
  exact Reachable.commit w r s out nm eq hw hs hr ho

/-! ## The sequence of layers -/

theorem after_layers_succ (X : Pruning) (leave_point max_number k : Nat) :
    after_layers X leave_point max_number (k + 1) =
      layer X leave_point max_number (k + 1) (after_layers X leave_point max_number k) := rfl

theorem after_layers_shape (X : Pruning) (leave_point N k : Nat) :
    Shape N (after_layers X leave_point N k).number_names := by
  induction k with
  | zero => exact seeded_shape N
  | succ k ih => rw [after_layers_succ]; exact layer_shape X leave_point N (k + 1) N _ ih

theorem after_layers_frame (X : Pruning) (leave_point N k : Nat) :
    FrameEq (after_layers X leave_point N k).number_names (seeded N) := by
  induction k with
  | zero => exact FrameEq.refl _
  | succ k ih => rw [after_layers_succ]; exact FrameEq.trans (layer_frame X leave_point N (k + 1) _) ih

theorem after_layers_reachable (X : Pruning) (leave_point N k : Nat) :
    Reachable N (after_layers X leave_point N k).number_names := by
  induction k with
  | zero => exact Reachable.seed
  | succ k ih =>
    rw [after_layers_succ]
    exact layer_reachable X leave_point N (k + 1) (by omega) _ ih

theorem after_layers_count_step (X : Pruning) (leave_point N k n u : Nat) :
    count (after_layers X leave_point N (k + 1)).number_names n u =
        count (after_layers X leave_point N k).number_names n u ∨
      (k + 1 < count (after_layers X leave_point N k).number_names n u ∧
        count (after_layers X leave_point N (k + 1)).number_names n u = k + 1) := by
  rw [after_layers_succ]
  exact layer_count_cases X leave_point N (k + 1) _ n u

theorem after_layers_count_le (X : Pruning) (leave_point N n u : Nat) (j k : Nat) (h : j ≤ k) :
    count (after_layers X leave_point N k).number_names n u ≤
      count (after_layers X leave_point N j).number_names n u := by
  induction k with
  | zero =>
    have : j = 0 := by omega
    subst this; exact le_refl _
  | succ k ih =>
    by_cases hj : j = k + 1
    · subst hj; exact le_refl _
    · have h2 := ih (by omega)
      rcases after_layers_count_step X leave_point N k n u with h3 | h3
      · omega
      · omega

theorem after_layers_final (X : Pruning) (leave_point N n u : Nat) (s t : Nat) (h : s ≤ t)
    (hc : count (after_layers X leave_point N s).number_names n u ≤ s) :
    count (after_layers X leave_point N t).number_names n u =
      count (after_layers X leave_point N s).number_names n u := by
  induction t with
  | zero =>
    have : s = 0 := by omega
    subst this; rfl
  | succ k ih =>
    by_cases hj : s = k + 1
    · subst hj; rfl
    · have h2 := ih (by omega)
      rcases after_layers_count_step X leave_point N k n u with h3 | h3
      · omega
      · omega

/-- The budget loop started after `k` layers stops after some number `L` of
layers, and `L` is the first budget past `k` at which the pointer has left
`[1, leave_point]`, unless the budgets run out first. -/
theorem budget_loop_spec (X : Pruning) (leave_point N : Nat) (fuel k : Nat) :
    ∃ L, budget_loop X leave_point N fuel (k + 1) (after_layers X leave_point N k) =
        (after_layers X leave_point N L, L) ∧
      k ≤ L ∧ L ≤ k + fuel ∧ (0 < fuel → k < L) ∧
      (∀ j, k < j → j < L → (after_layers X leave_point N j).min_missing ≤ leave_point) ∧
      (L < k + fuel → leave_point < (after_layers X leave_point N L).min_missing) := by
  induction fuel generalizing k with
  | zero =>
    refine ⟨k, ?_, le_refl _, le_refl _, ?_, ?_, ?_⟩
    · simp [budget_loop]
    · intro h; omega
    · intro j h1 h2; omega
    · intro h; omega
  | succ f ih =>
    unfold budget_loop
    simp only []
    rw [← after_layers_succ]
    by_cases hm : (after_layers X leave_point N (k + 1)).min_missing > leave_point
    · rw [if_pos hm]
      refine ⟨k + 1, rfl, by omega, by omega, by omega, ?_, ?_⟩
      · intro j h1 h2; omega
      · intro _; exact hm
    · rw [if_neg hm]
      obtain ⟨L, h1, h2, h3, h4, h5, h6⟩ := ih (k + 1)
      refine ⟨L, h1, by omega, by omega, by omega, ?_, ?_⟩
      · intro j hj1 hj2
        by_cases hjk : j = k + 1
        · subst hjk; omega
        · exact h5 j (by omega) hj2
      · intro hL; exact h6 (by omega)

/-! ## The unresolved pointer -/

theorem getLastD_eq_getD (l : List Nat) (h : l.length = pemdas_count) :
    l.getLastD 0 = l.getD 5 0 := by
  match l, h with
  | [_, _, _, _, _, _], _ => rfl

theorem advance_ge (leave_point s : Nat) (nn : List Entry) (fuel mm : Nat) :
    mm ≤ advance leave_point s nn fuel mm := by
  induction fuel generalizing mm with
  | zero => exact le_refl _
  | succ f ih =>
    unfold advance
    split_ifs
    · exact le_trans (Nat.le_succ mm) (ih (mm + 1))
    · exact le_refl _

theorem advance_passed (leave_point s : Nat) (nn : List Entry) (fuel mm n : Nat)
    (h1 : mm ≤ n) (h2 : n < advance leave_point s nn fuel mm) :
    n ≤ leave_point ∧ (nn.getD n default).syllables.getLastD 0 ≤ s := by
  induction fuel generalizing mm with
  | zero => unfold advance at h2; omega
  | succ f ih =>
    unfold advance at h2
    split_ifs at h2 with hc
    · by_cases hn : n = mm
      · subst hn; exact hc
      · exact ih (mm + 1) (by omega) h2
    · omega

theorem advance_stop (leave_point s : Nat) (nn : List Entry) (fuel mm : Nat)
    (hf : leave_point + 1 ≤ fuel + mm) :
    leave_point < advance leave_point s nn fuel mm ∨
      s < (nn.getD (advance leave_point s nn fuel mm) default).syllables.getLastD 0 := by
  induction fuel generalizing mm with
  | zero => left; unfold advance; omega
  | succ f ih =>
    unfold advance
    split_ifs with hc
    · exact ih (mm + 1) (by omega)
    · by_cases h1 : mm ≤ leave_point
      · right
        have : ¬ (nn.getD mm default).syllables.getLastD 0 ≤ s := fun h => hc ⟨h1, h⟩
        omega
      · left; omega

theorem layer_min_missing (X : Pruning) (leave_point N s : Nat) (st : State) :
    (layer X leave_point N s st).min_missing =
      advance leave_point s (layer X leave_point N s st).number_names (leave_point + 1)
        (layer_ops X N s st).min_missing := rfl

theorem foldl_min_missing {α : Type} (f : State → α → State) (l : List α)
    (h : ∀ st a, (f st a).min_missing = st.min_missing) (st : State) :
    (l.foldl f st).min_missing = st.min_missing := by
  induction l generalizing st with
  | nil => rfl
  | cons a t ih => simp only [List.foldl_cons]; rw [ih, h]

theorem layer_ops_min_missing (X : Pruning) (N s : Nat) (st : State) :
    (layer_ops X N s st).min_missing = st.min_missing := by
  unfold layer_ops
  rw [foldl_min_missing, foldl_min_missing]
  · rfl
  · intro st1 op
    unfold binary_op
    rw [foldl_min_missing]
    intro st2 ls
    unfold binary_split
    simp only []
    split_ifs <;> rfl
  · intro st1 op
    unfold unary_op
    simp only []
    split_ifs <;> rfl

theorem after_layers_min_missing_le (X : Pruning) (leave_point N k : Nat) :
    (after_layers X leave_point N k).min_missing ≤
      (after_layers X leave_point N (k + 1)).min_missing := by
  rw [after_layers_succ, layer_min_missing, layer_ops_min_missing]
  exact advance_ge _ _ _ _ _

theorem after_layers_min_missing_pos (X : Pruning) (leave_point N k : Nat) :
    1 ≤ (after_layers X leave_point N k).min_missing := by
  induction k with
  | zero => exact le_refl _
  | succ k ih => exact le_trans ih (after_layers_min_missing_le X leave_point N k)

theorem after_layers_count5 (X : Pruning) (leave_point N k n : Nat) (hn : n ≤ N) :
    ((after_layers X leave_point N k).number_names.getD n default).syllables.getLastD 0 =
      count (after_layers X leave_point N k).number_names n 5 :=
  getLastD_eq_getD _ ((after_layers_shape X leave_point N k).2 n hn).2.1

/-- Everything below the pointer after layer `k` has a tier-5 count of at most `k`. -/
theorem after_layers_below (X : Pruning) (N k n : Nat) (h1 : 1 ≤ n)
    (h2 : n < (after_layers X N N k).min_missing) :
    n ≤ N ∧ count (after_layers X N N k).number_names n 5 ≤ k := by
  induction k with
  | zero =>
    have : (after_layers X N N 0).min_missing = 1 := rfl
    omega
  | succ k ih =>
    by_cases hlt : n < (after_layers X N N k).min_missing
    · have h3 := ih hlt
      have h4 := after_layers_count_le X N N n 5 k (k + 1) (by omega)
      exact ⟨h3.1, by omega⟩
    · rw [after_layers_succ, layer_min_missing, layer_ops_min_missing] at h2
      have h5 := advance_passed _ _ _ _ _ n (by omega) h2
      refine ⟨h5.1, ?_⟩
      rw [← after_layers_count5 X N N (k + 1) n h5.1]
      exact h5.2

/-- When the pointer stops inside `[1, N]` after layer `k`, the integer it stops
at has a tier-5 count above `k`. -/
theorem after_layers_stop (X : Pruning) (N k : Nat)
    (h : (after_layers X N N (k + 1)).min_missing ≤ N) :
    k + 1 < count (after_layers X N N (k + 1)).number_names
      (after_layers X N N (k + 1)).min_missing 5 := by
  have h0 := h
  rw [← after_layers_count5 X N N (k + 1) _ h]
  rw [after_layers_succ, layer_min_missing, layer_ops_min_missing] at h0 ⊢
  have hp := after_layers_min_missing_pos X N N k
  rcases advance_stop N (k + 1) (layer X N N (k + 1) (after_layers X N N k)).number_names
    (N + 1) (after_layers X N N k).min_missing (by omega) with h1 | h1
  · omega
  · exact h1

/-! ## Baseline counts -/

theorem one_names_pos : ∀ n, n < 20 →
    1 ≤ (one_names.getD n default).cardSyl ∧ 1 ≤ (one_names.getD n default).ordSyl := by
  decide

theorem ten_names_pos : ∀ d, d < 10 → 2 ≤ d →
    1 ≤ (ten_names.getD d default).cardSyl ∧ 1 ≤ (ten_names.getD d default).ordSyl := by
  decide

theorem large_index_loop_lt (n fuel i : Nat) (h : i < large_names.length) :
    large_index_loop n fuel i < large_names.length := by
  induction fuel generalizing i with
  | zero => exact h
  | succ f ih =>
    unfold large_index_loop
    split_ifs with hc
    · exact ih (i + 1) hc.1
    · exact h

theorem large_names_syl : ∀ i, i < large_names.length → (large_names.getD i default).syl = 2 := by
  decide

theorem base_syllables_pos (nn : List Entry) (n : Nat) :
    1 ≤ (base_syllables nn n).n_syl ∧ 1 ≤ (base_syllables nn n).frac_syl := by
  unfold base_syllables
  by_cases h20 : n < 20
  · simp only [h20, if_true]
    exact one_names_pos n h20
  · by_cases h100 : n < 100
    · simp only [h20, h100, if_true, if_false]
      have hd := ten_names_pos (n / 10) (by omega) (by omega)
      by_cases hm : n % 10 = 0
      · simp only [hm, if_true]
        exact hd
      · simp only [hm, if_false]
        constructor <;> omega
    · simp only [h20, h100, if_false]
      have hL := large_names_syl (large_index_loop n large_names.length 0)
        (large_index_loop_lt n _ 0 (by decide))
      by_cases hm : n % (large_names.getD (large_index_loop n large_names.length 0) default).base = 0
      · simp only [hm, if_true]
        constructor <;> omega
      · simp only [hm, if_false]
        constructor <;> omega

theorem seeded_count_pos (N n u : Nat) (hn : n ≤ N) (hu : u < pemdas_count) :
    1 ≤ count (seeded N) n u := by
  rw [seeded_count N n u hn]
  have hp := base_syllables_pos (store_before n) n
  split_ifs
  · exact le_refl _
  · exact hp.2
  · exact hp.1

theorem seeded_count5 (N n : Nat) (hn : n ≤ N) :
    count (seeded N) n 5 = ((seeded N).getD n default).original := by
  rw [seeded_count N n 5 hn, seeded_original N n hn]
  simp [pemdas_count]

theorem max_syllables_succ (k : Nat) :
    max_syllables (k + 1) =
      max (max_syllables k) (base_syllables (store_before (k + 1)) (k + 1)).n_syl := rfl

theorem max_syllables_ge (N i : Nat) (h : i ≤ N) :
    (base_syllables (store_before i) i).n_syl ≤ max_syllables N := by
  induction N with
  | zero =>
    have : i = 0 := by omega
    subst this
    exact le_max_right _ _
  | succ k ih =>
    rw [max_syllables_succ]
    by_cases hi : i ≤ k
    · exact le_trans (ih hi) (le_max_left _ _)
    · have : i = k + 1 := by omega
      subst this
      exact le_max_right _ _

theorem max_syllables_attained (N : Nat) :
    ∃ i, i ≤ N ∧ (base_syllables (store_before i) i).n_syl = max_syllables N := by
  induction N with
  | zero => exact ⟨0, le_refl _, by decide⟩
  | succ k ih =>
    obtain ⟨i, hi, he⟩ := ih
    rw [max_syllables_succ]
    by_cases hc : max_syllables k ≤ (base_syllables (store_before (k + 1)) (k + 1)).n_syl
    · exact ⟨k + 1, le_refl _, by rw [max_eq_right hc]⟩
    · exact ⟨i, by omega, by rw [max_eq_left (by omega)]; exact he⟩

theorem max_syllables_pos (N : Nat) : 1 ≤ max_syllables N :=
  le_trans (base_syllables_pos (store_before 0) 0).1 (max_syllables_ge N 0 (Nat.zero_le _))

theorem after_layers_count5_le (X : Pruning) (leave_point N k n : Nat) (hn : n ≤ N) :
    count (after_layers X leave_point N k).number_names n 5 ≤ max_syllables N := by
  have h1 := after_layers_count_le X leave_point N n 5 0 k (Nat.zero_le _)
  have h2 : count (after_layers X leave_point N 0).number_names n 5 =
      (base_syllables (store_before n) n).n_syl := by
    show count (seeded N) n 5 = _
    rw [seeded_count5 N n hn, seeded_original N n hn]
  have h3 := max_syllables_ge N n hn
  omega

/-- Once the budget has reached `max_syllables`, the pointer has left `[1, N]`. -/
theorem after_layers_exhausted (X : Pruning) (N k : Nat) (hk : max_syllables N ≤ k + 1) :
    N < (after_layers X N N (k + 1)).min_missing := by
  by_contra hc
  have h1 := after_layers_stop X N k (not_lt.mp hc)
  have h2 := after_layers_count5_le X N N (k + 1) _ (not_lt.mp hc)
  omega

/-! ## The run as a whole -/

theorem generator_spec (X : Pruning) (leave_point N : Nat) :
    ∃ L, number_names_generator X leave_point N = (after_layers X leave_point N L, L) ∧
      1 ≤ L ∧ L ≤ max_syllables N ∧
      (∀ j, 0 < j → j < L → (after_layers X leave_point N j).min_missing ≤ leave_point) ∧
      (L < max_syllables N → leave_point < (after_layers X leave_point N L).min_missing) := by
  obtain ⟨L, h1, _, h3, h4, h5, h6⟩ := budget_loop_spec X leave_point N (max_syllables N) 0
  refine ⟨L, h1, ?_, by omega, h5, ?_⟩
  · have := h4 (max_syllables_pos N); omega
  · intro h; exact h6 (by omega)

theorem generator_state (X : Pruning) (leave_point N : Nat) :
    (number_names_generator X leave_point N).1 =
      after_layers X leave_point N (number_names_generator X leave_point N).2 := by
  obtain ⟨L, h1, _⟩ := generator_spec X leave_point N
  rw [h1]

theorem generator_left (X : Pruning) (N : Nat) :
    N < (number_names_generator X N N).1.min_missing := by
  obtain ⟨L, h1, h2, h3, _, h5⟩ := generator_spec X N N
  rw [h1]
  show N < (after_layers X N N L).min_missing
  by_cases hL : L < max_syllables N
  · exact h5 hL
  · obtain ⟨k, rfl⟩ : ∃ k, L = k + 1 := ⟨L - 1, by omega⟩
    exact after_layers_exhausted X N k (by omega)

/-- C3: a count that is at most `s` when layer `s` finishes keeps its value at the end of every
later layer `t ≥ s` and in the state the generator exits with (which is the state after the last
layer executed). -/
theorem settled_counts_are_final (X : Pruning) (leave_point N n u s t : Nat) (hst : s ≤ t)
    (h : count (after_layers X leave_point N s).number_names n u ≤ s) :
    count (after_layers X leave_point N t).number_names n u =
        count (after_layers X leave_point N s).number_names n u ∧
      (number_names_generator X leave_point N).1 =
        after_layers X leave_point N (number_names_generator X leave_point N).2 ∧
      (s ≤ (number_names_generator X leave_point N).2 →
        count (number_names_generator X leave_point N).1.number_names n u =
          count (after_layers X leave_point N s).number_names n u) := by
  refine ⟨after_layers_final X leave_point N n u s t hst h, generator_state X leave_point N, ?_⟩
  intro hs
  rw [generator_state]
  exact after_layers_final X leave_point N n u s _ hs h

/-- C4: no commit increases any count; hence the count of every integer at every tier after
layer `k + 1` is at most its count after layer `k`, and the count reported for target `N`
(the last slot of entry `N` at exit) is at most the baseline count `original` of `N`, which is
the cardinal syllable count computed by `base_syllables`. -/
theorem counts_never_increase :
    (∀ (w : Sweep) (r s out : Nat) (nm eq : String) (n u : Nat),
      count (commit r s out nm eq w).number_names n u ≤ count w.number_names n u) ∧
    (∀ (X : Pruning) (leave_point N k n u : Nat),
      count (after_layers X leave_point N (k + 1)).number_names n u ≤
        count (after_layers X leave_point N k).number_names n u) ∧
    (∀ (X : Pruning) (N : Nat),
      ((number_names_generator X N N).1.number_names.getD N default).syllables.getLastD 0 ≤
          ((number_names_generator X N N).1.number_names.getD N default).original ∧
        ((number_names_generator X N N).1.number_names.getD N default).original =
          (base_syllables (store_before N) N).n_syl) := by
  refine ⟨?_, ?_, ?_⟩
  · intro w r s out nm eq n u
    rw [commit_count]
    split_ifs with h
    · exact le_of_lt h.2.2.2
    · exact le_refl _
  · intro X leave_point N k n u
    exact after_layers_count_le X leave_point N n u k (k + 1) (Nat.le_succ k)
  · intro X N
    rw [generator_state]
    have hf := after_layers_frame X N N (number_names_generator X N N).2
    have ho : ((after_layers X N N (number_names_generator X N N).2).number_names.getD N
        default).original = ((seeded N).getD N default).original :=
      congrArg (fun p => p.2.1) (hf.2 N).1
    rw [after_layers_count5 X N N _ N (le_refl _), ho]
    refine ⟨?_, seeded_original N N (le_refl _)⟩
    rw [← seeded_count5 N N (le_refl _)]
    exact after_layers_count_le X N N N 5 0 _ (Nat.zero_le _)

/-- C5: in every reachable store (the seeded store, then any commits with budgets `s ≥ 1`), every
count of every integer `n ≤ N` at every tier `u < 6` is at least 1; the store after any number of
layers and the store at exit are reachable. -/
theorem counts_at_least_one (N : Nat) :
    (∀ nn, Reachable N nn → ∀ n u, n ≤ N → u < pemdas_count → 1 ≤ count nn n u) ∧
    (∀ (X : Pruning) (leave_point k : Nat),
      Reachable N (after_layers X leave_point N k).number_names) ∧
    (∀ (X : Pruning) (leave_point : Nat),
      Reachable N (number_names_generator X leave_point N).1.number_names) := by
  refine ⟨?_, fun X lp k => after_layers_reachable X lp N k, ?_⟩
  · intro nn h
    induction h with
    | seed => intro n u hn hu; exact seeded_count_pos N n u hn hu
    | commit w r s out nm eq _ hs _ _ ih =>
      intro n u hn hu
      rw [commit_count]
      split_ifs
      · exact hs
      · exact ih n u hn hu
  · intro X lp
    rw [generator_state]
    exact after_layers_reachable X lp N _

/-! ## Division and discarded candidates -/

theorem get_output_div (id : String) (hid : id = "/" ∨ id = "fraction") (l r : Int) :
    get_output id l r =
      if r ≠ 0 ∧ l.tmod r = 0 then (l.tdiv r, true) else (0, false) := by
  rcases hid with h | h <;> subst h <;> simp [get_output]

theorem binary_candidate_not_ok (max_number s : Nat) (op : BinaryOp) (l r : Nat) (w : Sweep)
    (h : (get_output op.id l r).2 = false) : binary_candidate max_number s op l r w = w := by
  unfold binary_candidate
  simp only []
  split_ifs <;> rfl

theorem binary_candidate_out_of_range (max_number s : Nat) (op : BinaryOp) (l r : Nat) (w : Sweep)
    (h : (get_output op.id l r).1 < 0 ∨ (get_output op.id l r).1 > max_number) :
    binary_candidate max_number s op l r w = w := by
  unfold binary_candidate
  simp only []
  split_ifs <;> rfl

theorem binary_candidate_exponent (max_number s : Nat) (op : BinaryOp) (l r : Nat) (w : Sweep)
    (h1 : op.id = "^") (h2 : superscripts.length ≤ r) :
    binary_candidate max_number s op l r w = w := by
  unfold binary_candidate
  simp only []
  have h3 : op.id = "^" ∧ r ≥ superscripts.length := ⟨h1, h2⟩
  split_ifs <;> rfl

theorem unary_candidate_out_of_range (max_number s : Nat) (op : UnaryOp) (v : Nat) (w : Sweep)
    (h : (get_output op.id v 0).1 < 0 ∨ (get_output op.id v 0).1 > max_number) :
    unary_candidate max_number s op v w = w := by
  unfold unary_candidate
  simp only []
  split_ifs <;> rfl

theorem get_output_div_iff (id : String) (hid : id = "/" ∨ id = "fraction") (l r : Int)
    (hl : 0 ≤ l) (hr : 0 ≤ r) :
    ((get_output id l r).2 = true ↔ (r ≠ 0 ∧ l % r = 0)) ∧
      ((get_output id l r).2 = true → (get_output id l r).1 = l / r) := by
  rw [get_output_div id hid, Int.tmod_eq_emod hl hr, Int.tdiv_eq_ediv hl hr]
  by_cases h : r ≠ 0 ∧ l % r = 0
  · rw [if_pos h]
    exact ⟨⟨fun _ => h, fun _ => rfl⟩, fun _ => rfl⟩
  · rw [if_neg h]
    exact ⟨⟨fun hh => by simp at hh, fun hh => absurd hh h⟩, fun hh => by simp at hh⟩

theorem binary_candidate_div_cases (max_number s : Nat) (op : BinaryOp) (l r : Nat) (w : Sweep)
    (hid : op.id = "/" ∨ op.id = "fraction") :
    binary_candidate max_number s op l r w = w ∨
      (r ≠ 0 ∧ l % r = 0 ∧ ∃ nm eq,
        binary_candidate max_number s op l r w = commit op.pemdas_result s (l / r) nm eq w) := by
  have hg := get_output_div op.id hid (l : Int) (r : Int)
  rw [Int.tmod_eq_emod (Int.ofNat_nonneg l) (Int.ofNat_nonneg r),
    Int.tdiv_eq_ediv (Int.ofNat_nonneg l) (Int.ofNat_nonneg r)] at hg
  by_cases h : (r : Int) ≠ 0 ∧ (l : Int) % (r : Int) = 0
  · rw [if_pos h] at hg
    have hr : r ≠ 0 := by
      intro h0; exact h.1 (by exact_mod_cast h0)
    have hm : l % r = 0 := by exact_mod_cast h.2
    unfold binary_candidate
    simp only []
    split_ifs
    · exact Or.inl rfl
    · exact Or.inl rfl
    · exact Or.inl rfl
    · exact Or.inl rfl
    · right
      have ht : ((l : Int) / (r : Int)).toNat = l / r := by
        rw [← Int.ofNat_ediv]; rfl
      refine ⟨hr, hm,
        (w.number_names.getD l default).names.getD op.pemdas_left "" ++ op.text ++
          (w.number_names.getD r default).names.getD op.pemdas_right "" ++ op.suffix,
        binary_equation op (w.number_names.getD l default) (w.number_names.getD r default) r,
        ?_⟩
      rw [hg, ht]
  · rw [if_neg h] at hg
    left
    exact binary_candidate_not_ok max_number s op l r w (by rw [hg])

/-- C8: for non-negative operands, `get_output` with id "/" or "fraction" accepts exactly when the
right operand is non-zero and divides the left one, and then returns the quotient; hence a "/" or
"fraction" candidate either leaves the sweep state untouched or is committed with an exact
quotient as its output. -/
theorem division_is_exact (id : String) (hid : id = "/" ∨ id = "fraction") :
    (∀ l r : Int, 0 ≤ l → 0 ≤ r →
      ((get_output id l r).2 = true ↔ (r ≠ 0 ∧ l % r = 0)) ∧
      ((get_output id l r).2 = true → (get_output id l r).1 = l / r)) ∧
    (∀ (max_number s : Nat) (op : BinaryOp) (l r : Nat) (w : Sweep), op.id = id →
      binary_candidate max_number s op l r w = w ∨
        (r ≠ 0 ∧ l % r = 0 ∧ ∃ nm eq,
          binary_candidate max_number s op l r w = commit op.pemdas_result s (l / r) nm eq w)) := by
  constructor
  · intro l r hl hr
    exact get_output_div_iff id hid l r hl hr
  · intro max_number s op l r w hop
    exact binary_candidate_div_cases max_number s op l r w (hop ▸ hid)

/-- C9: a binary candidate whose division is not exact, whose "^" exponent is at least the size of
the superscript table, or whose result is negative or above `N`, and a unary candidate whose
result is negative or above `N`, leave the sweep state (store and recorded new outputs) as it
was; and after any number of layers, and at exit, the store holds exactly the entries `0..N`,
entry `i` carrying value `i` and six slots of each kind. -/
theorem invalid_candidates_are_discarded (N s : Nat) (w : Sweep) :
    (∀ (op : BinaryOp) (l r : Nat), (op.id = "/" ∨ op.id = "fraction") → ¬ (r ≠ 0 ∧ l % r = 0) →
      binary_candidate N s op l r w = w) ∧
    (∀ (op : BinaryOp) (l r : Nat), op.id = "^" → 24 ≤ r → binary_candidate N s op l r w = w) ∧
    (∀ (op : BinaryOp) (l r : Nat),
      (get_output op.id l r).1 < 0 ∨ (get_output op.id l r).1 > N →
      binary_candidate N s op l r w = w) ∧
    (∀ (op : BinaryOp) (l r : Nat), op.id = "-" → l < r → binary_candidate N s op l r w = w) ∧
    (∀ (op : UnaryOp) (v : Nat),
      (get_output op.id v 0).1 < 0 ∨ (get_output op.id v 0).1 > N →
      unary_candidate N s op v w = w) ∧
    (∀ (X : Pruning) (leave_point k : Nat), Shape N (after_layers X leave_point N k).number_names) ∧
    (∀ (X : Pruning) (leave_point : Nat),
      Shape N (number_names_generator X leave_point N).1.number_names) := by
  refine ⟨?_, ?_, ?_, ?_, ?_, ?_, ?_⟩
  · intro op l r hid hne
    rcases binary_candidate_div_cases N s op l r w hid with h | h
    · exact h
    · exact absurd ⟨h.1, h.2.1⟩ hne
  · intro op l r h1 h2
    exact binary_candidate_exponent N s op l r w h1 h2
  · intro op l r h
    exact binary_candidate_out_of_range N s op l r w h
  · intro op l r h1 h2
    apply binary_candidate_out_of_range
    left
    rw [h1]
    simp [get_output]
    omega
  · intro op v h
    exact unary_candidate_out_of_range N s op v w h
  · intro X leave_point k
    exact after_layers_shape X leave_point N k
  · intro X leave_point
    rw [generator_state]
    exact after_layers_shape X leave_point N _

theorem generator_frame (X : Pruning) (leave_point N : Nat) :
    FrameEq (number_names_generator X leave_point N).1.number_names (seeded N) := by
  rw [generator_state]
  exact after_layers_frame X leave_point N _

/-- C7: a commit of an operator with result tier `r` changes no entry other than `out`, no slot of
`out` at a tier below `r`, and no static field of `out`; every declared operator has result tier
at least 2, so after any number of layers and at exit the slots at tiers 0 and 1 and the static
fields of every integer are those of the seeded store. -/
theorem commit_writes_only_upward :
    (∀ (w : Sweep) (r s out : Nat) (nm eq : String),
      (∀ n, n ≠ out →
        (commit r s out nm eq w).number_names.getD n default = w.number_names.getD n default) ∧
      (∀ u, u < r →
        count (commit r s out nm eq w).number_names out u = count w.number_names out u ∧
        name_at (commit r s out nm eq w).number_names out u = name_at w.number_names out u ∧
        equation_at (commit r s out nm eq w).number_names out u =
          equation_at w.number_names out u) ∧
      static_fields ((commit r s out nm eq w).number_names.getD out default) =
        static_fields (w.number_names.getD out default)) ∧
    (∀ r, r ∈ result_tiers → 2 ≤ r) ∧
    (∀ (X : Pruning) (leave_point N k : Nat),
      FrameEq (after_layers X leave_point N k).number_names (seeded N)) ∧
    (∀ (X : Pruning) (leave_point N : Nat),
      FrameEq (number_names_generator X leave_point N).1.number_names (seeded N)) := by
  refine ⟨?_, result_tiers_ge, after_layers_frame, generator_frame⟩
  · intro w r s out nm eq
    refine ⟨?_, ?_, (commit_static r s out nm eq w out).1⟩
    · intro n hn
      rw [commit_entry, if_neg (fun h => hn h.1)]
    · intro u hu
      refine ⟨?_, ?_, ?_⟩
      · rw [commit_count, if_neg]; intro hh; omega
      · rw [commit_name, if_neg]; intro hh; omega
      · rw [commit_equation, if_neg]; intro hh; omega

/-- C10: the generator run for target `N` returns (the loops are bounded and the pointer loop
stops because its condition fails); the pointer starts at 1, never decreases from one layer to the
next, and exceeds `N` at exit; the number `L` of layers executed is at least 1, is the least
budget after whose layer every integer of `[1, N]` has a tier-5 count of at most that budget, and
is at most `max_syllables`, the largest baseline count among `0..N`. -/
theorem termination_and_convergence (X : Pruning) (N : Nat) :
    (number_names_generator X N N).1 =
      after_layers X N N (number_names_generator X N N).2 ∧
    (after_layers X N N 0).min_missing = 1 ∧
    (∀ k, (after_layers X N N k).min_missing ≤ (after_layers X N N (k + 1)).min_missing) ∧
    N < (number_names_generator X N N).1.min_missing ∧
    1 ≤ (number_names_generator X N N).2 ∧
    (∀ n, 1 ≤ n → n ≤ N →
      count (after_layers X N N (number_names_generator X N N).2).number_names n 5 ≤
        (number_names_generator X N N).2) ∧
    (∀ s, 1 ≤ s → s < (number_names_generator X N N).2 →
      ∃ n, 1 ≤ n ∧ n ≤ N ∧ s < count (after_layers X N N s).number_names n 5) ∧
    (number_names_generator X N N).2 ≤ max_syllables N ∧
    (∀ i, i ≤ N → ((seeded N).getD i default).original ≤ max_syllables N) ∧
    (∃ i, i ≤ N ∧ ((seeded N).getD i default).original = max_syllables N) := by
  have hleft := generator_left X N
  have hstate := generator_state X N N
  obtain ⟨L, h1, h2, h3, h4, h5⟩ := generator_spec X N N
  have hL : (number_names_generator X N N).2 = L := by rw [h1]
  rw [hL] at hstate ⊢
  refine ⟨hstate, rfl, fun k => after_layers_min_missing_le X N N k, hleft, h2, ?_, ?_, h3, ?_, ?_⟩
  · intro n hn1 hn2
    rw [hstate] at hleft
    exact (after_layers_below X N L n hn1 (by omega)).2
  · intro s hs1 hs2
    have hmm := h4 s (by omega) hs2
    obtain ⟨k, rfl⟩ : ∃ k, s = k + 1 := ⟨s - 1, by omega⟩
    exact ⟨_, after_layers_min_missing_pos X N N (k + 1), hmm, after_layers_stop X N k hmm⟩
  · intro i hi
    rw [seeded_original N i hi]
    exact max_syllables_ge N i hi
  · obtain ⟨i, hi, he⟩ := max_syllables_attained N
    exact ⟨i, hi, by rw [seeded_original N i hi]; exact he⟩

/-! ## The relaxation rule -/

theorem commit_tier_count (s out : Nat) (nm eq : String) (w : Sweep) (u n v : Nat) :
    count (commit_tier s out nm eq w u).number_names n v =
      if n = out ∧ v = u ∧ s < count w.number_names n v then s else count w.number_names n v := by
  unfold count
  rw [commit_tier_store, getD_set_eq]
  by_cases h : n = out
  · subst h
    by_cases hl : n < w.number_names.length
    · simp only [hl, and_self, if_true, true_and]
      rw [relax_entry_syllables]
      by_cases hv : v = u
      · subst hv; rfl
      · simp [-List.getD_eq_getElem?_getD, hv]
    · have h0 : (w.number_names.getD n default).syllables.getD v 0 = 0 := by
        rw [getD_of_length_le _ _ _ (not_lt.mp hl), count_default]
      rw [if_neg (fun hh => hl hh.2), h0, if_neg (fun hh => Nat.not_lt_zero _ hh.2.2)]
  · have h2 : ¬ out = n := fun e => h e.symm
    simp [-List.getD_eq_getElem?_getD, h, h2]

theorem commit_tier_newouts (s out : Nat) (nm eq : String) (w : Sweep) (u v : Nat) :
    (commit_tier s out nm eq w u).newouts.getD v [] =
      if v = u ∧ s < count w.number_names out u ∧ u < w.newouts.length then
        w.newouts.getD v [] ++ [out]
      else w.newouts.getD v [] := by
  unfold commit_tier count
  simp only []
  by_cases h1 : (w.number_names.getD out default).syllables.getD u 0 ≥ s
  · by_cases h2 : (w.number_names.getD out default).syllables.getD u 0 > s
    · simp only [h1, h2, if_true, getD_set_eq]
      by_cases hv : v = u
      · subst hv
        by_cases hl : v < w.newouts.length
        · simp [-List.getD_eq_getElem?_getD, hl]
        · simp [-List.getD_eq_getElem?_getD, hl]
      · have hv2 : ¬ u = v := fun h => hv h.symm
        simp [-List.getD_eq_getElem?_getD, hv, hv2]
    · have h3 : ¬ s < (w.number_names.getD out default).syllables.getD u 0 := h2
      simp [-List.getD_eq_getElem?_getD, h1, h2, h3]
  · have h3 : ¬ s < (w.number_names.getD out default).syllables.getD u 0 := by omega
    simp [-List.getD_eq_getElem?_getD, h1, h3]

theorem commit_tier_newouts_length (s out : Nat) (nm eq : String) (w : Sweep) (u : Nat) :
    (commit_tier s out nm eq w u).newouts.length = w.newouts.length := by
  unfold commit_tier
  simp only []
  split_ifs <;> simp

theorem commit_tiers_newouts (s out : Nat) (nm eq : String) (us : List Nat) (hnd : us.Nodup)
    (w : Sweep) (v : Nat) :
    (us.foldl (commit_tier s out nm eq) w).newouts.getD v [] =
      if v ∈ us ∧ s < count w.number_names out v ∧ v < w.newouts.length then
        w.newouts.getD v [] ++ [out]
      else w.newouts.getD v [] := by
  induction us generalizing w with
  | nil => simp
  | cons u t ih =>
    simp only [List.foldl_cons]
    rw [ih (List.nodup_cons.mp hnd).2, commit_tier_newouts, commit_tier_count,
      commit_tier_newouts_length]
    have hut : u ∉ t := (List.nodup_cons.mp hnd).1
    by_cases hv : v = u
    · subst hv
      have h1 : ¬ (v ∈ t ∧ (s < if out = out ∧ v = v ∧ s < count w.number_names out v then s
          else count w.number_names out v) ∧ v < w.newouts.length) := fun hh => hut hh.1
      rw [if_neg h1]
      simp [-List.getD_eq_getElem?_getD]
    · have h2 : ¬ (out = out ∧ v = u ∧ s < count w.number_names out v) := fun hh => hv hh.2.1
      rw [if_neg h2]
      have h3 : ¬ (v = u ∧ s < count w.number_names out u ∧ u < w.newouts.length) :=
        fun hh => hv hh.1
      rw [if_neg h3]
      simp [-List.getD_eq_getElem?_getD, hv]

theorem commit_newouts (r s out : Nat) (nm eq : String) (w : Sweep) (v : Nat) :
    (commit r s out nm eq w).newouts.getD v [] =
      if r ≤ v ∧ v < pemdas_count ∧ s < count w.number_names out v ∧ v < w.newouts.length then
        w.newouts.getD v [] ++ [out]
      else w.newouts.getD v [] := by
  unfold commit
  rw [commit_tiers_newouts _ _ _ _ _ (List.nodup_range' _ _)]
  simp only [mem_tiers, and_assoc]

/-- C6: committing a candidate of budget `s` to entry `out` (present in the store, with six name
and equation slots and six lists of new outputs) does the following at every tier `u` from the
operator's result tier up: the count becomes the minimum of the old count and `s`; if `s` is at
most the old count the name and equation become the candidate's, and if `s` is above it the
count, name and equation stay as they were; `out` is appended to the new outputs of tier `u` if
the old count was strictly above `s`, and those new outputs are unchanged otherwise. -/
theorem relaxation_rule (w : Sweep) (r s out u : Nat) (nm eq : String)
    (hout : out < w.number_names.length) (hr : r ≤ u) (hu : u < pemdas_count)
    (hn : (w.number_names.getD out default).names.length = pemdas_count)
    (he : (w.number_names.getD out default).equations.length = pemdas_count)
    (ho : w.newouts.length = pemdas_count) :
    count (commit r s out nm eq w).number_names out u = min (count w.number_names out u) s ∧
    (s ≤ count w.number_names out u →
      name_at (commit r s out nm eq w).number_names out u = nm ∧
      equation_at (commit r s out nm eq w).number_names out u = eq) ∧
    (count w.number_names out u < s →
      count (commit r s out nm eq w).number_names out u = count w.number_names out u ∧
      name_at (commit r s out nm eq w).number_names out u = name_at w.number_names out u ∧
      equation_at (commit r s out nm eq w).number_names out u =
        equation_at w.number_names out u) ∧
    (s < count w.number_names out u →
      (commit r s out nm eq w).newouts.getD u [] = w.newouts.getD u [] ++ [out]) ∧
    (count w.number_names out u ≤ s →
      (commit r s out nm eq w).newouts.getD u [] = w.newouts.getD u []) := by
  refine ⟨?_, ?_, ?_, ?_, ?_⟩
  · rw [commit_count]
    split_ifs with h
    · exact (min_eq_right (le_of_lt h.2.2.2)).symm
    · have : count w.number_names out u ≤ s := by
        by_contra hc
        exact h ⟨rfl, hr, hu, not_le.mp hc⟩
      exact (min_eq_left this).symm
  · intro hs
    constructor
    · rw [commit_name, if_pos ⟨rfl, hout, hr, hu, hs, by rw [hn]; exact hu⟩]
    · rw [commit_equation, if_pos ⟨rfl, hout, hr, hu, hs, by rw [he]; exact hu⟩]
  · intro hs
    refine ⟨?_, ?_, ?_⟩
    · rw [commit_count, if_neg]; intro hh; omega
    · rw [commit_name, if_neg]; intro hh; omega
    · rw [commit_equation, if_neg]; intro hh; omega
  · intro hs
    rw [commit_newouts, if_pos ⟨hr, hu, hs, by rw [ho]; exact hu⟩]
  · intro hs
    rw [commit_newouts, if_neg]; intro hh; omega

/-! ## Instances -/

/-- Instance of C3: in the run for `N = 27`, the tier-5 count of 27 is 2 after layer 2 and is
the same after layer 3. -/
theorem settled_counts_are_final_witness :
    2 ≤ 3 ∧ count (after_layers exact_pruning 27 27 2).number_names 27 5 ≤ 2 ∧
      count (after_layers exact_pruning 27 27 3).number_names 27 5 =
        count (after_layers exact_pruning 27 27 2).number_names 27 5 :=
  ⟨by decide, by decide!,
    (settled_counts_are_final exact_pruning 27 27 27 5 2 3 (by decide) (by decide!)).1⟩

/-- Instance of C5: the store reached from the seeded store for `N = 27` by committing
"three cubed" is reachable, and its count of 27 at tier 5 is at least 1. -/
theorem counts_at_least_one_witness :
    Reachable 27
        (commit 2 2 27 "three cubed" "3 ³" ⟨seeded 27, List.replicate 6 []⟩).number_names ∧
      1 ≤ count (commit 2 2 27 "three cubed" "3 ³" ⟨seeded 27, List.replicate 6 []⟩).number_names
        27 5 :=
  ⟨Reachable.commit ⟨seeded 27, List.replicate 6 []⟩ 2 2 27 _ _ Reachable.seed (by decide)
      (by decide) (by decide),
    (counts_at_least_one 27).1 _
      (Reachable.commit ⟨seeded 27, List.replicate 6 []⟩ 2 2 27 _ _ Reachable.seed (by decide)
        (by decide) (by decide)) 27 5 (by decide) (by decide)⟩

/-- Instance of C6: committing "three cubed" with budget 2 to entry 27 of the seeded store for
`N = 27` at result tier 2 sets the tier-5 count of 27 to `min 4 2`. -/
theorem relaxation_rule_witness :
    count (commit 2 2 27 "three cubed" "3 ³" ⟨seeded 27, List.replicate 6 []⟩).number_names 27 5 =
      min (count (seeded 27) 27 5) 2 :=
  (relaxation_rule ⟨seeded 27, List.replicate 6 []⟩ 2 2 27 5 "three cubed" "3 ³"
    (by decide!) (by decide) (by decide) (by decide!) (by decide!) (by decide)).1

/-- Instance of C7: committing "three cubed" to entry 27 at result tier 2 leaves the tier-1 count
of 27 at its seeded value. -/
theorem commit_writes_only_upward_witness :
    1 < 2 ∧
      count (commit 2 2 27 "three cubed" "3 ³" ⟨seeded 27, List.replicate 6 []⟩).number_names 27 1 =
        count (seeded 27) 27 1 :=
  ⟨by decide,
    ((commit_writes_only_upward.1 ⟨seeded 27, List.replicate 6 []⟩ 2 2 27 "three cubed"
      "3 ³").2.1 1 (by decide)).1⟩

/-- Instance of C8: "fraction" accepts 6 and 3 and returns 2. -/
theorem division_is_exact_witness :
    ("fraction" = "/" ∨ "fraction" = "fraction") ∧ (0 : Int) ≤ 6 ∧ (0 : Int) ≤ 3 ∧
      (get_output "fraction" 6 3).2 = true ∧ (get_output "fraction" 6 3).1 = 6 / 3 :=
  ⟨Or.inr rfl, by decide, by decide,
    (((division_is_exact "fraction" (Or.inr rfl)).1 6 3 (by decide) (by decide)).1).2
      ⟨by decide, by decide⟩,
    ((division_is_exact "fraction" (Or.inr rfl)).1 6 3 (by decide) (by decide)).2
      ((((division_is_exact "fraction" (Or.inr rfl)).1 6 3 (by decide) (by decide)).1).2
        ⟨by decide, by decide⟩)⟩

/-- Instance of C9: in layer 3 of a run for `N = 27`, the candidate "seven over two" is discarded. -/
theorem invalid_candidates_are_discarded_witness :
    ¬ (2 ≠ 0 ∧ 7 % 2 = 0) ∧
      binary_candidate 27 3 ⟨"/", 2, " over ", "", 3, 2, 4⟩ 7 2 ⟨seeded 27, List.replicate 6 []⟩ =
        ⟨seeded 27, List.replicate 6 []⟩ :=
  ⟨by decide,
    (invalid_candidates_are_discarded 27 3 ⟨seeded 27, List.replicate 6 []⟩).1
      ⟨"/", 2, " over ", "", 3, 2, 4⟩ 7 2 (Or.inl rfl) (by decide)⟩

/-- Instance of C10: the run for `N = 27` exits with the pointer above 27. -/
theorem termination_and_convergence_witness :
    27 < (number_names_generator exact_pruning 27 27).1.min_missing :=
  (termination_and_convergence exact_pruning 27).2.2.2.1

/-! ## Order of commits -/

theorem commit_newouts_length (r s out : Nat) (nm eq : String) (w : Sweep) :
    (commit r s out nm eq w).newouts.length = w.newouts.length := by
  unfold commit
  generalize List.range' r (pemdas_count - r) = us
  induction us generalizing w with
  | nil => rfl
  | cons u t ih => simp only [List.foldl_cons]; rw [ih, commit_tier_newouts_length]

/-- C13: committing two candidates of the same layer `s` in either order gives the same count
at every tier of every entry and, for every tier, the same set of values recorded as new
outputs. -/
theorem commit_order_is_irrelevant_for_counts (w : Sweep) (s r1 out1 r2 out2 : Nat)
    (nm1 eq1 nm2 eq2 : String) :
    (∀ n u, count (commit r1 s out1 nm1 eq1 (commit r2 s out2 nm2 eq2 w)).number_names n u =
      count (commit r2 s out2 nm2 eq2 (commit r1 s out1 nm1 eq1 w)).number_names n u) ∧
    (∀ u x, x ∈ (commit r1 s out1 nm1 eq1 (commit r2 s out2 nm2 eq2 w)).newouts.getD u [] ↔
      x ∈ (commit r2 s out2 nm2 eq2 (commit r1 s out1 nm1 eq1 w)).newouts.getD u []) := by
  constructor
  · intro n u
    simp only [commit_count]
    split_ifs <;> rfl
  · intro u x
    simp only [commit_newouts, commit_count, commit_newouts_length]
    by_cases h12 : out1 = out2
    · subst h12
      split_ifs <;> simp_all
    · have h21 : ¬ out2 = out1 := fun h => h12 h.symm
      simp only [h12, h21, false_and, if_false]
      split_ifs <;> simp [or_comm, or_assoc, or_left_comm]

/-! ## Reruns and concrete scenarios -/

/-- C15: for `N = 27` (exact bounds) the engine reports the name "three cubed" with the equation
"3 ³" and count 2 at the loosest tier, below the baseline count 4 of "twenty-seven". -/
theorem twenty_seven_is_three_cubed :
    ((number_names_generator exact_pruning 27 27).1.number_names.getD 27 default).names.getLastD ""
      = "three cubed" ∧
    ((number_names_generator exact_pruning 27 27).1.number_names.getD 27
      default).equations.getLastD "" = "3 ³" ∧
    best_syl 27 = 2 ∧
    ((number_names_generator exact_pruning 27 27).1.number_names.getD 27 default).original = 4 ∧
    (base_syllables (store_before 27) 27).n_name = "twenty-seven" ∧
    best_syl 27 < ((number_names_generator exact_pruning 27 27).1.number_names.getD 27
      default).original := by
  decide!

/-- C16, as stated, fails: for `N = 0` the reported count is not 1. -/
theorem zero_count_is_not_one : best_syl 0 ≠ 1 := by
  decide!

/-- C16, amended: for `N = 0` the engine reports the baseline name "zero" with count 2, equal to
the baseline count 2 (no improvement), after a single layer. -/
theorem zero_keeps_baseline :
    ((number_names_generator exact_pruning 0 0).1.number_names.getD 0 default).names.getLastD ""
      = "zero" ∧
    best_syl 0 = 2 ∧
    ((number_names_generator exact_pruning 0 0).1.number_names.getD 0 default).original = 2 ∧
    (number_names_generator exact_pruning 0 0).2 = 1 ∧
    (one_names.getD 0 default).cardSyl = 2 := by
  decide!

/-- C17: for every `N ≥ 2`, at the end of the run the tier-0 slot of the integer 2 holds the
name "halve" with count 1, whereas the ordinal of the ones table for 2 is "second" with 2
syllables. -/
theorem two_is_halve (X : Pruning) (leave_point N : Nat) (hN : 2 ≤ N) :
    name_at (number_names_generator X leave_point N).1.number_names 2 0 = "halve" ∧
    count (number_names_generator X leave_point N).1.number_names 2 0 = 1 ∧
    (one_names.getD 2 default).ord = "second" ∧ (one_names.getD 2 default).ordSyl = 2 := by
  have hf := (generator_frame X leave_point N).2 2
  have h0 := hf.2 0 (by decide)
  have hs : (seeded N).getD 2 default =
      { seed_entry (store_before 2) 2 with
        syllables := (seed_entry (store_before 2) 2).syllables.set 0 1
        names := (seed_entry (store_before 2) 2).names.set 0 "halve" } := by
    rw [seeded_entry N 2 hN, if_pos rfl]
  refine ⟨?_, ?_, rfl, rfl⟩
  · rw [h0.2.1]
    unfold name_at
    rw [hs]
    rfl
  · rw [h0.1]
    unfold count
    rw [hs]
    rfl

/-- Instance of C17: the run for `N = 2`. -/
theorem two_is_halve_witness :
    2 ≤ 2 ∧ name_at (number_names_generator exact_pruning 2 2).1.number_names 2 0 = "halve" :=
  ⟨le_refl 2, (two_is_halve exact_pruning 2 2 (le_refl 2)).1⟩

/-! ## Reads of the base form resolver -/

theorem large_names_base : ∀ i, i < large_names.length →
    100 ≤ (large_names.getD i default).base := by
  decide

theorem large_index_loop_base (n fuel i : Nat) (h : i < large_names.length)
    (hb : (large_names.getD i default).base ≤ n) :
    (large_names.getD (large_index_loop n fuel i) default).base ≤ n := by
  induction fuel generalizing i with
  | zero => exact hb
  | succ f ih =>
    unfold large_index_loop
    split_ifs with hc
    · exact ih (i + 1) hc.1 hc.2
    · exact hb

theorem base_reads_lt (n : Nat) : ∀ m ∈ base_reads n, 1 ≤ m ∧ m < n := by
  intro m hm
  unfold base_reads at hm
  by_cases h20 : n < 20
  · simp [h20] at hm
  · by_cases h100 : n < 100
    · simp only [h20, h100, if_true, if_false] at hm
      by_cases h0 : n % 10 = 0
      · simp [h0] at hm
      · simp only [h0, if_false, List.mem_singleton] at hm
        subst hm
        omega
    · simp only [h20, h100, if_false] at hm
      have hi := large_index_loop_lt n large_names.length 0 (by decide)
      have hb := large_index_loop_base n large_names.length 0 (by decide)
        (by show (100 : Nat) ≤ n; omega)
      have hb2 := large_names_base _ hi
      generalize (large_names.getD (large_index_loop n large_names.length 0) default).base = B
        at hm hb hb2
      have hd1 : 1 ≤ n / B := Nat.div_pos hb (by omega)
      have hd2 : n / B < n := Nat.div_lt_self (by omega) (by omega)
      have hm2 : n % B < B := Nat.mod_lt _ (by omega)
      by_cases h0 : n % B = 0
      · simp only [h0, if_true, List.mem_singleton] at hm
        subst hm
        exact ⟨hd1, hd2⟩
      · simp only [h0, if_false, List.mem_cons, List.mem_singleton, List.mem_nil_iff,
          or_false] at hm
        rcases hm with hm | hm
        · subst hm; exact ⟨hd1, hd2⟩
        · subst hm; omega

/-- C18: `base_syllables(n)` reads the store only at the indices `base_reads n` (its result is the
same on two stores that agree there), every such index `m` satisfies `1 ≤ m < n`, and the tables
are indexed within their bounds: the ones table at `n < 20`, the tens table at the tens digit
`2..9`, the scale table at an index below its size whose base is at most `n`.  So when the entries
`0..n-1` exist, every entry read exists. -/
theorem seeding_reads_earlier_entries (n : Nat) :
    (∀ nn nn' : List Entry, (∀ m ∈ base_reads n, nn.getD m default = nn'.getD m default) →
      base_syllables nn n = base_syllables nn' n) ∧
    (∀ m ∈ base_reads n, 1 ≤ m ∧ m < n) ∧
    (n < 20 → n < one_names.length) ∧
    (20 ≤ n → n < 100 → 2 ≤ n / 10 ∧ n / 10 < ten_names.length) ∧
    (100 ≤ n → large_index_loop n large_names.length 0 < large_names.length ∧
      (large_names.getD (large_index_loop n large_names.length 0) default).base ≤ n) ∧
    (∀ m ∈ base_reads n, m < (store_before n).length) := by
  have hreads := base_reads_lt n
  refine ⟨?_, hreads, ?_, ?_, ?_, ?_⟩
  · intro nn nn' h
    unfold base_reads at h
    unfold base_syllables
    by_cases h20 : n < 20
    · simp only [h20, if_true]
    · by_cases h100 : n < 100
      · simp only [h20, h100, if_true, if_false] at h ⊢
        by_cases h0 : n % 10 = 0
        · simp only [h0, if_true]
        · simp only [h0, if_false, List.mem_singleton, forall_eq] at h ⊢
          rw [h]
      · simp only [h20, h100, if_false] at h ⊢
        by_cases h0 : n % (large_names.getD (large_index_loop n large_names.length 0)
            default).base = 0
        · simp only [h0, if_true, List.mem_singleton, forall_eq] at h ⊢
          rw [h]
        · simp only [h0, if_false, List.mem_cons, List.mem_singleton, List.mem_nil_iff,
            or_false, forall_eq_or_imp, forall_eq] at h ⊢
          rw [h.1, h.2]
  · intro h; exact h
  · intro h1 h2
    constructor
    · omega
    · show n / 10 < 10
      omega
  · intro h
    exact ⟨large_index_loop_lt n large_names.length 0 (by decide),
      large_index_loop_base n large_names.length 0 (by decide) (by show (100 : Nat) ≤ n; omega)⟩
  · intro m hm
    have := hreads m hm
    cases n with
    | zero => omega
    | succ k =>
      show m < (base_fill k).1.length
      rw [base_fill_length]
      omega

/-- Instance of C18: `base_syllables 121` reads the entries 1 and 21 only. -/
theorem seeding_reads_earlier_entries_witness :
    21 ∈ base_reads 121 ∧ 1 ≤ 21 ∧ 21 < 121 :=
  ⟨by decide, (seeding_reads_earlier_entries 121).2.1 21 (by decide)⟩

/-! ## Sorting and deduplication -/

theorem unique_cons_cons (a b : Nat) (t : List Nat) :
    unique (a :: b :: t) = if a = b then unique (b :: t) else a :: unique (b :: t) := by
  rw [unique]

theorem mem_unique (l : List Nat) (x : Nat) : x ∈ unique l ↔ x ∈ l := by
  induction l with
  | nil => simp [unique]
  | cons a t ih =>
    cases t with
    | nil => simp [unique]
    | cons b t2 =>
      rw [unique_cons_cons]
      by_cases h : a = b
      · rw [if_pos h, ih]
        subst h
        simp
      · rw [if_neg h, List.mem_cons, ih]
        simp

theorem unique_sorted (l : List Nat) (h : l.Sorted (· ≤ ·)) : (unique l).Sorted (· < ·) := by
  induction l with
  | nil => simp [unique]
  | cons a t ih =>
    cases t with
    | nil => simp [unique]
    | cons b t2 =>
      rw [unique_cons_cons]
      have ht := ih (List.Sorted.of_cons h)
      by_cases hab : a = b
      · rw [if_pos hab]; exact ht
      · rw [if_neg hab]
        refine List.Pairwise.cons ?_ ht
        intro y hy
        rw [mem_unique] at hy
        have h1 : ∀ z ∈ b :: t2, a ≤ z := List.rel_of_sorted_cons h
        have h2 : ∀ z ∈ t2, b ≤ z := List.rel_of_sorted_cons (List.Sorted.of_cons h)
        have hb := h1 b (List.mem_cons_self _ _)
        rcases List.mem_cons.mp hy with hy | hy
        · subst hy; omega
        · have := h2 y hy; omega

theorem unique_of_sorted_lt (l : List Nat) (h : l.Sorted (· < ·)) : unique l = l := by
  induction l with
  | nil => simp [unique]
  | cons a t ih =>
    cases t with
    | nil => simp [unique]
    | cons b t2 =>
      rw [unique_cons_cons]
      have h1 : ∀ z ∈ b :: t2, a < z := List.rel_of_sorted_cons h
      have hb := h1 b (List.mem_cons_self _ _)
      rw [if_neg (by omega), ih (List.Sorted.of_cons h)]

theorem mem_sort_unique (l : List Nat) (x : Nat) : x ∈ sort_unique l ↔ x ∈ l := by
  unfold sort_unique
  rw [mem_unique]
  exact (List.perm_insertionSort _ l).mem_iff

theorem sort_unique_sorted (l : List Nat) : (sort_unique l).Sorted (· < ·) :=
  unique_sorted _ (List.sorted_insertionSort _ l)

theorem sort_unique_of_sorted (l : List Nat) (h : l.Sorted (· < ·)) : sort_unique l = l := by
  unfold sort_unique
  have h2 : l.Sorted (· ≤ ·) := h.imp (fun hab => le_of_lt hab)
  rw [List.Sorted.insertionSort_eq h2]
  exact unique_of_sorted_lt l h

/-! ## Merging into the index -/

theorem merge_key_eq (s : Nat) (key : List (List (List Nat))) (locals : List (List Nat)) :
    merge_key s key locals = (List.range pemdas_count).foldl (merge_step s locals) key := rfl

theorem merge_step_length (s : Nat) (locals : List (List Nat)) (key : List (List (List Nat)))
    (u : Nat) : (merge_step s locals key u).length = key.length := by
  unfold merge_step; simp

theorem merge_step_row_length (s : Nat) (locals : List (List Nat)) (key : List (List (List Nat)))
    (u j : Nat) : ((merge_step s locals key u).getD j []).length = (key.getD j []).length := by
  unfold merge_step
  rw [getD_set_eq]
  split_ifs with h
  · rw [List.length_set, h.1]
  · rfl

theorem merge_step_bucket (s : Nat) (locals : List (List Nat)) (key : List (List (List Nat)))
    (u j v : Nat) :
    bucket (merge_step s locals key u) j v =
      if j = s ∧ v = u ∧ s < key.length ∧ u < (key.getD s []).length then
        sort_unique (bucket key s v ++ locals.getD v [])
      else bucket key j v := by
  unfold bucket merge_step
  rw [getD_set_eq]
  by_cases hj : j = s
  · subst hj
    by_cases hl : j < key.length
    · simp only [hl, and_self, if_true, true_and, getD_set_eq]
      by_cases hv : v = u
      · subst hv
        by_cases hr : v < (key.getD j []).length
        · simp [-List.getD_eq_getElem?_getD, hr]
        · simp [-List.getD_eq_getElem?_getD, hr]
      · have hv2 : ¬ u = v := fun h => hv h.symm
        simp [-List.getD_eq_getElem?_getD, hv, hv2]
    · simp [-List.getD_eq_getElem?_getD, hl]
  · have hj2 : ¬ s = j := fun h => hj h.symm
    simp [-List.getD_eq_getElem?_getD, hj, hj2]

theorem merge_steps_length (s : Nat) (locals : List (List Nat)) (us : List Nat)
    (key : List (List (List Nat))) :
    (us.foldl (merge_step s locals) key).length = key.length := by
  induction us generalizing key with
  | nil => rfl
  | cons u t ih => simp only [List.foldl_cons]; rw [ih, merge_step_length]

theorem merge_steps_row_length (s : Nat) (locals : List (List Nat)) (us : List Nat)
    (key : List (List (List Nat))) (j : Nat) :
    ((us.foldl (merge_step s locals) key).getD j []).length = (key.getD j []).length := by
  induction us generalizing key with
  | nil => rfl
  | cons u t ih => simp only [List.foldl_cons]; rw [ih, merge_step_row_length]

theorem merge_steps_bucket (s : Nat) (locals : List (List Nat)) (us : List Nat) (hnd : us.Nodup)
    (key : List (List (List Nat))) (j v : Nat) :
    bucket (us.foldl (merge_step s locals) key) j v =
      if j = s ∧ v ∈ us ∧ s < key.length ∧ v < (key.getD s []).length then
        sort_unique (bucket key s v ++ locals.getD v [])
      else bucket key j v := by
  induction us generalizing key with
  | nil => simp
  | cons u t ih =>
    simp only [List.foldl_cons]
    rw [ih (List.nodup_cons.mp hnd).2, merge_step_length, merge_step_row_length,
      merge_step_bucket, merge_step_bucket]
    have hut : u ∉ t := (List.nodup_cons.mp hnd).1
    by_cases hj : j = s
    · subst hj
      by_cases hv : v = u
      · subst hv
        simp [-List.getD_eq_getElem?_getD, hut]
      · by_cases hvt : v ∈ t
        · simp [-List.getD_eq_getElem?_getD, hv, hvt]
        · simp [-List.getD_eq_getElem?_getD, hv, hvt]
    · simp [-List.getD_eq_getElem?_getD, hj]

theorem merge_key_length (s : Nat) (key : List (List (List Nat))) (locals : List (List Nat)) :
    (merge_key s key locals).length = key.length := by
  rw [merge_key_eq]; exact merge_steps_length _ _ _ _

theorem merge_key_row_length (s : Nat) (key : List (List (List Nat))) (locals : List (List Nat))
    (j : Nat) : ((merge_key s key locals).getD j []).length = (key.getD j []).length := by
  rw [merge_key_eq]; exact merge_steps_row_length _ _ _ _ _

theorem merge_key_bucket (s : Nat) (key : List (List (List Nat))) (locals : List (List Nat))
    (j v : Nat) :
    bucket (merge_key s key locals) j v =
      if j = s ∧ v < pemdas_count ∧ s < key.length ∧ v < (key.getD s []).length then
        sort_unique (bucket key s v ++ locals.getD v [])
      else bucket key j v := by
  rw [merge_key_eq, merge_steps_bucket _ _ _ (List.nodup_range _)]
  simp only [List.mem_range]

/-! ## The index fill -/

theorem fill_tiers_length (s n : Nat) (syl : List Nat) (us : List Nat) (loc : List (List Nat)) :
    (fill_tiers s n syl us loc).length = loc.length := by
  induction us generalizing loc with
  | nil => rfl
  | cons u t ih =>
    unfold fill_tiers
    simp only []
    split_ifs
    · rfl
    · rw [ih]; simp
    · rfl
    · rw [ih]

open Classical in
theorem fill_tiers_get (s n : Nat) (syl : List Nat) (m k : Nat) (loc : List (List Nat)) (u : Nat) :
    (fill_tiers s n syl (List.range' k m) loc).getD u [] =
      if k ≤ u ∧ u < k + m ∧ syl.getD u 0 = s ∧ scan_reaches s syl k u ∧ u < loc.length then
        loc.getD u [] ++ [n]
      else loc.getD u [] := by
  induction m generalizing k loc with
  | zero =>
    have : ¬ (k ≤ u ∧ u < k + 0 ∧ syl.getD u 0 = s ∧ scan_reaches s syl k u ∧ u < loc.length) := by
      intro h; omega
    rw [if_neg this]
    rfl
  | succ m ih =>
    rw [List.range'_succ]
    unfold fill_tiers
    simp only []
    by_cases h1 : syl.getD k 0 < s
    · rw [if_pos h1]
      rw [if_neg]
      rintro ⟨hk, _, hs, hr, _⟩
      by_cases hku : k = u
      · subst hku; omega
      · have := (hr k (le_refl _) (by omega)).1
        omega
    · rw [if_neg h1]
      by_cases h2 : syl.getD k 0 = s
      · rw [if_pos h2, ih, List.length_set, getD_set_eq]
        by_cases hku : k = u
        · subst hku
          have hr : scan_reaches s syl k k := fun v hv1 hv2 => by omega
          by_cases hl : k < loc.length
          · rw [if_neg (by omega), if_pos ⟨rfl, hl⟩, if_pos ⟨le_refl _, by omega, h2, hr, hl⟩]
          · rw [if_neg (by omega), if_neg (fun h => hl h.2), if_neg (fun h => hl h.2.2.2.2)]
        · have hne : ¬ (k = u ∧ k < loc.length) := fun h => hku h.1
          simp only [if_neg hne]
          have hiff : (k + 1 ≤ u ∧ u < k + 1 + m ∧ syl.getD u 0 = s ∧ scan_reaches s syl (k + 1) u ∧
              u < loc.length) ↔ (k ≤ u ∧ u < k + (m + 1) ∧ syl.getD u 0 = s ∧
              scan_reaches s syl k u ∧ u < loc.length) := by
            constructor
            · rintro ⟨a, b, c, d, e⟩
              refine ⟨by omega, by omega, c, ?_, e⟩
              intro v hv1 hv2
              by_cases hvk : v = k
              · subst hvk; exact ⟨by omega, Or.inl h2⟩
              · exact d v (by omega) hv2
            · rintro ⟨a, b, c, d, e⟩
              exact ⟨by omega, by omega, c, fun v hv1 hv2 => d v (by omega) hv2, e⟩
          by_cases hc : (k ≤ u ∧ u < k + (m + 1) ∧ syl.getD u 0 = s ∧
              scan_reaches s syl k u ∧ u < loc.length)
          · rw [if_pos hc, if_pos (hiff.mpr hc)]
          · rw [if_neg hc, if_neg (fun h => hc (hiff.mp h))]
      · rw [if_neg h2]
        by_cases h3 : k > 0
        · rw [if_pos h3, if_neg]
          rintro ⟨hk, _, hs, hr, _⟩
          by_cases hku : k = u
          · subst hku; exact h2 hs
          · rcases (hr k (le_refl _) (by omega)).2 with h | h
            · exact h2 h
            · omega
        · rw [if_neg h3, ih]
          have hk0 : k = 0 := by omega
          have hiff : (k + 1 ≤ u ∧ u < k + 1 + m ∧ syl.getD u 0 = s ∧ scan_reaches s syl (k + 1) u ∧
              u < loc.length) ↔ (k ≤ u ∧ u < k + (m + 1) ∧ syl.getD u 0 = s ∧
              scan_reaches s syl k u ∧ u < loc.length) := by
            constructor
            · rintro ⟨a, b, c, d, e⟩
              refine ⟨by omega, by omega, c, ?_, e⟩
              intro v hv1 hv2
              by_cases hvk : v = k
              · subst hvk; exact ⟨by omega, Or.inr hk0⟩
              · exact d v (by omega) hv2
            · rintro ⟨a, b, c, d, e⟩
              refine ⟨?_, by omega, c, fun v hv1 hv2 => d v (by omega) hv2, e⟩
              by_contra hcon
              have : u = k := by omega
              subst this
              exact h2 c
          by_cases hc : (k ≤ u ∧ u < k + (m + 1) ∧ syl.getD u 0 = s ∧
              scan_reaches s syl k u ∧ u < loc.length)
          · rw [if_pos hc, if_pos (hiff.mpr hc)]
          · rw [if_neg hc, if_neg (fun h => hc (hiff.mp h))]

open Classical in
theorem fill_row_get (s n : Nat) (syl : List Nat) (loc : List (List Nat))
    (hl : loc.length = pemdas_count) (u : Nat) :
    (fill_tiers s n syl (List.range pemdas_count) loc).getD u [] =
      if scan_pushes s syl u then loc.getD u [] ++ [n] else loc.getD u [] := by
  rw [List.range_eq_range', fill_tiers_get]
  unfold scan_pushes
  by_cases h : u < pemdas_count ∧ syl.getD u 0 = s ∧ scan_reaches s syl 0 u
  · rw [if_pos h, if_pos ⟨Nat.zero_le _, by omega, h.2.1, h.2.2, by rw [hl]; exact h.1⟩]
  · rw [if_neg h, if_neg]
    rintro ⟨_, h2, h3, h4, _⟩
    exact h ⟨by omega, h3, h4⟩

open Classical in
theorem fill_fold_get (s : Nat) (nn : List Entry) (ns : List Nat) (loc : List (List Nat))
    (hl : loc.length = pemdas_count) (u : Nat) :
    (ns.foldl (fun loc n => fill_tiers s n (nn.getD n default).syllables
        (List.range pemdas_count) loc) loc).getD u [] =
      loc.getD u [] ++ ns.filter (fun n => decide (scan_pushes s (nn.getD n default).syllables u)) := by
  induction ns generalizing loc with
  | nil => simp
  | cons n t ih =>
    simp only [List.foldl_cons]
    rw [ih _ (by rw [fill_tiers_length]; exact hl), fill_row_get _ _ _ _ hl, List.filter_cons]
    by_cases h : scan_pushes s (nn.getD n default).syllables u
    · simp [-List.getD_eq_getElem?_getD, h]
    · simp [-List.getD_eq_getElem?_getD, h]

open Classical in
theorem fill_scan_get (s mm N : Nat) (nn : List Entry) (u : Nat) :
    (fill_scan s mm N nn).getD u [] =
      (List.range' mm (N + 1 - mm)).filter
        (fun n => decide (scan_pushes s (nn.getD n default).syllables u)) := by
  unfold fill_scan
  rw [fill_fold_get _ _ _ _ (by simp)]
  simp [List.getD_eq_getElem?_getD, List.getElem?_replicate]
  split_ifs <;> rfl

theorem fill_scan_length (s mm N : Nat) (nn : List Entry) :
    (fill_scan s mm N nn).length = pemdas_count := by
  unfold fill_scan
  refine foldl_invariant (fun (loc : List (List Nat)) => loc.length = pemdas_count) _ _ ?_ _
    (by simp)
  intro loc n _ h
  rw [fill_tiers_length]; exact h

/-! ## Counts across the tiers -/

theorem one_names_card_le_ord : ∀ n, n < 20 →
    (one_names.getD n default).cardSyl ≤ (one_names.getD n default).ordSyl := by
  decide

theorem ten_names_card_le_ord : ∀ d, d < 10 →
    (ten_names.getD d default).cardSyl ≤ (ten_names.getD d default).ordSyl := by
  decide

theorem store_before_entry (n m : Nat) (h : m < n) :
    (store_before n).getD m default = seed_entry (store_before m) m := by
  cases n with
  | zero => omega
  | succ k => exact base_fill_entry k m (by omega)

/-- At seeding the modifier form never has fewer syllables than the cardinal form. -/
theorem base_syllables_card_le_frac (n : Nat) :
    (base_syllables (store_before n) n).n_syl ≤ (base_syllables (store_before n) n).frac_syl := by
  induction n using Nat.strong_induction_on with
  | _ n ih =>
    have hread : ∀ m, m < n → ((store_before n).getD m default).syllables.getD 1 0 ≤
        ((store_before n).getD m default).syllables.getD 0 0 := by
      intro m hm
      rw [store_before_entry n m hm, seed_entry_syllables, seed_entry_syllables]
      simp only [pemdas_count]
      simpa using ih m hm
    unfold base_syllables
    by_cases h20 : n < 20
    · simp only [h20, if_true]
      exact one_names_card_le_ord n h20
    · by_cases h100 : n < 100
      · simp only [h20, h100, if_true, if_false]
        by_cases hm : n % 10 = 0
        · simp only [hm, if_true]
          exact ten_names_card_le_ord (n / 10) (by omega)
        · simp only [hm, if_false]
          have := hread (n % 10) (by omega)
          omega
      · simp only [h20, h100, if_false]
        have hr := base_reads_lt n
        by_cases hm : n % (large_names.getD (large_index_loop n large_names.length 0)
            default).base = 0
        · simp only [hm, if_true]
          exact le_refl _
        · simp only [hm, if_false]
          have hmem : n % (large_names.getD (large_index_loop n large_names.length 0)
              default).base ∈ base_reads n := by
            unfold base_reads
            simp only [h20, h100, if_false, hm]
            exact List.mem_cons_of_mem _ (List.mem_cons_self _ _)
          have := hread _ (hr _ hmem).2
          omega

theorem seeded_tiers_ordered (N : Nat) : TiersOrdered (seeded N) := by
  intro n v u hvu hu
  by_cases hn : n ≤ N
  · rw [seeded_count N n u hn, seeded_count N n v hn]
    have h1 := base_syllables_card_le_frac n
    by_cases hv0 : v = 0
    · subst hv0
      by_cases hu0 : u = 0
      · subst hu0; exact le_refl _
      · by_cases h2 : n = 2
        · subst h2
          simp only [hu0, and_false, if_false, hu, if_true, and_self]
          decide
        · simp only [h2, false_and, if_false, hu0, hu, if_true]
          exact h1
    · have hu0 : u ≠ 0 := by omega
      have hv6 : v < pemdas_count := by omega
      simp only [hu0, hv0, and_false, if_false, hu, hv6, if_true]
      exact le_refl _
  · have hl : (seeded N).length ≤ n := by rw [seeded_length]; omega
    unfold count
    rw [getD_of_length_le _ _ _ hl, count_default, count_default]

theorem commit_tiers_ordered (r s out : Nat) (nm eq : String) (w : Sweep)
    (h : TiersOrdered w.number_names) : TiersOrdered (commit r s out nm eq w).number_names := by
  intro n v u hvu hu
  have h1 := h n v u hvu hu
  rw [commit_count, commit_count]
  by_cases a : n = out ∧ r ≤ u ∧ u < pemdas_count ∧ s < count w.number_names n u
  · rw [if_pos a]
    by_cases b : n = out ∧ r ≤ v ∧ v < pemdas_count ∧ s < count w.number_names n v
    · rw [if_pos b]
    · rw [if_neg b]; omega
  · rw [if_neg a]
    by_cases b : n = out ∧ r ≤ v ∧ v < pemdas_count ∧ s < count w.number_names n v
    · rw [if_pos b]
      by_contra hc
      exact a ⟨b.1, by omega, hu, by omega⟩
    · rw [if_neg b]; exact h1

theorem after_layers_tiers_ordered (X : Pruning) (leave_point N k : Nat) :
    TiersOrdered (after_layers X leave_point N k).number_names := by
  induction k with
  | zero => exact seeded_tiers_ordered N
  | succ k ih =>
    rw [after_layers_succ]
    exact layer_store TiersOrdered X leave_point N (k + 1)
      (fun w r out nm eq hw _ _ => commit_tiers_ordered r (k + 1) out nm eq w hw) _ ih

theorem after_layers_seed_or_le (X : Pruning) (leave_point N k n u : Nat) :
    count (after_layers X leave_point N k).number_names n u = count (seeded N) n u ∨
      count (after_layers X leave_point N k).number_names n u ≤ k := by
  induction k with
  | zero => left; rfl
  | succ k ih =>
    rcases after_layers_count_step X leave_point N k n u with h | h
    · rcases ih with h2 | h2
      · left; rw [h, h2]
      · right; omega
    · right; omega

/-- In the state a layer starts from, a count equal to the budget of the layer is reached by the
tier loop of the index fill. -/
theorem after_layers_scan_pushes (X : Pruning) (leave_point N k n u : Nat) (hn : n ≤ N) :
    scan_pushes (k + 1) ((after_layers X leave_point N k).number_names.getD n default).syllables u ↔
      u < pemdas_count ∧ count (after_layers X leave_point N k).number_names n u = k + 1 := by
  constructor
  · intro h; exact ⟨h.1, h.2.1⟩
  · rintro ⟨hu, hc⟩
    refine ⟨hu, hc, ?_⟩
    intro v _ hv
    have hord := after_layers_tiers_ordered X leave_point N k n v u (by omega) hu
    have hge : k + 1 ≤ count (after_layers X leave_point N k).number_names n v := by omega
    refine ⟨hge, ?_⟩
    by_cases hv0 : v = 0
    · exact Or.inr hv0
    · left
      have hu0 : u ≠ 0 := by omega
      have hv6 : v < pemdas_count := by omega
      have hsu : count (seeded N) n u = count (seeded N) n v := by
        rw [seeded_count N n u hn, seeded_count N n v hn]
        simp only [hu0, hv0, and_false, if_false, hu, hv6, if_true]
      have hle := after_layers_count_le X leave_point N n v 0 k (Nat.zero_le _)
      have hseed : count (after_layers X leave_point N 0).number_names n v = count (seeded N) n v :=
        rfl
      rcases after_layers_seed_or_le X leave_point N k n u with h1 | h1
      · show count (after_layers X leave_point N k).number_names n v = k + 1
        omega
      · omega

/-! ## Invariants of the index -/

theorem sweep_inv_init (s : Nat) (nn0 : List Entry) :
    SweepInv s nn0 ⟨nn0, List.replicate pemdas_count []⟩ := by
  refine ⟨by simp, fun n u => Or.inl rfl, ?_, ?_⟩
  · intro u n hn
    simp [List.getD_eq_getElem?_getD, List.getElem?_replicate] at hn
    split_ifs at hn <;> simp at hn
  · intro n u _ h
    exact absurd rfl h

theorem sweep_inv_commit (s : Nat) (nn0 : List Entry) (w : Sweep) (r out : Nat) (nm eq : String)
    (h : SweepInv s nn0 w) : SweepInv s nn0 (commit r s out nm eq w) := by
  obtain ⟨h1, h2, h3, h4⟩ := h
  refine ⟨by rw [commit_newouts_length]; exact h1, ?_, ?_, ?_⟩
  · intro n u
    rw [commit_count]
    by_cases hc : n = out ∧ r ≤ u ∧ u < pemdas_count ∧ s < count w.number_names n u
    · rw [if_pos hc]
      rcases h2 n u with a | a
      · right; exact ⟨by rw [← a]; exact hc.2.2.2, rfl⟩
      · right; exact ⟨a.1, rfl⟩
    · rw [if_neg hc]; exact h2 n u
  · intro u n hn
    rw [commit_newouts] at hn
    rw [commit_count]
    by_cases hc : r ≤ u ∧ u < pemdas_count ∧ s < count w.number_names out u ∧ u < w.newouts.length
    · rw [if_pos hc] at hn
      rcases List.mem_append.mp hn with a | a
      · have := h3 u n a
        rw [if_neg (fun hh => by omega)]
        exact this
      · have hno : n = out := by simpa using a
        subst hno
        rw [if_pos ⟨rfl, hc.1, hc.2.1, hc.2.2.1⟩]
    · rw [if_neg hc] at hn
      have := h3 u n hn
      rw [if_neg (fun hh => by omega)]
      exact this
  · intro n u hu hne
    rw [commit_newouts]
    by_cases hc : r ≤ u ∧ u < pemdas_count ∧ s < count w.number_names out u ∧ u < w.newouts.length
    · rw [if_pos hc]
      by_cases hw : count w.number_names n u = count nn0 n u
      · rw [commit_count] at hne
        by_cases hc2 : n = out ∧ r ≤ u ∧ u < pemdas_count ∧ s < count w.number_names n u
        · rw [hc2.1]; exact List.mem_append_right _ (List.mem_singleton_self _)
        · rw [if_neg hc2] at hne; exact absurd hw hne
      · exact List.mem_append_left _ (h4 n u hu hw)
    · rw [if_neg hc]
      by_cases hw : count w.number_names n u = count nn0 n u
      · rw [commit_count] at hne
        by_cases hc2 : n = out ∧ r ≤ u ∧ u < pemdas_count ∧ s < count w.number_names n u
        · exfalso
          apply hc
          refine ⟨hc2.2.1, hc2.2.2.1, ?_, by rw [h1]; exact hu⟩
          rw [← hc2.1]; exact hc2.2.2.2
        · rw [if_neg hc2] at hne; exact absurd hw hne
      · exact h4 n u hu hw

theorem left_loop_sweep_inv (X : Pruning) (mm N s : Nat) (op : BinaryOp) (ext : Extremes)
    (rl ll : List Nat) (nn0 : List Entry) :
    SweepInv s nn0 (left_loop X mm N s op ext rl ll ⟨nn0, List.replicate pemdas_count []⟩) :=
  left_loop_invariant (SweepInv s nn0) X mm N s op
    (fun w out nm eq hw _ => sweep_inv_commit s nn0 w _ out nm eq hw) ext rl ll _
    (sweep_inv_init s nn0)

theorem unary_loop_sweep_inv (N s : Nat) (op : UnaryOp) (ext : Extremes)
    (il : List Nat) (nn0 : List Entry) :
    SweepInv s nn0 (unary_loop N s op ext il ⟨nn0, List.replicate pemdas_count []⟩) :=
  unary_loop_invariant (SweepInv s nn0) N s op
    (fun w out nm eq hw _ => sweep_inv_commit s nn0 w _ out nm eq hw) ext il _
    (sweep_inv_init s nn0)

/-- A property of the state that the index fill establishes and every operator phase keeps holds
when the operator phases of the layer are over. -/
theorem layer_ops_state (I : State → Prop) (X : Pruning) (N s : Nat)
    (hsplit : ∀ st op ext ls, op ∈ binary → I st → I (binary_split X N s op ext st ls))
    (hun : ∀ st op, op ∈ unary → I st → I (unary_op X N s st op))
    (st : State) (h : I (fill_index N s st)) : I (layer_ops X N s st) := by
  unfold layer_ops
  refine foldl_invariant I _ _ ?_ _ ?_
  · intro st1 op hop h1
    exact hun st1 op hop h1
  · refine foldl_invariant I _ _ ?_ _ h
    intro st1 op hop h1
    unfold binary_op
    refine foldl_invariant I _ _ ?_ _ h1
    intro st2 ls _ h2
    exact hsplit st2 op _ ls hop h2

/-- Merging the new outputs of a sweep keeps the index sound and complete. -/
theorem merge_keeps_index (s lo N : Nat) (st : State) (w : Sweep)
    (hw : SweepInv s st.number_names w)
    (h : IndexSound s st ∧ IndexComplete s lo N st) :
    IndexSound s (merged s st w) ∧ IndexComplete s lo N (merged s st w) := by
  obtain ⟨⟨k1, k2, k3, k4⟩, hcmp⟩ := h
  obtain ⟨w1, w2, w3, w4⟩ := hw
  have hrow := k2 s (le_refl _)
  have hb : ∀ j u, bucket (merge_key s st.syllable_key w.newouts) j u =
      if j = s ∧ u < pemdas_count then
        sort_unique (bucket st.syllable_key s u ++ w.newouts.getD u [])
      else bucket st.syllable_key j u := by
    intro j u
    rw [merge_key_bucket]
    by_cases hc : j = s ∧ u < pemdas_count
    · rw [if_pos hc, if_pos ⟨hc.1, hc.2, by omega, by rw [hrow]; exact hc.2⟩]
    · rw [if_neg hc, if_neg (fun hh => hc ⟨hh.1, hh.2.1⟩)]
  refine ⟨⟨?_, ?_, ?_, ?_⟩, ?_⟩
  · show (merge_key s st.syllable_key w.newouts).length = s + 1
    rw [merge_key_length]; exact k1
  · intro j hj
    show ((merge_key s st.syllable_key w.newouts).getD j []).length = pemdas_count
    rw [merge_key_row_length]; exact k2 j hj
  · intro j u
    show (bucket (merge_key s st.syllable_key w.newouts) j u).Sorted (· < ·)
    rw [hb]
    split_ifs
    · exact sort_unique_sorted _
    · exact k3 j u
  · intro j u n hn
    show count w.number_names n u = j ∧ j ≤ s
    have hn2 : n ∈ bucket (merge_key s st.syllable_key w.newouts) j u := hn
    rw [hb] at hn2
    by_cases hc : j = s ∧ u < pemdas_count
    · rw [if_pos hc, mem_sort_unique] at hn2
      rcases List.mem_append.mp hn2 with a | a
      · have := k4 s u n a
        rcases w2 n u with b | b
        · exact ⟨by rw [b, hc.1]; exact this.1, by omega⟩
        · omega
      · exact ⟨by rw [hc.1]; exact w3 u n a, by omega⟩
    · rw [if_neg hc] at hn2
      have := k4 j u n hn2
      rcases w2 n u with b | b
      · exact ⟨by rw [b]; exact this.1, this.2⟩
      · omega
  · intro n u hlo hN hu hc
    show n ∈ bucket (merge_key s st.syllable_key w.newouts) s u
    have hc2 : count w.number_names n u = s := hc
    rw [hb, if_pos ⟨rfl, hu⟩, mem_sort_unique]
    by_cases he : count w.number_names n u = count st.number_names n u
    · exact List.mem_append_left _ (hcmp n u hlo hN hu (by rw [← he]; exact hc2))
    · exact List.mem_append_right _ (w4 n u hu he)

theorem set_append_length {α : Type} (l : List α) (d r : α) :
    (l ++ [d]).set l.length r = l ++ [r] := by
  induction l with
  | nil => rfl
  | cons a t ih => simp [ih]

theorem resize_set (l : List (List (List Nat))) (s : Nat) (h : l.length = s) (r : List (List Nat)) :
    (resize l (s + 1) []).set s r = l ++ [r] := by
  unfold resize
  subst h
  rw [List.take_of_length_le (Nat.le_succ _)]
  have : l.length + 1 - l.length = 1 := by omega
  rw [this]
  exact set_append_length l [] r

theorem getD_append_right_nil {α : Type} (l : List α) (a d : α) (j : Nat) :
    (l ++ [a]).getD j d = if j < l.length then l.getD j d else if j = l.length then a else d := by
  by_cases h1 : j < l.length
  · rw [if_pos h1, getD_append_left _ _ _ _ h1]
  · rw [if_neg h1]
    by_cases h2 : j = l.length
    · rw [if_pos h2, h2]; exact getD_append_singleton l a d
    · rw [if_neg h2]
      apply getD_of_length_le
      simp; omega

theorem replicate_nil_getD (u : Nat) :
    (List.replicate pemdas_count ([] : List Nat)).getD u [] = [] := by
  simp [List.getD_eq_getElem?_getD, List.getElem?_replicate]
  split_ifs <;> rfl

theorem fill_index_key (N s : Nat) (st : State) (h : st.syllable_key.length = s) :
    (fill_index N s st).syllable_key =
      merge_key s (st.syllable_key ++ [List.replicate pemdas_count []])
        (fill_scan s st.min_missing N st.number_names) := by
  unfold fill_index
  simp only []
  rw [resize_set _ _ h]

theorem fill_index_store (N s : Nat) (st : State) :
    (fill_index N s st).number_names = st.number_names := rfl

theorem fill_index_min_missing (N s : Nat) (st : State) :
    (fill_index N s st).min_missing = st.min_missing := rfl

open Classical in
theorem fill_index_bucket (N s : Nat) (st : State) (h : st.syllable_key.length = s) (j u : Nat) :
    bucket (fill_index N s st).syllable_key j u =
      if j = s ∧ u < pemdas_count then
        (List.range' st.min_missing (N + 1 - st.min_missing)).filter
          (fun n => decide (scan_pushes s (st.number_names.getD n default).syllables u))
      else bucket st.syllable_key j u := by
  rw [fill_index_key N s st h, merge_key_bucket]
  have hrow : ((st.syllable_key ++ [List.replicate pemdas_count []]).getD s []).length =
      pemdas_count := by
    rw [getD_append_right_nil, if_neg (by omega), if_pos h.symm]; simp
  have hlen : (st.syllable_key ++ [List.replicate pemdas_count ([] : List Nat)]).length = s + 1 := by
    simp [h]
  have hold : ∀ j u, bucket (st.syllable_key ++ [List.replicate pemdas_count []]) j u =
      bucket st.syllable_key j u := by
    intro j u
    unfold bucket
    rw [getD_append_right_nil]
    by_cases h1 : j < st.syllable_key.length
    · rw [if_pos h1]
    · rw [if_neg h1, getD_of_length_le _ _ _ (not_lt.mp h1)]
      split_ifs
      · rw [replicate_nil_getD]; rfl
      · rfl
  by_cases hc : j = s ∧ u < pemdas_count
  · rw [if_pos hc, if_pos ⟨hc.1, hc.2, by omega, by rw [hrow]; exact hc.2⟩, hold]
    have hempty : bucket st.syllable_key s u = [] := by
      unfold bucket
      rw [getD_of_length_le st.syllable_key s [] (by omega)]
      simp
    rw [hempty, List.nil_append, fill_scan_get]
    apply sort_unique_of_sorted
    exact List.Pairwise.filter _ (List.pairwise_lt_range' _ _)
  · rw [if_neg hc, if_neg (fun hh => hc ⟨hh.1, hh.2.1⟩), hold]

theorem mem_fill_bucket (N s : Nat) (st : State) (h : st.syllable_key.length = s) (u n : Nat)
    (hu : u < pemdas_count) :
    n ∈ bucket (fill_index N s st).syllable_key s u ↔
      st.min_missing ≤ n ∧ n ≤ N ∧ scan_pushes s (st.number_names.getD n default).syllables u := by
  rw [fill_index_bucket N s st h, if_pos ⟨rfl, hu⟩, List.mem_filter, List.mem_range'_1]
  simp only [decide_eq_true_eq]
  constructor
  · rintro ⟨⟨a, b⟩, c⟩; exact ⟨a, by omega, c⟩
  · rintro ⟨a, b, c⟩; exact ⟨⟨a, by omega⟩, c⟩

theorem fill_index_sound (N k : Nat) (st : State) (h : IndexSound k st) :
    IndexSound (k + 1) (fill_index N (k + 1) st) := by
  obtain ⟨k1, k2, k3, k4⟩ := h
  refine ⟨?_, ?_, ?_, ?_⟩
  · rw [fill_index_key N (k + 1) st k1, merge_key_length]
    simp [k1]
  · intro j hj
    rw [fill_index_key N (k + 1) st k1, merge_key_row_length, getD_append_right_nil]
    by_cases h1 : j < st.syllable_key.length
    · rw [if_pos h1]; exact k2 j (by omega)
    · rw [if_neg h1, if_pos (by omega)]; simp
  · intro j u
    rw [fill_index_bucket N (k + 1) st k1]
    split_ifs
    · exact List.Pairwise.filter _ (List.pairwise_lt_range' _ _)
    · exact k3 j u
  · intro j u n hn
    rw [fill_index_bucket N (k + 1) st k1] at hn
    by_cases hc : j = k + 1 ∧ u < pemdas_count
    · rw [if_pos hc] at hn
      have := (List.mem_filter.mp hn).2
      simp only [decide_eq_true_eq] at this
      exact ⟨by rw [hc.1]; exact this.2.1, by omega⟩
    · rw [if_neg hc] at hn
      have := k4 j u n hn
      exact ⟨this.1, by omega⟩

theorem binary_split_eq (X : Pruning) (N s : Nat) (op : BinaryOp) (ext : Extremes) (st : State)
    (ls : Nat) :
    binary_split X N s op ext st ls = st ∨
      binary_split X N s op ext st ls =
        merged s st (left_loop X st.min_missing N s op ext
          ((st.syllable_key.getD (s - op.syllables - ls) []).getD op.pemdas_right [])
          ((st.syllable_key.getD ls []).getD op.pemdas_left [])
          ⟨st.number_names, List.replicate pemdas_count []⟩) := by
  unfold binary_split
  simp only []
  split_ifs
  · exact Or.inl rfl
  · exact Or.inl rfl
  · exact Or.inr rfl

theorem unary_op_eq (X : Pruning) (N s : Nat) (op : UnaryOp) (st : State) :
    unary_op X N s st op = st ∨
      unary_op X N s st op =
        merged s st (unary_loop N s op (X.first op.id st.min_missing N)
          ((st.syllable_key.getD (s - op.syllables) []).getD op.pemdas_input [])
          ⟨st.number_names, List.replicate pemdas_count []⟩) := by
  unfold unary_op
  simp only []
  split_ifs
  · exact Or.inl rfl
  · exact Or.inl rfl
  · exact Or.inr rfl

theorem layer_ops_index (X : Pruning) (N s lo : Nat) (st : State)
    (h : IndexSound s (fill_index N s st) ∧ IndexComplete s lo N (fill_index N s st)) :
    IndexSound s (layer_ops X N s st) ∧ IndexComplete s lo N (layer_ops X N s st) := by
  refine layer_ops_state (fun st => IndexSound s st ∧ IndexComplete s lo N st) X N s ?_ ?_ st h
  · intro st1 op ext ls _ h1
    rcases binary_split_eq X N s op ext st1 ls with e | e
    · rw [e]; exact h1
    · rw [e]; exact merge_keeps_index s lo N st1 _ (left_loop_sweep_inv _ _ _ _ _ _ _ _ _) h1
  · intro st1 op _ h1
    rcases unary_op_eq X N s op st1 with e | e
    · rw [e]; exact h1
    · rw [e]; exact merge_keeps_index s lo N st1 _ (unary_loop_sweep_inv _ _ _ _ _ _) h1

theorem initial_index_sound (N : Nat) : IndexSound 0 (initial_state N) := by
  have hb : ∀ j u, bucket [List.replicate pemdas_count ([] : List Nat)] j u = [] := by
    intro j u
    unfold bucket
    cases j with
    | zero => exact replicate_nil_getD u
    | succ j => simp
  refine ⟨rfl, ?_, ?_, ?_⟩
  · intro j hj
    have : j = 0 := by omega
    subst this
    simp [initial_state]
  · intro j u
    show (bucket [List.replicate pemdas_count ([] : List Nat)] j u).Sorted (· < ·)
    rw [hb]; exact List.sorted_nil
  · intro j u n hn
    have hn2 : n ∈ bucket [List.replicate pemdas_count ([] : List Nat)] j u := hn
    rw [hb] at hn2
    exact absurd hn2 (List.not_mem_nil _)

theorem after_layers_index_sound (X : Pruning) (leave_point N k : Nat) :
    IndexSound k (after_layers X leave_point N k) := by
  induction k with
  | zero => exact initial_index_sound N
  | succ k ih =>
    have h1 := fill_index_sound N k _ ih
    have h2 : IndexComplete (k + 1) (N + 1) N
        (fill_index N (k + 1) (after_layers X leave_point N k)) := by
      intro n u hlo hN; omega
    exact (layer_ops_index X N (k + 1) (N + 1) _ ⟨h1, h2⟩).1

theorem after_layers_index_complete (X : Pruning) (leave_point N k : Nat) :
    IndexComplete (k + 1) (after_layers X leave_point N k).min_missing N
      (after_layers X leave_point N (k + 1)) := by
  have hs := after_layers_index_sound X leave_point N k
  have h1 := fill_index_sound N k _ hs
  have h2 : IndexComplete (k + 1) (after_layers X leave_point N k).min_missing N
      (fill_index N (k + 1) (after_layers X leave_point N k)) := by
    intro n u hlo hN hu hc
    rw [mem_fill_bucket N (k + 1) _ hs.1 u n hu]
    exact ⟨hlo, hN, (after_layers_scan_pushes X leave_point N k n u hN).mpr ⟨hu, hc⟩⟩
  exact (layer_ops_index X N (k + 1) _ _ ⟨h1, h2⟩).2

/-! ## The index over the run -/

theorem merged_bucket_ne (s : Nat) (st : State) (w : Sweep) (j u : Nat) (h : j ≠ s) :
    bucket (merged s st w).syllable_key j u = bucket st.syllable_key j u := by
  show bucket (merge_key s st.syllable_key w.newouts) j u = _
  rw [merge_key_bucket, if_neg (fun hh => h hh.1)]

theorem layer_bucket_stable (X : Pruning) (leave_point N k : Nat) (j u : Nat) (hj : j ≤ k) :
    bucket (after_layers X leave_point N (k + 1)).syllable_key j u =
      bucket (after_layers X leave_point N k).syllable_key j u := by
  have hs := after_layers_index_sound X leave_point N k
  have h0 : bucket (fill_index N (k + 1) (after_layers X leave_point N k)).syllable_key j u =
      bucket (after_layers X leave_point N k).syllable_key j u := by
    rw [fill_index_bucket N (k + 1) _ hs.1, if_neg (fun hh => by omega)]
  refine layer_ops_state
    (fun st => bucket st.syllable_key j u =
      bucket (after_layers X leave_point N k).syllable_key j u) X N (k + 1) ?_ ?_ _ h0
  · intro st1 op ext ls _ h1
    rcases binary_split_eq X N (k + 1) op ext st1 ls with e | e
    · rw [e]; exact h1
    · rw [e, merged_bucket_ne _ _ _ _ _ (by omega)]; exact h1
  · intro st1 op _ h1
    rcases unary_op_eq X N (k + 1) op st1 with e | e
    · rw [e]; exact h1
    · rw [e, merged_bucket_ne _ _ _ _ _ (by omega)]; exact h1

theorem after_layers_bucket_stable (X : Pruning) (leave_point N s t : Nat) (j u : Nat)
    (hj : j ≤ s) (hst : s ≤ t) :
    bucket (after_layers X leave_point N t).syllable_key j u =
      bucket (after_layers X leave_point N s).syllable_key j u := by
  induction t with
  | zero =>
    have : s = 0 := by omega
    subst this; rfl
  | succ t ih =>
    by_cases h : s = t + 1
    · subst h; rfl
    · rw [layer_bucket_stable X leave_point N t j u (by omega)]
      exact ih (by omega)

theorem after_layers_count_later (X : Pruning) (leave_point N n u s t : Nat) (hst : s ≤ t) :
    count (after_layers X leave_point N t).number_names n u =
        count (after_layers X leave_point N s).number_names n u ∨
      s < count (after_layers X leave_point N t).number_names n u := by
  induction t with
  | zero =>
    have : s = 0 := by omega
    subst this; exact Or.inl rfl
  | succ t ih =>
    by_cases h : s = t + 1
    · subst h; exact Or.inl rfl
    · rcases after_layers_count_step X leave_point N t n u with a | a
      · rcases ih (by omega) with b | b
        · left; rw [a, b]
        · right; omega
      · right; omega

/-- C11: after any number `k` of layers the index is sound: it has the rows `0..k`, every bucket
is strictly ascending (sorted and duplicate-free) and every integer in the bucket of `(j, u)` has
count exactly `j` at tier `u`.  Soundness is established by the index fill of a layer and kept by
every operator phase (each split of a binary operator, each unary operator), so it holds at every
phase boundary; and a bucket, once its layer is over, is never changed again, while its members
keep their count. -/
theorem index_is_sound (X : Pruning) (leave_point N : Nat) :
    (∀ k, IndexSound k (after_layers X leave_point N k)) ∧
    (∀ k st, IndexSound k st → IndexSound (k + 1) (fill_index N (k + 1) st)) ∧
    (∀ s st op ext ls, IndexSound s st → IndexSound s (binary_split X N s op ext st ls)) ∧
    (∀ s st op, IndexSound s st → IndexSound s (unary_op X N s st op)) ∧
    (∀ s t j u, j ≤ s → s ≤ t →
      bucket (after_layers X leave_point N t).syllable_key j u =
        bucket (after_layers X leave_point N s).syllable_key j u) ∧
    (∀ s t u n, s ≤ t → n ∈ bucket (after_layers X leave_point N s).syllable_key s u →
      count (after_layers X leave_point N t).number_names n u = s) := by
  refine ⟨after_layers_index_sound X leave_point N, fun k st h => fill_index_sound N k st h,
    ?_, ?_, ?_, ?_⟩
  · intro s st op ext ls h
    have hc : IndexComplete s (N + 1) N st := by intro n u hlo hN; omega
    rcases binary_split_eq X N s op ext st ls with e | e
    · rw [e]; exact h
    · rw [e]
      exact (merge_keeps_index s (N + 1) N st _ (left_loop_sweep_inv _ _ _ _ _ _ _ _ _) ⟨h, hc⟩).1
  · intro s st op h
    have hc : IndexComplete s (N + 1) N st := by intro n u hlo hN; omega
    rcases unary_op_eq X N s op st with e | e
    · rw [e]; exact h
    · rw [e]
      exact (merge_keeps_index s (N + 1) N st _ (unary_loop_sweep_inv _ _ _ _ _ _) ⟨h, hc⟩).1
  · intro s t j u hj hst
    exact after_layers_bucket_stable X leave_point N s t j u hj hst
  · intro s t u n hst hn
    rw [← after_layers_bucket_stable X leave_point N s t s u (le_refl _) hst] at hn
    exact ((after_layers_index_sound X leave_point N t).2.2.2 s u n hn).1

/-- Instance of C11: in the run for `N = 27`, 27 is in the bucket of budget 2 and tier 5 after
layer 2, and its tier-5 count after layer 3 is 2. -/
theorem index_is_sound_witness :
    2 ≤ 3 ∧ 27 ∈ bucket (after_layers exact_pruning 27 27 2).syllable_key 2 5 ∧
      count (after_layers exact_pruning 27 27 3).number_names 27 5 = 2 :=
  ⟨by decide, by decide!,
    (index_is_sound exact_pruning 27 27).2.2.2.2.2 2 3 5 27 (by decide) (by decide!)⟩

/-- C12, as stated, fails: the run for `N = 7` executes 2 layers; once layer 2 has completed,
the integer 0 has the count 2 at every tier and is in no bucket of budget 2 (the bucket of
budget 2 and tier 5 holds 7 alone): the fill of a layer starts at the pointer, which is at
least 1, and is 7 when layer 2 starts. -/
theorem index_misses_settled_integer :
    (number_names_generator exact_pruning 7 7).2 = 2 ∧
    (∀ u, u < pemdas_count →
      count (after_layers exact_pruning 7 7 2).number_names 0 u = 2 ∧
        0 ∉ bucket (after_layers exact_pruning 7 7 2).syllable_key 2 u) ∧
    (after_layers exact_pruning 7 7 1).min_missing = 7 ∧
    bucket (after_layers exact_pruning 7 7 2).syllable_key 2 5 = [7] := by
  decide!

/-! ## Completeness of the index and exactness of its fill -/

/-- C12, amended: once layer `s = k + 1` has completed, and after every later layer `t`, an
integer `n` between the value the pointer had when layer `s` started and `N` is in the bucket of
`(s, u)` exactly when its count at tier `u` is `s`.  (Integers below that pointer value, and 0,
are not scanned by the fill of layer `s`.) -/
theorem index_is_complete_from_pointer (X : Pruning) (leave_point N k t n u : Nat)
    (ht : k + 1 ≤ t) (hlo : (after_layers X leave_point N k).min_missing ≤ n) (hn : n ≤ N)
    (hu : u < pemdas_count) :
    (n ∈ bucket (after_layers X leave_point N t).syllable_key (k + 1) u ↔
      count (after_layers X leave_point N t).number_names n u = k + 1) ∧
    1 ≤ (after_layers X leave_point N k).min_missing := by
  refine ⟨⟨?_, ?_⟩, after_layers_min_missing_pos X leave_point N k⟩
  · intro h
    exact ((after_layers_index_sound X leave_point N t).2.2.2 (k + 1) u n h).1
  · intro h
    rw [after_layers_bucket_stable X leave_point N (k + 1) t (k + 1) u (le_refl _) ht]
    apply after_layers_index_complete X leave_point N k n u hlo hn hu
    rcases after_layers_count_later X leave_point N n u (k + 1) t ht with a | a
    · rw [← a]; exact h
    · omega

/-- Instance of C12, amended: in the run for `N = 7`, 7 is at the pointer when layer 2 starts
and is in the bucket of budget 2 and tier 1 after layer 2. -/
theorem index_is_complete_from_pointer_witness :
    1 + 1 ≤ 2 ∧ (after_layers exact_pruning 7 7 1).min_missing ≤ 7 ∧ 7 ≤ 7 ∧
      1 < pemdas_count ∧ count (after_layers exact_pruning 7 7 2).number_names 7 1 = 1 + 1 ∧
      7 ∈ bucket (after_layers exact_pruning 7 7 2).syllable_key (1 + 1) 1 :=
  ⟨by decide, by decide!, by decide, by decide, by decide!,
    ((index_is_complete_from_pointer exact_pruning 7 7 1 2 7 1 (by decide) (by decide!)
      (by decide) (by decide)).1).2 (by decide!)⟩

/-- C20: in the state that `k` layers leave, the scan that builds the index of layer `k + 1`
yields for every tier `u` exactly the integers of `[min_missing, N]`, in ascending order, whose
count at tier `u` is `k + 1`: a strictly ascending list, and the bucket of `(k + 1, u)` when the
fill is done.  The early exits of the tier loop drop none of them. -/
theorem index_fill_is_exact (X : Pruning) (leave_point N k u : Nat) (hu : u < pemdas_count) :
    (fill_scan (k + 1) (after_layers X leave_point N k).min_missing N
        (after_layers X leave_point N k).number_names).getD u [] =
      (List.range' (after_layers X leave_point N k).min_missing
        (N + 1 - (after_layers X leave_point N k).min_missing)).filter
        (fun n => decide (count (after_layers X leave_point N k).number_names n u = k + 1)) ∧
    ((List.range' (after_layers X leave_point N k).min_missing
        (N + 1 - (after_layers X leave_point N k).min_missing)).filter
        (fun n => decide (count (after_layers X leave_point N k).number_names n u = k + 1))).Sorted
      (· < ·) ∧
    bucket (fill_index N (k + 1) (after_layers X leave_point N k)).syllable_key (k + 1) u =
      (List.range' (after_layers X leave_point N k).min_missing
        (N + 1 - (after_layers X leave_point N k).min_missing)).filter
        (fun n => decide (count (after_layers X leave_point N k).number_names n u = k + 1)) ∧
    (∀ n, n ∈ (fill_scan (k + 1) (after_layers X leave_point N k).min_missing N
        (after_layers X leave_point N k).number_names).getD u [] ↔
      (after_layers X leave_point N k).min_missing ≤ n ∧ n ≤ N ∧
        count (after_layers X leave_point N k).number_names n u = k + 1) := by
  have hcongr : (List.range' (after_layers X leave_point N k).min_missing
        (N + 1 - (after_layers X leave_point N k).min_missing)).filter
        (fun n => @decide (scan_pushes (k + 1)
          ((after_layers X leave_point N k).number_names.getD n default).syllables u)
          (Classical.propDecidable _)) =
      (List.range' (after_layers X leave_point N k).min_missing
        (N + 1 - (after_layers X leave_point N k).min_missing)).filter
        (fun n => decide (count (after_layers X leave_point N k).number_names n u = k + 1)) := by
    apply List.filter_congr
    intro n hn
    have hnN : n ≤ N := by
      have := List.mem_range'_1.mp hn
      omega
    have h := after_layers_scan_pushes X leave_point N k n u hnN
    by_cases hc : count (after_layers X leave_point N k).number_names n u = k + 1
    · have := h.mpr ⟨hu, hc⟩
      simp [-List.getD_eq_getElem?_getD, hc, this]
    · have : ¬ scan_pushes (k + 1)
          ((after_layers X leave_point N k).number_names.getD n default).syllables u :=
        fun hh => hc (h.mp hh).2
      simp [-List.getD_eq_getElem?_getD, hc, this]
  have h1 := fill_scan_get (k + 1) (after_layers X leave_point N k).min_missing N
    (after_layers X leave_point N k).number_names u
  have h2 := fill_index_bucket N (k + 1) (after_layers X leave_point N k)
    (after_layers_index_sound X leave_point N k).1 (k + 1) u
  rw [if_pos ⟨rfl, hu⟩] at h2
  refine ⟨h1.trans hcongr, List.Pairwise.filter _ (List.pairwise_lt_range' _ _),
    h2.trans hcongr, ?_⟩
  intro n
  rw [h1.trans hcongr, List.mem_filter, List.mem_range'_1]
  simp only [decide_eq_true_eq]
  constructor
  · rintro ⟨⟨a, b⟩, c⟩; exact ⟨a, by omega, c⟩
  · rintro ⟨a, b, c⟩; exact ⟨⟨a, by omega⟩, c⟩

/-- Instance of C20: the fill of layer 3 in the run for `N = 27` at tier 5. -/
theorem index_fill_is_exact_witness :
    5 < pemdas_count ∧
      (fill_scan (2 + 1) (after_layers exact_pruning 27 27 2).min_missing 27
        (after_layers exact_pruning 27 27 2).number_names).getD 5 [] =
      (List.range' (after_layers exact_pruning 27 27 2).min_missing
        (27 + 1 - (after_layers exact_pruning 27 27 2).min_missing)).filter
        (fun n => decide (count (after_layers exact_pruning 27 27 2).number_names n 5 = 2 + 1)) :=
  ⟨by decide, (index_fill_is_exact exact_pruning 27 27 2 5 (by decide)).1⟩

/-! ## Mutual exclusion of the commit blocks -/

theorem lock_for_lt (out : Nat) : lock_for out < LOCK_STRIPES :=
  Nat.mod_lt _ (by decide)

theorem current_cases (w : Worker) (c : Candidate) :
    w.current = some c ↔ ∃ u rest, w.at_tier = some u ∧ w.todo = c :: rest := by
  unfold Worker.current
  cases h1 : w.at_tier with
  | none => simp
  | some u =>
    cases h2 : w.todo with
    | nil => simp
    | cons a rest => simp

theorem current_default : (default : Worker).current = none := rfl

theorem writing_lt (m : Machine) (t : Nat) (c : Candidate) (h : writing m t = some c) :
    t < m.workers.length := by
  by_contra hh
  unfold writing at h
  rw [getD_of_length_le m.workers t default (by omega), current_default] at h
  cases h

theorem writing_set (nn : List Entry) (ss : List (Option Nat)) (ws : List Worker) (t : Nat)
    (w : Worker) (i : Nat) :
    writing ⟨nn, ss, ws.set t w⟩ i =
      if t = i ∧ t < ws.length then w.current else writing ⟨nn, ss, ws⟩ i := by
  unfold writing
  simp only []
  rw [getD_set_eq]
  split_ifs <;> rfl

theorem start_locks_held (nn : List Entry) (jobs : List (List Candidate)) :
    LocksHeld (start nn jobs) := by
  refine ⟨by simp [start], ?_⟩
  intro t c h
  exfalso
  unfold writing at h
  by_cases ht : t < jobs.length
  · simp [start, List.getD_eq_getElem?_getD, ht, Worker.current] at h
  · have : (start nn jobs).workers.length ≤ t := by simp [start]; omega
    rw [getD_of_length_le _ t default this, current_default] at h
    cases h

theorem step_locks_held (m : Machine) (t : Nat) (h : LocksHeld m) : LocksHeld (step m t) := by
  obtain ⟨nn, ss, ws⟩ := m
  obtain ⟨hlen, hheld⟩ := h
  simp only [] at hlen
  unfold step
  simp only []
  cases h1 : (ws.getD t default).todo with
  | nil => exact ⟨hlen, hheld⟩
  | cons c rest =>
    cases h2 : (ws.getD t default).at_tier with
    | none =>
      simp only []
      split_ifs with hfree
      · refine ⟨by simp [hlen], ?_⟩
        intro i d hd
        rw [writing_set] at hd
        simp only []
        split_ifs at hd with hi
        · obtain ⟨u, r, _, e2⟩ := (current_cases _ d).mp hd
          simp only [h1] at e2
          obtain ⟨rfl, -⟩ := List.cons.inj e2
          rw [getD_set_self _ _ _ _ (by rw [hlen]; exact lock_for_lt _), hi.1]
        · have := hheld i d hd
          simp only [] at this
          rw [getD_set_ne]
          · exact this
          · intro e
            rw [← e, hfree] at this
            cases this
      · exact ⟨hlen, hheld⟩
    | some u =>
      simp only []
      have hw : writing ⟨nn, ss, ws⟩ t = some c := by
        unfold writing
        exact (current_cases _ c).mpr ⟨u, rest, h2, h1⟩
      split_ifs with hu
      · refine ⟨hlen, ?_⟩
        intro i d hd
        rw [writing_set] at hd
        simp only []
        split_ifs at hd with hi
        · obtain ⟨u2, r, _, e2⟩ := (current_cases _ d).mp hd
          simp only [h1] at e2
          obtain ⟨rfl, -⟩ := List.cons.inj e2
          rw [← hi.1]
          exact hheld t c hw
        · exact hheld i d hd
      · refine ⟨by simp [hlen], ?_⟩
        intro i d hd
        rw [writing_set] at hd
        simp only []
        split_ifs at hd with hi
        · obtain ⟨u2, r, e1, _⟩ := (current_cases _ d).mp hd
          cases e1
        · have a := hheld i d hd
          have b := hheld t c hw
          simp only [] at a b
          rw [getD_set_ne]
          · exact a
          · intro e
            rw [e, a] at b
            have hit : i = t := Option.some.inj b
            have hlt := writing_lt _ i d hd
            simp only [] at hlt
            exact hi ⟨hit.symm, by rw [← hit]; exact hlt⟩

theorem run_locks_held (m : Machine) (schedule : List Nat) (h : LocksHeld m) :
    LocksHeld (run m schedule) :=
  foldl_invariant LocksHeld step schedule (fun a i _ ha => step_locks_held a i ha) m h

theorem step_other_entry (m : Machine) (t1 t2 : Nat) (c1 : Candidate) (h : LocksHeld m)
    (h1 : writing m t1 = some c1) (ht : t2 ≠ t1) :
    (step m t2).number_names.getD c1.out default = m.number_names.getD c1.out default := by
  unfold step
  simp only []
  cases e1 : (m.workers.getD t2 default).todo with
  | nil => rfl
  | cons c rest =>
    cases e2 : (m.workers.getD t2 default).at_tier with
    | none =>
      simp only []
      split_ifs <;> rfl
    | some u =>
      simp only []
      split_ifs with hu
      · simp only []
        rw [commit_tier_store, getD_set_ne]
        intro e
        have h2 : writing m t2 = some c := by
          unfold writing
          exact (current_cases _ c).mpr ⟨u, rest, e2, e1⟩
        have a := h.2 t1 c1 h1
        have b := h.2 t2 c h2
        rw [← e, b] at a
        exact ht (Option.some.inj a)
      · rfl

/-- C19: in the machine that runs the commit blocks of several workers under any schedule,
a worker inside the block of a candidate holds the mutex `stripes[out % 8192]` of its output
value; two different workers inside their blocks at the same moment hold different mutexes
and hence write different output values; and while a worker is inside the block of output
value `out`, no step of any other worker changes the entry of `out`. -/
theorem commit_blocks_exclude_each_other (number_names : List Entry)
    (jobs : List (List Candidate)) (schedule : List Nat) (t1 : Nat) (c1 : Candidate)
    (h1 : writing (run (start number_names jobs) schedule) t1 = some c1) :
    lock_for c1.out = c1.out % 8192 ∧
    (run (start number_names jobs) schedule).stripes.getD (lock_for c1.out) none = some t1 ∧
    (∀ t2 c2, t2 ≠ t1 → writing (run (start number_names jobs) schedule) t2 = some c2 →
      lock_for c2.out ≠ lock_for c1.out ∧ c2.out ≠ c1.out) ∧
    (∀ t2, t2 ≠ t1 →
      (step (run (start number_names jobs) schedule) t2).number_names.getD c1.out default =
        (run (start number_names jobs) schedule).number_names.getD c1.out default) := by
  have hinv := run_locks_held _ schedule (start_locks_held number_names jobs)
  refine ⟨rfl, hinv.2 t1 c1 h1, ?_, fun t2 ht => step_other_entry _ t1 t2 c1 hinv h1 ht⟩
  intro t2 c2 ht h2
  have a := hinv.2 t1 c1 h1
  have b := hinv.2 t2 c2 h2
  have hl : lock_for c2.out ≠ lock_for c1.out := by
    intro e
    rw [e, a] at b
    exact ht (Option.some.inj b).symm
  exact ⟨hl, fun e => hl (by rw [e])⟩

/-- Instance of C19: two workers commit "two squared" to 4 and "three squared" to 9 over the
seeded store of `N = 9`; after the schedule 0, 1, 0 worker 0 is inside the block of 4. -/
theorem commit_blocks_exclude_each_other_witness :
    writing (run (start (seeded 9) [[⟨2, 2, 4, "two squared", "2 ²"⟩],
      [⟨2, 2, 9, "three squared", "3 ²"⟩]]) [0, 1, 0]) 0 =
      some ⟨2, 2, 4, "two squared", "2 ²"⟩ ∧
    (run (start (seeded 9) [[⟨2, 2, 4, "two squared", "2 ²"⟩],
      [⟨2, 2, 9, "three squared", "3 ²"⟩]]) [0, 1, 0]).stripes.getD (lock_for 4) none = some 0 ∧
    writing (run (start (seeded 9) [[⟨2, 2, 4, "two squared", "2 ²"⟩],
      [⟨2, 2, 9, "three squared", "3 ²"⟩]]) [0, 1, 0]) 1 =
      some ⟨2, 2, 9, "three squared", "3 ²"⟩ :=
  ⟨by decide!, (commit_blocks_exclude_each_other (seeded 9) [[⟨2, 2, 4, "two squared", "2 ²"⟩],
      [⟨2, 2, 9, "three squared", "3 ²"⟩]] [0, 1, 0] 0 ⟨2, 2, 4, "two squared", "2 ²"⟩
      (by decide!)).2.1, by decide!⟩

/-! ## Tier order and operator costs -/

/-- C21: in every store reachable in a run for `N` (the seeded store, then any sequence of
commits), the counts of every entry do not increase from a tier to the next one; right after
seeding the count at tier 1 is at most the count at tier 0; the states between the layers of
the engine are such reachable stores. -/
theorem tiers_are_ordered (N : Nat) (nn : List Entry) (h : Reachable N nn) :
    (∀ n u, u + 1 < pemdas_count → count nn n (u + 1) ≤ count nn n u) ∧
    (∀ n, count (seeded N) n 1 ≤ count (seeded N) n 0) ∧
    (∀ (X : Pruning) (leave_point k : Nat),
      Reachable N (after_layers X leave_point N k).number_names) := by
  refine ⟨?_, fun n => seeded_tiers_ordered N n 0 1 (by decide) (by decide),
    fun X leave_point k => after_layers_reachable X leave_point N k⟩
  have hord : TiersOrdered nn := by
    induction h with
    | seed => exact seeded_tiers_ordered N
    | commit w r s out nm eq _ _ _ _ ih => exact commit_tiers_ordered r s out nm eq w ih
  intro n u hu
  exact hord n u (u + 1) (Nat.le_succ u) hu

/-- Instance of C21: the store after "two squared" is committed to 4 over the seeded store of
`N = 4`. -/
theorem tiers_are_ordered_witness :
    count (commit 2 2 4 "two squared" "2 ²" ⟨seeded 4, []⟩).number_names 4 3 ≤
      count (commit 2 2 4 "two squared" "2 ²" ⟨seeded 4, []⟩).number_names 4 2 :=
  (tiers_are_ordered 4 (commit 2 2 4 "two squared" "2 ²" ⟨seeded 4, []⟩).number_names
    (Reachable.commit ⟨seeded 4, []⟩ 2 2 4 "two squared" "2 ²" Reachable.seed (by decide)
      (by decide) (by decide))).1 4 2 (by decide)

/-- C22, as stated, fails: the binary operator "fraction" is declared with syllable cost 0. -/
theorem fraction_costs_nothing :
    ¬ ((∀ op ∈ unary, 0 < op.syllables) ∧ (∀ op ∈ binary, 0 < op.syllables)) := by
  decide

/-- C22, amended: both unary operators and every binary operator other than "fraction" have a
strictly positive syllable cost; "fraction" has cost 0. -/
theorem operators_cost_except_fraction :
    (∀ op ∈ unary, 0 < op.syllables) ∧
    (∀ op ∈ binary, op.id ≠ "fraction" → 0 < op.syllables) ∧
    (∀ op ∈ binary, op.id = "fraction" → op.syllables = 0) ∧
    unary.length = 2 ∧ binary.length = 7 ∧ (∃ op ∈ binary, op.id = "fraction") := by
  decide

/-! ## The work partition -/

theorem decimal_digits_eq (n k : Nat) (h1 : 10 ^ k ≤ n) (h2 : n < 10 ^ (k + 1)) :
    decimal_digits n = k + 1 := by
  have hn : n ≠ 0 := by
    have : 0 < 10 ^ k := pow_pos (by decide) k
    omega
  unfold decimal_digits
  rw [if_neg hn, Nat.digits_len 10 n (by decide) hn, Nat.log_eq_of_pow_le_of_lt_pow h1 h2]

theorem seeded_digits (N n : Nat) (h : n ≤ N) :
    ((seeded N).getD n default).digits = (base_syllables (store_before n) n).digits := by
  have := (seeded_static N n h).1
  unfold static_fields at this
  simp only [Prod.mk.injEq] at this
  rw [this.2.2.2.1]
  rfl

theorem base_digits_small (n : Nat) (h : n < 100) :
    (base_syllables (store_before n) n).digits = if n < 20 then 1 else 2 := by
  conv_lhs => unfold base_syllables
  by_cases h20 : n < 20
  · simp only [h20, if_true]
  · simp only [h20, h, if_true, if_false]
    split_ifs <;> rfl

theorem base_digits_large (n i : Nat) (h100 : 100 ≤ n) (hi : large_index_loop n large_names.length 0 = i) :
    (base_syllables (store_before n) n).digits =
      (large_names.getD i default).zeroesAdd +
        (base_syllables (store_before (n / (large_names.getD i default).base))
          (n / (large_names.getD i default).base)).digits := by
  have hb : 100 ≤ (large_names.getD i default).base ∧ (large_names.getD i default).base ≤ n := by
    rw [← hi]
    have hlt : ∀ fuel j, j < large_names.length →
        large_index_loop n fuel j < large_names.length := by
      intro fuel
      induction fuel with
      | zero => intro j hj; exact hj
      | succ f ih =>
        intro j hj
        unfold large_index_loop
        split_ifs with hc
        · exact ih (j + 1) hc.1
        · exact hj
    exact ⟨large_names_base _ (hlt _ 0 (by decide)),
      large_index_loop_base n _ 0 (by decide) h100⟩
  have hq : n / (large_names.getD i default).base < n :=
    Nat.div_lt_self (by omega) (by omega)
  have hread := store_before_entry n (n / (large_names.getD i default).base) hq
  conv_lhs => unfold base_syllables
  simp only [show ¬ n < 20 by omega, show ¬ n < 100 by omega, if_false, hi]
  split_ifs
  · simp only [hread]; rfl
  · simp only [hread]; rfl

theorem large_index_hundred (n : Nat) (h1 : 100 ≤ n) (h2 : n < 1000) :
    large_index_loop n large_names.length 0 = 0 := by
  show large_index_loop n 4 0 = 0
  rw [large_index_loop, if_neg]
  intro hc
  have : 1000 ≤ n := hc.2
  omega

theorem large_index_thousand (n : Nat) (h1 : 1000 ≤ n) (h2 : n < 1000000) :
    large_index_loop n large_names.length 0 = 1 := by
  show large_index_loop n 4 0 = 1
  rw [large_index_loop, if_pos ⟨by decide, by show 1000 ≤ n; omega⟩, large_index_loop, if_neg]
  intro hc
  have : 1000000 ≤ n := hc.2
  omega

theorem large_index_million (n : Nat) (h1 : 1000000 ≤ n) (h2 : n < 1000000000) :
    large_index_loop n large_names.length 0 = 2 := by
  show large_index_loop n 4 0 = 2
  rw [large_index_loop, if_pos ⟨by decide, by show 1000 ≤ n; omega⟩, large_index_loop,
    if_pos ⟨by decide, by show 1000000 ≤ n; omega⟩, large_index_loop, if_neg]
  intro hc
  have : 1000000000 ≤ n := hc.2
  omega

/-- The digit count that `base_syllables` returns, for every `n` below ten million. -/
theorem base_digits (n : Nat) (h : n < 10000000) :
    (base_syllables (store_before n) n).digits =
      if n < 20 then 1 else if n < 100 then 2 else if n < 1000 then 3
      else if n < 20000 then 4 else if n < 100000 then 5 else if n < 1000000 then 6 else 7 := by
  by_cases h100 : n < 100
  · rw [base_digits_small n h100]
    split_ifs <;> rfl
  · by_cases h1000 : n < 1000
    · rw [base_digits_large n 0 (by omega) (large_index_hundred n (by omega) h1000)]
      have e : (large_names.getD 0 default) = ⟨"hundred", 2, 100, 2⟩ := rfl
      rw [e]
      simp only []
      rw [base_digits_small (n / 100) (by omega), if_pos (by omega)]
      split_ifs <;> first | rfl | omega
    · by_cases h6 : n < 1000000
      · rw [base_digits_large n 1 (by omega) (large_index_thousand n (by omega) h6)]
        have e : (large_names.getD 1 default) = ⟨"thousand", 2, 1000, 3⟩ := rfl
        rw [e]
        simp only []
        by_cases hq : n / 1000 < 100
        · rw [base_digits_small (n / 1000) hq]
          split_ifs <;> first | rfl | omega
        · rw [base_digits_large (n / 1000) 0 (by omega)
            (large_index_hundred (n / 1000) (by omega) (by omega))]
          have e0 : (large_names.getD 0 default) = ⟨"hundred", 2, 100, 2⟩ := rfl
          rw [e0]
          simp only []
          rw [base_digits_small (n / 1000 / 100) (by omega), if_pos (by omega)]
          split_ifs <;> first | rfl | omega
      · rw [base_digits_large n 2 (by omega) (large_index_million n (by omega) (by omega))]
        have e : (large_names.getD 2 default) = ⟨"million", 2, 1000000, 6⟩ := rfl
        rw [e]
        simp only []
        rw [base_digits_small (n / 1000000) (by omega), if_pos (by omega)]
        split_ifs <;> first | rfl | omega

/-- C25, as stated, fails: the entry of 10 is seeded with digit count 1, and 10 has two decimal
digits. -/
theorem ten_is_seeded_with_one_digit :
    ((seeded 10).getD 10 default).digits = 1 ∧ decimal_digits 10 = 2 ∧
      ((seeded 10).getD 10 default).digits ≠ decimal_digits 10 := by
  have h1 : ((seeded 10).getD 10 default).digits = 1 := by decide
  have h2 : decimal_digits 10 = 2 := decimal_digits_eq 10 1 (by decide) (by decide)
  exact ⟨h1, h2, by rw [h1, h2]; decide⟩

/-- C25, amended: for every `n` in `[0, N]` below ten million, the digit count stored in the
entry of `n` at seeding is the number of decimal digits of `n`, except for `n` in `10..19` and
in `10000..19999`, where it is one less. -/
theorem stored_digits (N n : Nat) (hn : n ≤ N) (h : n < 10000000) :
    ((seeded N).getD n default).digits =
      if (10 ≤ n ∧ n < 20) ∨ (10000 ≤ n ∧ n < 20000) then decimal_digits n - 1
      else decimal_digits n := by
  rw [seeded_digits N n hn, base_digits n h]
  by_cases h0 : n < 10
  · have hd : decimal_digits n = 1 := by
      by_cases hz : n = 0
      · subst hz; rfl
      · exact decimal_digits_eq n 0 (by simp; omega) (by simpa using h0)
    rw [hd, if_pos (by omega), if_neg (by omega)]
  · by_cases h1 : n < 100
    · rw [decimal_digits_eq n 1 (by simp; omega) (by simpa using h1)]
      split_ifs <;> omega
    · by_cases h2 : n < 1000
      · rw [decimal_digits_eq n 2 (by simp; omega) (by simpa using h2)]
        split_ifs <;> omega
      · by_cases h3 : n < 10000
        · rw [decimal_digits_eq n 3 (by simp; omega) (by simpa using h3)]
          split_ifs <;> omega
        · by_cases h4 : n < 100000
          · rw [decimal_digits_eq n 4 (by simp; omega) (by simpa using h4)]
            split_ifs <;> omega
          · by_cases h5 : n < 1000000
            · rw [decimal_digits_eq n 5 (by simp; omega) (by simpa using h5)]
              split_ifs <;> omega
            · rw [decimal_digits_eq n 6 (by simp; omega) (by simpa using h)]
              split_ifs <;> omega

/-- Instance of C25, amended: the entry of 27 in the store seeded for `N = 27` has digit
count 2. -/
theorem stored_digits_witness :
    27 ≤ 27 ∧ 27 < 10000000 ∧ ((seeded 27).getD 27 default).digits = decimal_digits 27 :=
  ⟨by decide, by decide, stored_digits 27 27 (by decide) (by decide)⟩

/-! ## Cost accounting of the commits -/

theorem binary_candidate_spec (N s : Nat) (op : BinaryOp) (l r : Nat) (w : Sweep) :
    binary_candidate N s op l r w = w ∨
      ∃ out : Nat, get_output op.id l r = ((out : Int), true) ∧ out ≤ N ∧
        ∃ eq, binary_candidate N s op l r w =
          commit op.pemdas_result s out
            (name_at w.number_names l op.pemdas_left ++ op.text ++
              name_at w.number_names r op.pemdas_right ++ op.suffix) eq w := by
  unfold binary_candidate
  simp only []
  split_ifs with h1 h2 h3 h4
  · exact Or.inl rfl
  · exact Or.inl rfl
  · exact Or.inl rfl
  · exact Or.inl rfl
  · right
    have h5 : ¬ ((get_output op.id l r).1 > N) := fun h => h4 (Or.inr h)
    have h6 : ¬ ((get_output op.id l r).1 < 0) := fun h => h4 (Or.inl h)
    have h7 : (get_output op.id l r).2 = true := by
      cases hb : (get_output op.id l r).2
      · exact absurd hb h3
      · rfl
    refine ⟨(get_output op.id l r).1.toNat, ?_, by omega, _, rfl⟩
    rw [Int.toNat_of_nonneg (by omega), ← h7]

theorem unary_candidate_spec (N s : Nat) (op : UnaryOp) (v : Nat) (w : Sweep) :
    unary_candidate N s op v w = w ∨
      ∃ out : Nat, get_output op.id v 0 = ((out : Int), true) ∧ out ≤ N ∧
        ∃ eq, unary_candidate N s op v w =
          commit op.pemdas_result s out
            (name_at w.number_names v op.pemdas_input ++ op.text) eq w := by
  unfold unary_candidate
  simp only []
  split_ifs with h3 h4
  · exact Or.inl rfl
  · exact Or.inl rfl
  · right
    have h5 : ¬ ((get_output op.id v 0).1 > N) := fun h => h4 (Or.inr h)
    have h6 : ¬ ((get_output op.id v 0).1 < 0) := fun h => h4 (Or.inl h)
    have h7 : (get_output op.id v 0).2 = true := by
      cases hb : (get_output op.id v 0).2
      · exact absurd hb h3
      · rfl
    refine ⟨(get_output op.id v 0).1.toNat, ?_, by omega, _, rfl⟩
    rw [Int.toNat_of_nonneg (by omega), ← h7]

theorem right_loop_members (P : Sweep → Prop) (N s : Nat) (op : BinaryOp) (l : Nat)
    (ext : Extremes) (rl : List Nat)
    (hP : ∀ w r, r ∈ rl → P w → P (binary_candidate N s op l r w))
    (w : Sweep) (hw : P w) : P (right_loop N s op l ext rl w) := by
  induction rl generalizing w with
  | nil => exact hw
  | cons r t ih =>
    have ih2 := ih (fun w r hr => hP w r (List.mem_cons_of_mem _ hr))
    unfold right_loop
    split_ifs
    · exact ih2 w hw
    · exact hw
    · exact ih2 _ (hP w r (List.mem_cons_self _ _) hw)

theorem left_loop_members (P : Sweep → Prop) (X : Pruning) (mm N s : Nat) (op : BinaryOp)
    (ext : Extremes) (rl ll : List Nat)
    (hP : ∀ w l r, l ∈ ll → r ∈ rl → P w → P (binary_candidate N s op l r w))
    (w : Sweep) (hw : P w) : P (left_loop X mm N s op ext rl ll w) := by
  induction ll generalizing w with
  | nil => exact hw
  | cons l t ih =>
    have ih2 := ih (fun w l r hl => hP w l r (List.mem_cons_of_mem _ hl))
    unfold left_loop
    split_ifs
    · exact ih2 w hw
    · exact hw
    · exact ih2 _ (right_loop_members P N s op l _ rl
        (fun w r hr => hP w l r (List.mem_cons_self _ _) hr) w hw)

theorem unary_loop_members (P : Sweep → Prop) (N s : Nat) (op : UnaryOp) (ext : Extremes)
    (il : List Nat) (hP : ∀ w v, v ∈ il → P w → P (unary_candidate N s op v w))
    (w : Sweep) (hw : P w) : P (unary_loop N s op ext il w) := by
  induction il generalizing w with
  | nil => exact hw
  | cons v t ih =>
    have ih2 := ih (fun w v hv => hP w v (List.mem_cons_of_mem _ hv))
    unfold unary_loop
    split_ifs
    · exact ih2 w hw
    · exact hw
    · exact ih2 _ (hP w v (List.mem_cons_self _ _) hw)

/-- During a sweep of layer `s` a member of a bucket of the index keeps the count of its
bucket. -/
theorem sweep_member_count (s : Nat) (st : State) (w : Sweep) (j u n : Nat)
    (hs : IndexSound s st) (hw : SweepInv s st.number_names w)
    (hn : n ∈ bucket st.syllable_key j u) : count w.number_names n u = j := by
  have h1 := hs.2.2.2 j u n hn
  rcases hw.2.1 n u with a | a
  · rw [a]; exact h1.1
  · omega

theorem binary_pemdas_lt : ∀ op ∈ binary,
    op.pemdas_left < pemdas_count ∧ op.pemdas_right < pemdas_count ∧
      op.pemdas_result < pemdas_count := by
  decide

theorem unary_pemdas_lt : ∀ op ∈ unary,
    op.pemdas_input < pemdas_count ∧ op.pemdas_result < pemdas_count := by
  decide

/-- A member of a bucket of a budget `j ≥ 1` is an integer of `[0, N]`. -/
theorem member_le (N s : Nat) (st : State) (j u n : Nat) (hs : IndexSound s st)
    (hlen : st.number_names.length = N + 1) (h0 : ∀ u, bucket st.syllable_key 0 u = [])
    (hn : n ∈ bucket st.syllable_key j u) : 1 ≤ j ∧ n ≤ N := by
  have hj : 1 ≤ j := by
    by_contra hc
    have : j = 0 := by omega
    subst this
    rw [h0 u] at hn
    cases hn
  have h1 := (hs.2.2.2 j u n hn).1
  have := count_pos_lt_length st.number_names n u (by omega)
  exact ⟨hj, by omega⟩

theorem sweep_accounted_init (N s : Nat) (nn0 : List Entry) (st : State)
    (h : LayerAccounted N s nn0 st) :
    SweepAccounted N s nn0 st ⟨st.number_names, List.replicate pemdas_count []⟩ :=
  ⟨sweep_inv_init s st.number_names, h.2.2.1, h.2.2.2⟩

theorem left_loop_accounted (X : Pruning) (N s : Nat) (nn0 : List Entry) (st : State)
    (op : BinaryOp) (hop : op ∈ binary) (ext : Extremes) (ls : Nat)
    (h : LayerAccounted N s nn0 st) :
    SweepAccounted N s nn0 st (left_loop X st.min_missing N s op ext
      (bucket st.syllable_key (s - op.syllables - ls) op.pemdas_right)
      (bucket st.syllable_key ls op.pemdas_left)
      ⟨st.number_names, List.replicate pemdas_count []⟩) := by
  refine left_loop_members (SweepAccounted N s nn0 st) X _ N s op ext _ _ ?_ _
    (sweep_accounted_init N s nn0 st h)
  intro w l r hl hr hw
  obtain ⟨hs, h0, hlen, _⟩ := h
  obtain ⟨w1, w2, w3⟩ := hw
  have cl := sweep_member_count s st w _ _ l hs w1 hl
  have cr := sweep_member_count s st w _ _ r hs w1 hr
  have ml := member_le N s st _ _ l hs hlen h0 hl
  have mr := member_le N s st _ _ r hs hlen h0 hr
  rcases binary_candidate_spec N s op l r w with e | ⟨out, ho, hoN, eq, e⟩
  · rw [e]; exact ⟨w1, w2, w3⟩
  · rw [e]
    refine ⟨sweep_inv_commit s st.number_names w _ out _ eq w1, ?_, ?_⟩
    · rw [commit_length]; exact w2
    · refine AccountedRun.commit w _ out _ eq w3 (Or.inl ⟨op, hop, l, r, ml.2, mr.2, rfl, ho, hoN, ?_, rfl⟩)
      rw [cl, cr]
      omega

theorem unary_loop_accounted (N s : Nat) (nn0 : List Entry) (st : State)
    (op : UnaryOp) (hop : op ∈ unary) (ext : Extremes) (hso : ¬ s ≤ op.syllables)
    (h : LayerAccounted N s nn0 st) :
    SweepAccounted N s nn0 st (unary_loop N s op ext
      (bucket st.syllable_key (s - op.syllables) op.pemdas_input)
      ⟨st.number_names, List.replicate pemdas_count []⟩) := by
  refine unary_loop_members (SweepAccounted N s nn0 st) N s op ext _ ?_ _
    (sweep_accounted_init N s nn0 st h)
  intro w v hv hw
  obtain ⟨hs, h0, hlen, _⟩ := h
  obtain ⟨w1, w2, w3⟩ := hw
  have cv := sweep_member_count s st w _ _ v hs w1 hv
  have mv := member_le N s st _ _ v hs hlen h0 hv
  rcases unary_candidate_spec N s op v w with e | ⟨out, ho, hoN, eq, e⟩
  · rw [e]; exact ⟨w1, w2, w3⟩
  · rw [e]
    refine ⟨sweep_inv_commit s st.number_names w _ out _ eq w1, ?_, ?_⟩
    · rw [commit_length]; exact w2
    · refine AccountedRun.commit w _ out _ eq w3 (Or.inr ⟨op, hop, v, mv.2, rfl, ho, hoN, ?_, rfl⟩)
      rw [cv]
      omega

theorem merged_accounted (N s : Nat) (hs1 : 1 ≤ s) (nn0 : List Entry) (st : State) (w : Sweep)
    (h : LayerAccounted N s nn0 st) (hw : SweepAccounted N s nn0 st w) :
    LayerAccounted N s nn0 (merged s st w) := by
  have hc : IndexComplete s (N + 1) N st := by
    intro n u hlo hN; omega
  refine ⟨(merge_keeps_index s (N + 1) N st w hw.1 ⟨h.1, hc⟩).1, ?_, hw.2.1, hw.2.2⟩
  intro u
  rw [merged_bucket_ne s st w 0 u (by omega)]
  exact h.2.1 u

/-- The commits of a layer are accounted for. -/
theorem layer_accounted (X : Pruning) (leave_point N k : Nat) :
    AccountedRun N (k + 1) (after_layers X leave_point N k).number_names
      (after_layers X leave_point N (k + 1)).number_names := by
  have hs := after_layers_index_sound X leave_point N k
  have hfill : LayerAccounted N (k + 1) (after_layers X leave_point N k).number_names
      (fill_index N (k + 1) (after_layers X leave_point N k)) := by
    refine ⟨fill_index_sound N k _ hs, ?_, (after_layers_shape X leave_point N k).1,
      AccountedRun.start⟩
    intro u
    rw [fill_index_bucket N (k + 1) _ hs.1, if_neg (fun hh => by omega),
      after_layers_bucket_stable X leave_point N 0 k 0 u (le_refl _) (Nat.zero_le _)]
    show bucket [List.replicate pemdas_count ([] : List Nat)] 0 u = []
    exact replicate_nil_getD u
  have := layer_ops_state (LayerAccounted N (k + 1) (after_layers X leave_point N k).number_names)
    X N (k + 1) ?_ ?_ _ hfill
  · exact this.2.2.2
  · intro st op ext ls hop h
    rcases binary_split_eq X N (k + 1) op ext st ls with e | e
    · rw [e]; exact h
    · rw [e]
      exact merged_accounted N (k + 1) (by omega) _ st _ h
        (left_loop_accounted X N (k + 1) _ st op hop ext ls h)
  · intro st op hop h
    by_cases hso : k + 1 ≤ op.syllables
    · have : unary_op X N (k + 1) st op = st := by
        unfold unary_op
        rw [if_pos hso]
      rw [this]; exact h
    · rcases unary_op_eq X N (k + 1) op st with e | e
      · rw [e]; exact h
      · rw [e]
        exact merged_accounted N (k + 1) (by omega) _ st _ h
          (unary_loop_accounted N (k + 1) _ st op hop _ hso h)

theorem commit_shape (N r s out : Nat) (nm eq : String) (w : Sweep)
    (hw : Shape N w.number_names) : Shape N (commit r s out nm eq w).number_names := by
  refine ⟨by rw [commit_length]; exact hw.1, ?_⟩
  intro i hi
  have h1 := commit_static r s out nm eq w i
  have h2 := hw.2 i hi
  have h3 := congrArg (fun p => p.1) h1.1
  exact ⟨h3.trans h2.1, h1.2.1.trans h2.2.1, h1.2.2.1.trans h2.2.2.1, h1.2.2.2.trans h2.2.2.2⟩

theorem seeded_derived (N : Nat) : Derived N (seeded N) :=
  ⟨seeded_shape N, fun n u hn hu => Derivation.base n u hn hu⟩

/-- An accounted commit keeps every slot a name with the number of its syllables. -/
theorem commit_derived (N s : Nat) (w : Sweep) (r out : Nat) (nm eq : String)
    (hw : Derived N w.number_names) (ha : Accounted N s w r out nm) :
    Derived N (commit r s out nm eq w).number_names := by
  obtain ⟨hsh, hd⟩ := hw
  refine ⟨commit_shape N r s out nm eq w hsh, ?_⟩
  have hnew : ∀ u, r ≤ u → u < pemdas_count → Derivation N out u s nm := by
    intro u hru hu
    rcases ha with ⟨op, hop, l, rv, hl, hrv, hr, ho, hoN, hs, hnm⟩ |
      ⟨op, hop, v, hv, hr, ho, hoN, hs, hnm⟩
    · have hp := binary_pemdas_lt op hop
      rw [hs, hnm]
      exact Derivation.binary op l rv out u _ _ _ _ hop (hd l _ hl hp.1) (hd rv _ hrv hp.2.1)
        ho hoN (by omega) hu
    · have hp := unary_pemdas_lt op hop
      rw [hs, hnm]
      exact Derivation.unary op v out u _ _ hop (hd v _ hv hp.1) ho hoN (by omega) hu
  have hout : out ≤ N := by
    rcases ha with ⟨_, _, _, _, _, _, _, _, h, _⟩ | ⟨_, _, _, _, _, _, h, _⟩ <;> exact h
  intro n u hn hu
  have hcnt := commit_count r s out nm eq w n u
  have hname := commit_name r s out nm eq w n u
  have hlen : out < w.number_names.length := by rw [hsh.1]; omega
  have hnl : u < (w.number_names.getD n default).names.length := by
    rw [(hsh.2 n hn).2.2.1]; exact hu
  by_cases hc : n = out ∧ r ≤ u ∧ s ≤ count w.number_names n u
  · obtain ⟨h1, h2, h3⟩ := hc
    rw [if_pos ⟨h1, hlen, h2, hu, h3, hnl⟩] at hname
    have hcs : count (commit r s out nm eq w).number_names n u = s := by
      by_cases h4 : s < count w.number_names n u
      · rw [hcnt, if_pos ⟨h1, h2, hu, h4⟩]
      · rw [hcnt, if_neg (fun hh => h4 hh.2.2.2)]
        omega
    rw [hcs, hname, h1]
    exact hnew u h2 hu
  · rw [if_neg (fun hh => hc ⟨hh.1, hh.2.1, by omega⟩)] at hcnt
    rw [if_neg (fun hh => hc ⟨hh.1, hh.2.2.1, hh.2.2.2.2.1⟩)] at hname
    rw [hcnt, hname]
    exact hd n u hn hu

theorem accounted_run_derived (N s : Nat) (nn0 nn : List Entry) (h : AccountedRun N s nn0 nn)
    (h0 : Derived N nn0) : Derived N nn := by
  induction h with
  | start => exact h0
  | commit w r out nm eq _ ha ih => exact commit_derived N s w r out nm eq ih ha

theorem after_layers_derived (X : Pruning) (leave_point N k : Nat) :
    Derived N (after_layers X leave_point N k).number_names := by
  induction k with
  | zero => exact seeded_derived N
  | succ k ih => exact accounted_run_derived N (k + 1) _ _ (layer_accounted X leave_point N k) ih

/-- C23: the store after layer `k + 1` arises from the store after layer `k` by a sequence of
commits of budget `k + 1`, each of which is the candidate of a declared operator whose output is
the operator's value of the operands and whose budget is the operator's cost plus the current
counts of the operands at the tiers the operator reads; so in the state after any number of
layers, and in the state the generator returns, every slot of an integer of `[0, N]` holds a
name and the number of its syllables: the seeded form with its seeded count, or operand names
joined by operator texts with the operator costs added. -/
theorem cost_accounting (X : Pruning) (leave_point N k : Nat) :
    AccountedRun N (k + 1) (after_layers X leave_point N k).number_names
      (after_layers X leave_point N (k + 1)).number_names ∧
    (∀ n u, n ≤ N → u < pemdas_count →
      Derivation N n u (count (after_layers X leave_point N k).number_names n u)
        (name_at (after_layers X leave_point N k).number_names n u)) ∧
    (∀ n u, n ≤ N → u < pemdas_count →
      Derivation N n u (count (number_names_generator X leave_point N).1.number_names n u)
        (name_at (number_names_generator X leave_point N).1.number_names n u)) := by
  refine ⟨layer_accounted X leave_point N k, (after_layers_derived X leave_point N k).2, ?_⟩
  rw [generator_state]
  exact (after_layers_derived X leave_point N _).2

/-- Instance of C23: the slot of 27 at the loosest tier after two layers of the run for
`N = 27`, which holds "three cubed" with count 2. -/
theorem cost_accounting_witness :
    27 ≤ 27 ∧ 5 < pemdas_count ∧
    count (after_layers exact_pruning 27 27 2).number_names 27 5 = 2 ∧
    name_at (after_layers exact_pruning 27 27 2).number_names 27 5 = "three cubed" ∧
    Derivation 27 27 5 (count (after_layers exact_pruning 27 27 2).number_names 27 5)
      (name_at (after_layers exact_pruning 27 27 2).number_names 27 5) :=
  ⟨by decide, by decide, by decide!, by decide!,
    (cost_accounting exact_pruning 27 27 2).2.1 27 5 (by decide) (by decide)⟩

/-! ## Bounds of the unary sweeps -/

/-- C26: with exact roots, the bounds of `get_first_extremes` admit every input `k` of the
squaring and of the cubing operator whose result lies in `[min_missing, N]`; and a bound pair
that does not put `k` below the minimum but puts it above the maximum (as the `double` pair for
the cubing operator does at `N = 64`, `k = 4`, where `pow(64.0, 1.0/3.0)` is
`3.9999999999999996`) makes the sweep leave the loop at `k`: neither `k` nor any later input is
proposed. -/
theorem unary_bounds_and_useful_inputs (min_missing N k : Nat) :
    (∀ op ∈ unary, (min_missing : Int) ≤ (get_output op.id k 0).1 →
      (get_output op.id k 0).1 ≤ N →
      (exact_pruning.first op.id min_missing N).below k = false ∧
      (exact_pruning.first op.id min_missing N).above k = false) ∧
    (∀ (ext : Extremes) (s : Nat) (op : UnaryOp) (rest : List Nat) (w : Sweep),
      ext.below k = false → ext.above k = true →
      unary_loop N s op ext (k :: rest) w = w) := by
  constructor
  · intro op hop h1 h2
    simp only [unary, List.mem_cons, List.mem_singleton, List.not_mem_nil, or_false] at hop
    rcases hop with rfl | rfl
    · have e : (get_output "²" (k : Int) 0).1 = (k : Int) * k := by
        simp [get_output]
      rw [e] at h1 h2
      have a1 : min_missing ≤ k * k := by exact_mod_cast h1
      have a2 : k * k ≤ N := by exact_mod_cast h2
      simp only [exact_pruning, get_first_extremes, if_true, decide_eq_false_iff_not, pow_two]
      omega
    · have e : (get_output "³" (k : Int) 0).1 = (k : Int) * k * k := by
        simp [get_output]
      rw [e] at h1 h2
      have a1 : min_missing ≤ k * k * k := by exact_mod_cast h1
      have a2 : k * k * k ≤ N := by exact_mod_cast h2
      have e3 : k ^ 3 = k * k * k := by ring
      simp only [exact_pruning, get_first_extremes, decide_eq_false_iff_not, e3]
      simp
      omega
  · intro ext s op rest w hb ha
    rw [unary_loop, hb, ha]
    simp

/-- Instance of C26: 4 is a useful input of the cubing operator for `N = 64`; the pair of
bounds whose upper test is `v > 3.9999999999999996`, that is `v > 3`, drops it. -/
theorem unary_bounds_and_useful_inputs_witness :
    ((1 : Nat) : Int) ≤ (get_output "³" ((4 : Nat) : Int) 0).1 ∧
    (get_output "³" ((4 : Nat) : Int) 0).1 ≤ ((64 : Nat) : Int) ∧
    (exact_pruning.first "³" 1 64).above 4 = false ∧
    unary_loop 64 2 ⟨"³", 1, " cubed", 3, 2, 2⟩ ⟨fun _ => false, fun v => decide (v > 3)⟩
      [4, 5, 6] ⟨seeded 64, List.replicate pemdas_count []⟩ =
      ⟨seeded 64, List.replicate pemdas_count []⟩ :=
  ⟨by decide, by decide,
    ((unary_bounds_and_useful_inputs 1 64 4).1 ⟨"³", 1, " cubed", 3, 2, 2⟩ (by decide)
      (by decide) (by decide)).2,
    (unary_bounds_and_useful_inputs 1 64 4).2 ⟨fun _ => false, fun v => decide (v > 3)⟩ 2
      ⟨"³", 1, " cubed", 3, 2, 2⟩ [5, 6] ⟨seeded 64, List.replicate pemdas_count []⟩ rfl rfl⟩

/-! ## Equation texts -/

theorem least50_range : ∀ n, n < 51 → ∀ u, u < 6 → 1 ≤ least50_at n u ∧ least50_at n u ≤ 4 := by
  decide!

theorem least50_cheap : ∀ n, n < 51 → ∀ u, u < 6 → least50_at n u ≤ 1 → n < 13 := by
  decide!

theorem least50_leaves : ∀ n, n < 51 →
    (∀ u, u < 6 → 1 ≤ u → least50_at n u ≤ (base_syllables (store_before n) n).n_syl) ∧
    least50_at n 0 ≤ (if n = 2 ∧ 0 = 0 then 1 else (base_syllables (store_before n) n).frac_syl) := by
  decide!

theorem least50_base : ∀ n, n < 51 → n ≠ 25 → n ≠ 27 → n ≠ 36 →
    (base_syllables (store_before n) n).n_syl = least50_at n 5 := by
  decide!

theorem least50_unary : ∀ op ∈ unary, ∀ v : Nat, v < 51 → ∀ u, u < 6 → op.pemdas_result ≤ u →
    (get_output op.id v 0).2 = true → 0 ≤ (get_output op.id v 0).1 →
    (get_output op.id v 0).1 ≤ 50 →
    least50_at (get_output op.id v 0).1.toNat u ≤ op.syllables + least50_at v op.pemdas_input := by
  decide!

theorem least50_plus : ∀ a, a < 13 → ∀ b, b < 13 →
    least50_at (a + b) 5 ≤ 1 + least50_at a 5 + least50_at b 5 := by
  decide!

set_option synthInstance.maxSize 2000 in
set_option synthInstance.maxHeartbeats 200000 in
theorem least50_times : ∀ a, a < 13 → ∀ b, b < 13 → a * b ≤ 50 → ∀ u, u < 6 →
    (4 ≤ u → least50_at (a * b) u ≤ 1 + least50_at a 3 + least50_at b 4) ∧
      (3 ≤ u → least50_at (a * b) u ≤ 1 + least50_at a 3 + least50_at b 3) := by
  decide!

set_option synthInstance.maxSize 2000 in
set_option synthInstance.maxHeartbeats 200000 in
theorem least50_fraction : ∀ b, b < 51 → ∀ q, q < 50 / b + 1 → ∀ u, u < 6 → 2 ≤ u →
    least50_at q u ≤ 0 + least50_at (q * b) 2 + least50_at b 0 := by
  decide!

/-- The entries of `least50` are closed under the binary operators: an operator applied to
operands of `[0, 50]` with a result in `[0, 50]` costs at least the entry of the result.  An
operator of two syllables on two operands costs at least 4, the largest entry; an operator of
one syllable costs less only on operands of one syllable, which are below 13; the fraction is
checked for every divisor and quotient. -/
theorem least50_binary : ∀ op ∈ binary, ∀ a : Nat, a < 51 → ∀ b : Nat, b < 51 → ∀ u, u < 6 →
    op.pemdas_result ≤ u →
    (get_output op.id a b).2 = true → 0 ≤ (get_output op.id a b).1 →
    (get_output op.id a b).1 ≤ 50 →
    least50_at (get_output op.id a b).1.toNat u ≤
      op.syllables + least50_at a op.pemdas_left + least50_at b op.pemdas_right := by
  intro op hop a ha b hb u hu hr hok h0 h50
  have hout : (get_output op.id a b).1.toNat < 51 := by omega
  have hmax := (least50_range _ hout u hu).2
  have hl := fun t (ht : t < 6) => (least50_range a ha t ht).1
  have hrr := fun t (ht : t < 6) => (least50_range b hb t ht).1
  simp only [binary, List.mem_cons, List.mem_singleton, List.not_mem_nil, or_false] at hop
  rcases hop with rfl | rfl | rfl | rfl | rfl | rfl | rfl
  · have e : get_output "+" (a : Int) (b : Int) = ((a : Int) + b, true) := by simp [get_output]
    simp only [e] at hmax ⊢
    have hu5 : u = 5 := by simp only [] at hr; omega
    subst hu5
    have e2 : ((a : Int) + b).toNat = a + b := by omega
    rw [e2] at hmax ⊢
    by_cases hc : least50_at a 5 ≤ 1 ∧ least50_at b 5 ≤ 1
    · exact least50_plus a (least50_cheap a ha 5 (by decide) hc.1) b
        (least50_cheap b hb 5 (by decide) hc.2)
    · have h1 := hl 5 (by decide)
      have h2 := hrr 5 (by decide)
      omega
  · have e : get_output "*" (a : Int) (b : Int) = ((a : Int) * b, true) := by simp [get_output]
    simp only [e] at h50 hmax ⊢
    have e2 : ((a : Int) * b).toNat = a * b := by
      rw [← Int.natCast_mul]; exact Int.toNat_ofNat _
    have h3 : a * b ≤ 50 := by
      have : ((a * b : Nat) : Int) ≤ 50 := by rw [Int.natCast_mul]; exact h50
      exact_mod_cast this
    rw [e2] at hmax ⊢
    by_cases hc : least50_at a 3 ≤ 1 ∧ least50_at b 4 ≤ 1
    · exact (least50_times a (least50_cheap a ha 3 (by decide) hc.1) b
        (least50_cheap b hb 4 (by decide) hc.2) h3 u hu).1 hr
    · have h1 := hl 3 (by decide)
      have h2 := hrr 4 (by decide)
      show _ ≤ 1 + least50_at a 3 + least50_at b 4
      omega
  · have e : get_output "*" (a : Int) (b : Int) = ((a : Int) * b, true) := by simp [get_output]
    simp only [e] at h50 hmax ⊢
    have e2 : ((a : Int) * b).toNat = a * b := by
      rw [← Int.natCast_mul]; exact Int.toNat_ofNat _
    have h3 : a * b ≤ 50 := by
      have : ((a * b : Nat) : Int) ≤ 50 := by rw [Int.natCast_mul]; exact h50
      exact_mod_cast this
    rw [e2] at hmax ⊢
    by_cases hc : least50_at a 3 ≤ 1 ∧ least50_at b 3 ≤ 1
    · exact (least50_times a (least50_cheap a ha 3 (by decide) hc.1) b
        (least50_cheap b hb 3 (by decide) hc.2) h3 u hu).2 hr
    · have h1 := hl 3 (by decide)
      have h2 := hrr 3 (by decide)
      show _ ≤ 1 + least50_at a 3 + least50_at b 3
      omega
  · have h1 := hl 5 (by decide)
    have h2 := hrr 4 (by decide)
    show _ ≤ 2 + least50_at a 5 + least50_at b 4
    omega
  · have h1 := hl 3 (by decide)
    have h2 := hrr 2 (by decide)
    show _ ≤ 2 + least50_at a 3 + least50_at b 2
    omega
  · have hd := get_output_div_iff "fraction" (Or.inr rfl) (a : Int) (b : Int)
      (Int.ofNat_nonneg a) (Int.ofNat_nonneg b)
    have hc := hd.1.mp hok
    have hv := hd.2 hok
    have hb0 : b ≠ 0 := by
      intro h; exact hc.1 (by exact_mod_cast h)
    have hm : a % b = 0 := by exact_mod_cast hc.2
    have e2 : (get_output "fraction" (a : Int) (b : Int)).1.toNat = a / b := by
      rw [hv, ← Int.natCast_div]; exact Int.toNat_ofNat _
    show least50_at (get_output "fraction" (a : Int) (b : Int)).1.toNat u ≤ _
    rw [e2]
    have hq : a / b < 50 / b + 1 := Nat.lt_succ_of_le (Nat.div_le_div_right (by omega))
    have := least50_fraction b hb (a / b) hq u hu hr
    rw [Nat.div_mul_cancel (Nat.dvd_of_mod_eq_zero hm)] at this
    exact this
  · have h1 := hl 2 (by decide)
    have h2 := hrr 0 (by decide)
    show _ ≤ 2 + least50_at a 2 + least50_at b 0
    omega

/-- Every name the search can put together for a range `[0, N]` with `N ≤ 50` has at least as
many syllables as the entry of `least50` for its integer and tier. -/
theorem derivation_lower_bound (N : Nat) (hN : N ≤ 50) (n u c : Nat) (nm : String)
    (h : Derivation N n u c nm) : n ≤ N ∧ least50_at n u ≤ c := by
  induction h with
  | base n u hn hu =>
    refine ⟨hn, ?_⟩
    rw [seeded_count N n u hn]
    have hs := least50_leaves n (by omega)
    by_cases h0 : u = 0
    · subst h0
      have := hs.2
      by_cases h2 : n = 2
      · subst h2; simpa using this
      · simpa [h2] using this
    · have := hs.1 u hu (by omega)
      have h1 : ¬ (n = 2 ∧ u = 0) := fun hh => h0 hh.2
      rw [if_neg h1, if_neg h0, if_pos hu]
      exact this
  | unary op v out u c nm hop hd hg hout hr hu ih =>
    refine ⟨hout, ?_⟩
    have h1 := least50_unary op hop v (by omega) u hu hr (by rw [hg]) (by rw [hg]; omega)
      (by rw [hg]; show (out : Int) ≤ 50; omega)
    rw [hg] at h1
    have e : ((out : Int), true).1.toNat = out := Int.toNat_ofNat out
    rw [e] at h1
    omega
  | binary op l r out u cl cr nl nr hop hdl hdr hg hout hr hu ihl ihr =>
    refine ⟨hout, ?_⟩
    have h1 := least50_binary op hop l (by omega) r (by omega) u hu hr (by rw [hg])
      (by rw [hg]; omega) (by rw [hg]; show (out : Int) ≤ 50; omega)
    rw [hg] at h1
    have e : ((out : Int), true).1.toNat = out := Int.toNat_ofNat out
    rw [e] at h1
    omega

/-- The search finds "five squared", "three cubed" and "six squared" in layer 2. -/
theorem power_found :
    count (after_layers exact_pruning 25 25 2).number_names 25 5 ≤ 2 ∧
    count (after_layers exact_pruning 27 27 2).number_names 27 5 ≤ 2 ∧
    count (after_layers exact_pruning 36 36 2).number_names 36 5 ≤ 2 := by
  refine ⟨by decide!, by decide!, by decide!⟩

/-- The count reported for a target of `[1, 50]` is its entry of `least50`: it is at least the
entry because the stored name is put together from seeded forms and operators, and at most the
entry because counts never increase from the baseline (from "five squared", "three cubed" and
"six squared" for 25, 27 and 36). -/
theorem engine50 : ∀ N, N < 51 → 1 ≤ N → best_syl N = least50_at N 5 := by
  intro N h h1
  have hst := generator_state exact_pruning N N
  have hb : best_syl N =
      count (after_layers exact_pruning N N (number_names_generator exact_pruning N N).2).number_names
        N 5 := by
    unfold best_syl
    rw [hst]
    exact after_layers_count5 exact_pruning N N _ N (le_refl _)
  rw [hb]
  apply le_antisymm
  · by_cases hp : N = 25 ∨ N = 27 ∨ N = 36
    · have h2 : count (after_layers exact_pruning N N 2).number_names N 5 ≤ 2 ∧
          least50_at N 5 = 2 := by
        rcases hp with rfl | rfl | rfl
        · exact ⟨power_found.1, rfl⟩
        · exact ⟨power_found.2.1, rfl⟩
        · exact ⟨power_found.2.2, rfl⟩
      rw [h2.2]
      by_cases hL : 2 ≤ (number_names_generator exact_pruning N N).2
      · exact le_trans (after_layers_count_le exact_pruning N N N 5 2 _ hL) h2.1
      · have hleft := generator_left exact_pruning N
        rw [hst] at hleft
        have := (after_layers_below exact_pruning N _ N h1 hleft).2
        omega
    · have h0 := after_layers_count_le exact_pruning N N N 5 0
        (number_names_generator exact_pruning N N).2 (Nat.zero_le _)
      have h3 : count (after_layers exact_pruning N N 0).number_names N 5 =
          (base_syllables (store_before N) N).n_syl := by
        show count (seeded N) N 5 = _
        rw [seeded_count5 N N (le_refl _), seeded_original N N (le_refl _)]
      rw [h3, least50_base N h (fun e => hp (Or.inl e)) (fun e => hp (Or.inr (Or.inl e)))
        (fun e => hp (Or.inr (Or.inr e)))] at h0
      exact h0
  · exact (derivation_lower_bound N (by omega) N 5 _ _
      ((after_layers_derived exact_pruning N N _).2 N 5 (le_refl _) (by decide))).2

theorem best_tree50 : ∀ N, N < 51 → 1 ≤ N →
    (best_tree N).eval N = some N ∧ (best_tree N).usable 5 = true ∧
      (best_tree N).cost N = least50_at N 5 := by
  decide!

theorem usable_lt (t : Tree) (u : Nat) (h : t.usable u = true) : u < pemdas_count := by
  cases t <;> simp [Tree.usable, pemdas_count] at h ⊢ <;> omega

/-- Every tree that is well formed for a range `[0, N]` with `N ≤ 50` costs at least
the entry of `least50` for its value at every tier at which it is usable. -/
theorem tree_lower_bound (N : Nat) (hN : N ≤ 50) (t : Tree) :
    ∀ v, t.eval N = some v → v ≤ N ∧ ∀ u, t.usable u = true → least50_at v u ≤ t.cost N := by
  induction t with
  | cardinal n =>
    intro v hv
    simp only [Tree.eval] at hv
    split_ifs at hv with hc
    cases hv
    refine ⟨hc.2, ?_⟩
    intro u hu
    simp only [Tree.usable, Bool.and_eq_true, decide_eq_true_eq] at hu
    show least50_at n u ≤ ((seeded N).getD n default).original
    rw [seeded_original N n hc.2]
    exact (least50_leaves n (by omega)).1 u hu.2 hu.1
  | modifier n =>
    intro v hv
    simp only [Tree.eval] at hv
    split_ifs at hv with hc
    cases hv
    refine ⟨hc.2, ?_⟩
    intro u hu
    simp only [Tree.usable, decide_eq_true_eq] at hu
    subst hu
    show least50_at n 0 ≤ count (seeded N) n 0
    rw [seeded_count N n 0 hc.2]
    have := (least50_leaves n (by omega)).2
    simpa using this
  | unary op t ih =>
    intro v hv
    simp only [Tree.eval] at hv
    cases hte : t.eval N with
    | none => rw [hte] at hv; simp at hv
    | some a =>
      rw [hte] at hv
      simp only [] at hv
      split_ifs at hv with hc
      cases hv
      obtain ⟨hop, hus, hok, h0, hle⟩ := hc
      have iha := ih a hte
      refine ⟨by omega, ?_⟩
      intro u hu
      have hu6 := usable_lt _ u hu
      simp only [Tree.usable, Bool.and_eq_true, decide_eq_true_eq] at hu
      have h1 := least50_unary op hop a (by omega) u hu6 hu.1 hok h0 (by omega)
      have h2 := iha.2 op.pemdas_input hus
      show _ ≤ op.syllables + t.cost N
      omega
  | binary op l r ihl ihr =>
    intro v hv
    simp only [Tree.eval] at hv
    cases hle : l.eval N with
    | none => rw [hle] at hv; simp at hv
    | some a =>
      cases hre : r.eval N with
      | none => rw [hle, hre] at hv; simp at hv
      | some b =>
        rw [hle, hre] at hv
        simp only [] at hv
        split_ifs at hv with hc
        cases hv
        obtain ⟨hop, husl, husr, hok, h0, hlen⟩ := hc
        have iha := ihl a hle
        have ihb := ihr b hre
        refine ⟨by omega, ?_⟩
        intro u hu
        have hu6 := usable_lt _ u hu
        simp only [Tree.usable, Bool.and_eq_true, decide_eq_true_eq] at hu
        have h1 := least50_binary op hop a (by omega) b (by omega) u hu6 hu.1 hok h0 (by omega)
        have h2 := iha.2 op.pemdas_left husl
        have h3 := ihb.2 op.pemdas_right husr
        show _ ≤ op.syllables + l.cost N + r.cost N
        omega

/-- C2: for every target `N` with `1 ≤ N ≤ 50`, the count the engine reports for `N` (run with
exact bounds) is the least cost of an expression tree for `N` over the declared operators and
seeded base forms, respecting operand and result tiers, with exact division and all values in
`[0, N]`. -/
theorem engine_is_optimal_up_to_50 (N : Nat) (h1 : 1 ≤ N) (h50 : N ≤ 50) :
    IsMinimum N (best_syl N) := by
  rw [engine50 N (by omega) h1]
  constructor
  · exact ⟨best_tree N, best_tree50 N (by omega) h1⟩
  · intro t ht hu
    exact (tree_lower_bound N h50 t N ht).2 5 hu

/-- Instance of C2: the count reported for 27 is the least cost of a tree for 27. -/
theorem engine_is_optimal_up_to_50_witness : 1 ≤ 27 ∧ 27 ≤ 50 ∧ IsMinimum 27 (best_syl 27) :=
  ⟨by decide, by decide, engine_is_optimal_up_to_50 27 (by decide) (by decide)⟩

end Silly
